import Mathlib

/-!
Verification development for the rssbook repository (src/rssbook/core.py).

The Python source is shallowly embedded: strings are `List Char`, the lxml
HTML parse / XML serialize pipeline used by `HTMLToXHTMLConverter.convert`
is modelled by an executable permissive tokenizer, tree builder and
serializer, the three `re.sub` rewrites are modelled by faithful scanners,
and the stateful image-download cache of `EPUBCreator` is modelled by
explicit state passing with a network oracle.  External collaborators
(requests, hashlib.md5, feedparser, trafilatura, slugify) are modelled as
function parameters or small faithful models, as noted on each definition.
All definitions are structurally recursive so that concrete runs evaluate
inside the kernel.
-/

namespace Rssbook

/-- Abbreviation: Python strings are modelled as lists of characters. -/
abbrev LC := List Char

/-- Does the first list occur at the start of the second?  Models Python
`str.startswith` and the anchored literal part of a regex. -/
def startsWithL : LC → LC → Bool
  | [], _ => true
  | _ :: _, [] => false
  | p :: ps, c :: cs => p = c && startsWithL ps cs

/-- A string consisting only of whitespace (this is what libxml2 rejects as
an empty document and what `remove_blank_text=True` drops). -/
def isBlankL (s : LC) : Bool := s.all (fun c => c.isWhitespace)

/-! ## The document tree

Models the element tree produced by `lxml.etree.HTMLParser`.  Attributes
are ordered name/value pairs; text nodes hold unescaped character data.
Children are a mutually inductive list so that all tree recursions are
structural (and hence compute in the kernel). -/

mutual

/-- An lxml element-tree node: either character data or an element with a
tag name, attributes and children. -/
inductive Node where
  | text (s : LC) : Node
  | elem (tag : LC) (attrs : List (LC × LC)) (children : NodeList) : Node

/-- A list of sibling nodes. -/
inductive NodeList where
  | nil : NodeList
  | cons (head : Node) (tail : NodeList) : NodeList

end

/-- Convert an ordinary list of nodes into a `NodeList`. -/
def NodeList.ofList : List Node → NodeList
  | [] => .nil
  | n :: ns => .cons n (NodeList.ofList ns)

mutual

/-- Boolean equality on nodes. -/
def Node.beq : Node → Node → Bool
  | .text s, .text t => s == t
  | .elem t1 a1 c1, .elem t2 a2 c2 => t1 == t2 && a1 == a2 && NodeList.beq c1 c2
  | _, _ => false

/-- Boolean equality on node lists. -/
def NodeList.beq : NodeList → NodeList → Bool
  | .nil, .nil => true
  | .cons x xs, .cons y ys => Node.beq x y && NodeList.beq xs ys
  | _, _ => false

end

mutual

theorem nodeBeq_iff : ∀ x y : Node, Node.beq x y = true ↔ x = y
  | .text s, .text t => by simp [Node.beq]
  | .elem t1 a1 c1, .elem t2 a2 c2 => by
      simp [Node.beq, nodeListBeq_iff c1 c2, and_assoc]
  | .text _, .elem _ _ _ => by simp [Node.beq]
  | .elem _ _ _, .text _ => by simp [Node.beq]

theorem nodeListBeq_iff : ∀ xs ys : NodeList, NodeList.beq xs ys = true ↔ xs = ys
  | .nil, .nil => by simp [NodeList.beq]
  | .cons x xs, .cons y ys => by
      simp [NodeList.beq, nodeBeq_iff x y, nodeListBeq_iff xs ys]
  | .nil, .cons _ _ => by simp [NodeList.beq]
  | .cons _ _, .nil => by simp [NodeList.beq]

end

instance : DecidableEq Node :=
  fun x y => decidable_of_iff _ (nodeBeq_iff x y)

instance : DecidableEq NodeList :=
  fun x y => decidable_of_iff _ (nodeListBeq_iff x y)

/-- Is this node a text node?  Used by the libxml2 pretty printer, which
disables indentation inside elements that have text children. -/
def isTextNode : Node → Bool
  | .text _ => true
  | _ => false

/-- Does this sibling list contain a text node? -/
def NodeList.hasText : NodeList → Bool
  | .nil => false
  | .cons n ns => isTextNode n || NodeList.hasText ns

/-! ## XML serialization

Models `etree.tostring(root, encoding="unicode", doctype=..., pretty_print=...,
method="xml")`: libxml2 `xmlNodeDumpOutput`.  Childless elements are written
self-closing (`<t/>`); with `pretty_print` an element whose children are all
elements puts each child on its own line indented two spaces per depth, and
formatting is disabled for the whole subtree of an element with text
children.  Text escapes `&`, `<`, `>`; attribute values escape `&`, `<`, `"`. -/

/-- Escape one character of text content as libxml2 does. -/
def escChar (c : Char) : LC :=
  if c = '&' then "&amp;".data
  else if c = '<' then "&lt;".data
  else if c = '>' then "&gt;".data
  else [c]

/-- Escape text content for XML serialization. -/
def escapeText : LC → LC
  | [] => []
  | c :: rest => escChar c ++ escapeText rest

/-- Escape one character of an attribute value as libxml2 does. -/
def escAttrChar (c : Char) : LC :=
  if c = '&' then "&amp;".data
  else if c = '<' then "&lt;".data
  else if c = '"' then "&quot;".data
  else [c]

/-- Escape an attribute value for XML serialization. -/
def escapeAttr : LC → LC
  | [] => []
  | c :: rest => escAttrChar c ++ escapeAttr rest

/-- Serialize one attribute: a leading space, then `name="value"`. -/
def serAttr (a : LC × LC) : LC :=
  ' ' :: (a.1 ++ '=' :: '"' :: (escapeAttr a.2 ++ ['"']))

/-- Serialize an attribute list. -/
def serAttrs : List (LC × LC) → LC
  | [] => []
  | a :: rest => serAttr a ++ serAttrs rest

/-- Indentation used by the libxml2 pretty printer: two spaces per depth. -/
def indentL (n : Nat) : LC := List.replicate (2 * n) ' '

mutual

/-- Serialize a node.  `sp` selects the self-closing spelling: `false` gives
libxml2's raw `<t/>`, `true` gives the `<t />` form that `convert` produces
after its first `re.sub`.  `fmt` is the pretty-print flag and `d` the
current depth. -/
def serNode (sp fmt : Bool) (d : Nat) : Node → LC
  | .text s => escapeText s
  | .elem t a .nil =>
      '<' :: (t ++ serAttrs a ++ (if sp then [' ', '/', '>'] else ['/', '>']))
  | .elem t a (.cons c cs) =>
      let fmt2 := fmt && !(NodeList.cons c cs).hasText
      '<' :: (t ++ serAttrs a ++ '>' ::
        ((if fmt2 then serKidsFmt sp (d + 1) (.cons c cs) ++ '\n' :: indentL d
          else serKids sp (.cons c cs)) ++
         ('<' :: '/' :: (t ++ ['>']))))

/-- Serialize children inline (formatting disabled). -/
def serKids (sp : Bool) : NodeList → LC
  | .nil => []
  | .cons c cs => serNode sp false 0 c ++ serKids sp cs

/-- Serialize children one per line at depth `d` (formatting enabled). -/
def serKidsFmt (sp : Bool) (d : Nat) : NodeList → LC
  | .nil => []
  | .cons c cs => '\n' :: (indentL d ++ serNode sp true d c ++ serKidsFmt sp d cs)

end

/-- The EPUB 2.0 doctype emitted by `HTMLToXHTMLConverter.convert`. -/
def doctypeStr : LC :=
  ("<!DOCTYPE html PUBLIC \"-//W3C//DTD XHTML 1.1//EN\" " ++
   "\"http://www.w3.org/TR/xhtml11/DTD/xhtml11.dtd\">").data

/-- Serialize a whole document as `etree.tostring(..., doctype=...,
pretty_print=True)` does: doctype, newline, root element, trailing newline. -/
def tostringDoc (sp : Bool) (root : Node) : LC :=
  doctypeStr ++ '\n' :: (serNode sp true 0 root ++ ['\n'])

/-! ## The `re.sub` rewrites of `HTMLToXHTMLConverter.convert`

`re.sub` scans left to right for the leftmost match, replaces it, and
resumes after the replacement.  Each pattern below contains `[^>]` pieces
that cannot cross a `>`, so a candidate match starting at a `<` extends to
the first following `>`; the scanners below reproduce that behaviour with
a buffer holding the characters read since the current `<`. -/

/-- Scanner for `re.sub(r"<([^>]+)/>", r"<\1 />", s)`.  `buf = some b` means
a `<` has been read and `b` collects the characters after it; at the
closing `>` the match `<b>` is rewritten when `b` is a nonempty group
followed by `/`.  A `<` with no later `>` is emitted unchanged. -/
def fixGo : Option LC → LC → LC
  | none, [] => []
  | some b, [] => '<' :: b
  | none, c :: rest =>
      if c = '<' then fixGo (some []) rest
      else c :: fixGo none rest
  | some b, c :: rest =>
      if c = '>' then
        (if 2 ≤ b.length ∧ b.getLast? = some '/' then
          '<' :: (b.dropLast ++ [' ', '/', '>'])
         else '<' :: (b ++ ['>'])) ++ fixGo none rest
      else fixGo (some (b ++ [c])) rest

/-- Model of `re.sub(r"<([^>]+)/>", r"<\1 />", s)`: rewrite every
self-closing tag `<X/>` to `<X />`. -/
def fixSelfClose (s : LC) : LC := fixGo none s

/-- Scanner for `re.sub(f"<{tag}([^>]*)>", f"<div class=\"{tag}\"\\1>", s)`.
At a `<` whose following characters start with `tag` the buffer collects up
to the closing `>`, where the whole tag is rewritten; at any other `<` the
scanner advances one character, as `re.sub` does after a failed match. -/
def rotGo (tag : LC) : Option LC → LC → LC
  | none, [] => []
  | some b, [] => '<' :: b
  | none, c :: rest =>
      if c = '<' && startsWithL tag rest then rotGo tag (some []) rest
      else c :: rotGo tag none rest
  | some b, c :: rest =>
      if c = '>' then
        ('<' :: ("div class=\"".data ++ tag ++ '"' :: (b.drop tag.length ++ ['>']))) ++
          rotGo tag none rest
      else rotGo tag (some (b ++ [c])) rest

/-- Model of `re.sub(f"<{tag}([^>]*)>", f"<div class=\"{tag}\"\\1>", s)`. -/
def replaceOpenTag (tag : LC) (s : LC) : LC := rotGo tag none s

/-- Scanner for `re.sub(f"</{tag}>", "</div>", s)`: literal replacement.
`skip > 0` means the scanner is inside an already-matched occurrence and
drops that many characters; at `skip = 0` it looks for the next match. -/
def rctGo (tag : LC) : Nat → LC → LC
  | _, [] => []
  | skip + 1, _ :: rest => rctGo tag skip rest
  | 0, c :: rest =>
      if startsWithL ('<' :: '/' :: (tag ++ ['>'])) (c :: rest) then
        "</div>".data ++ rctGo tag (tag.length + 2) rest
      else c :: rctGo tag 0 rest

/-- Model of `re.sub(f"</{tag}>", "</div>", s)`. -/
def replaceCloseTag (tag : LC) (s : LC) : LC := rctGo tag 0 s

/-- The fixed deprecated-tag set rewritten by `convert`
(`html5_tags` in the source). -/
def html5Tags : List LC :=
  ["article".data, "section".data, "nav".data, "aside".data,
   "header".data, "footer".data]

/-- One iteration of the source loop: rewrite open then close forms of one
deprecated tag. -/
def applyTagRewrite (s : LC) (tag : LC) : LC :=
  replaceCloseTag tag (replaceOpenTag tag s)

/-- The full deprecated-tag rewrite loop of `convert`. -/
def replaceHtml5 (s : LC) : LC := html5Tags.foldl applyTagRewrite s

/-! ## Permissive HTML tokenizer

Models the lexical layer of libxml2's recovering HTML parser as used via
`etree.HTMLParser(remove_blank_text=True)`: markup is split into tags and
character data, tag and attribute names are lowercased, character entities
are decoded, doctypes/comments/processing instructions are skipped, and an
unterminated tag at end of input is discarded. -/

/-- A lexical token of the permissive parser. -/
inductive Tok where
  | tagOpen (name : LC) (attrs : List (LC × LC)) (selfClose : Bool)
  | tagClose (name : LC)
  | chars (s : LC)
deriving Repr, DecidableEq

/-- Decode the standard character entities; a `&` that does not start a
known entity is kept literally (libxml2 recovery). -/
def unescape : LC → LC
  | [] => []
  | '&' :: 'a' :: 'm' :: 'p' :: ';' :: rest => '&' :: unescape rest
  | '&' :: 'l' :: 't' :: ';' :: rest => '<' :: unescape rest
  | '&' :: 'g' :: 't' :: ';' :: rest => '>' :: unescape rest
  | '&' :: 'q' :: 'u' :: 'o' :: 't' :: ';' :: rest => '"' :: unescape rest
  | '&' :: 'a' :: 'p' :: 'o' :: 's' :: ';' :: rest => '\'' :: unescape rest
  | c :: rest => c :: unescape rest

/-- Characters allowed in tag and attribute names. -/
def isNameChar (c : Char) : Bool :=
  c.isAlpha || c.isDigit || c = '-' || c = '_' || c = ':'

/-- Lowercase a name, as libxml2 does for HTML tag and attribute names. -/
def lowerL (s : LC) : LC := s.map Char.toLower

/-- State of the attribute scanner. -/
inductive AttrMode where
  | skip
  | name (acc : LC)
  | afterName (nm : LC)
  | afterEq (nm : LC)
  | quoted (nm : LC) (q : Char) (acc : LC)
  | bare (nm : LC) (acc : LC)

/-- Attribute scanner: reads `name`, `name=value`, `name="value"` and
`name='value'` items separated by whitespace; stray slashes and other
characters are skipped; names are lowercased and entities in values
decoded; a bare attribute gets the empty value. -/
def attrGo : AttrMode → LC → List (LC × LC)
  | .skip, [] => []
  | .name acc, [] => [(lowerL acc, [])]
  | .afterName nm, [] => [(lowerL nm, [])]
  | .afterEq nm, [] => [(lowerL nm, [])]
  | .quoted nm _ acc, [] => [(lowerL nm, unescape acc)]
  | .bare nm acc, [] => [(lowerL nm, unescape acc)]
  | .skip, c :: rest =>
      if isNameChar c then attrGo (.name [c]) rest else attrGo .skip rest
  | .name acc, c :: rest =>
      if isNameChar c then attrGo (.name (acc ++ [c])) rest
      else if c = '=' then attrGo (.afterEq acc) rest
      else if c.isWhitespace then attrGo (.afterName acc) rest
      else (lowerL acc, []) :: attrGo .skip rest
  | .afterName nm, c :: rest =>
      if c = '=' then attrGo (.afterEq nm) rest
      else if c.isWhitespace then attrGo (.afterName nm) rest
      else if isNameChar c then (lowerL nm, []) :: attrGo (.name [c]) rest
      else (lowerL nm, []) :: attrGo .skip rest
  | .afterEq nm, c :: rest =>
      if c = '"' || c = '\'' then attrGo (.quoted nm c []) rest
      else if c.isWhitespace then attrGo (.afterEq nm) rest
      else attrGo (.bare nm [c]) rest
  | .quoted nm q acc, c :: rest =>
      if c = q then (lowerL nm, unescape acc) :: attrGo .skip rest
      else attrGo (.quoted nm q (acc ++ [c])) rest
  | .bare nm acc, c :: rest =>
      if c.isWhitespace then (lowerL nm, unescape acc) :: attrGo .skip rest
      else attrGo (.bare nm (acc ++ [c])) rest

/-- Parse the attribute part of a tag body. -/
def parseAttrsL (l : LC) : List (LC × LC) := attrGo .skip l

/-- Interpret one tag body (the characters between `<` and `>`): doctypes,
comments and processing instructions are skipped; `/name` closes; a body
starting with a letter opens, with `selfClose` recording a trailing `/`;
anything else is bogus markup that libxml2 drops. -/
def parseTagChunk (chunk : LC) : Option Tok :=
  match chunk with
  | [] => none
  | '!' :: _ => none
  | '?' :: _ => none
  | '/' :: rest => some (.tagClose (lowerL (rest.takeWhile isNameChar)))
  | c :: rest =>
      if c.isAlpha then
        some (.tagOpen (lowerL (c :: rest.takeWhile isNameChar))
          (parseAttrsL (rest.dropWhile isNameChar))
          (chunk.getLast? = some '/'))
      else none

/-- State of the lexer: accumulating character data, or inside a tag body
(with the currently open quote, if any). -/
inductive LexMode where
  | txt (acc : LC)
  | tag (acc : LC) (q : Option Char)

/-- The lexer: character data runs to the next `<`; a `<` opens a tag body
read to the matching `>` outside quotes; an unterminated tag is
discarded. -/
def tokGo : LexMode → LC → List Tok
  | .txt acc, [] => if acc.isEmpty then [] else [.chars (unescape acc)]
  | .tag _ _, [] => []
  | .txt acc, c :: rest =>
      if c = '<' then
        (if acc.isEmpty then [] else [.chars (unescape acc)]) ++
          tokGo (.tag [] none) rest
      else tokGo (.txt (acc ++ [c])) rest
  | .tag acc (some q), c :: rest =>
      if c = q then tokGo (.tag (acc ++ [c]) none) rest
      else tokGo (.tag (acc ++ [c]) (some q)) rest
  | .tag acc none, c :: rest =>
      if c = '>' then (parseTagChunk acc).toList ++ tokGo (.txt []) rest
      else if c = '"' || c = '\'' then tokGo (.tag (acc ++ [c]) (some c)) rest
      else tokGo (.tag (acc ++ [c]) none) rest

/-- Tokenize markup. -/
def tokenize (s : LC) : List Tok := tokGo (.txt []) s

/-! ## Permissive tree builder

Models libxml2's recovering tree construction: a stack of open elements; a
mismatched close tag closes intervening elements when a matching open
element exists on the stack and is discarded otherwise; void elements never
take children; duplicate attributes keep the first occurrence
(libxml2 "Attribute redefined" recovery); with `remove_blank_text=True`
whitespace-only text is dropped; finally the forest is wrapped into the
`html`/`body` document structure libxml2 guarantees. -/

/-- An open element awaiting its close tag.  `revKids` holds the children
collected so far, most recent first. -/
structure Frame where
  name : LC
  attrs : List (LC × LC)
  revKids : List Node

/-- The HTML void elements (never have children). -/
def voidTags : List LC :=
  ["area", "base", "br", "col", "embed", "hr", "img", "input", "link",
   "meta", "param", "source", "track", "wbr"].map String.data

/-- Keep only the first occurrence of each attribute name
(`seen` collects the names already taken). -/
def dedupGo (seen : List LC) : List (LC × LC) → List (LC × LC)
  | [] => []
  | a :: rest =>
      if a.1 ∈ seen then dedupGo seen rest
      else a :: dedupGo (a.1 :: seen) rest

/-- Keep only the first occurrence of each attribute name. -/
def dedupAttrs (l : List (LC × LC)) : List (LC × LC) := dedupGo [] l

/-- Attach a completed node to the innermost open element, or to the
top-level accumulator when no element is open. -/
def pushN (n : Node) : List Frame → List Node → (List Frame × List Node)
  | [], done => ([], n :: done)
  | f :: fs, done => ({ f with revKids := n :: f.revKids } :: fs, done)

/-- Does the stack contain an open element with this name? -/
def hasFrame (n : LC) (fs : List Frame) : Bool := fs.any (fun f => f.name = n)

/-- Build the element for a frame. -/
def frameNode (f : Frame) : Node :=
  .elem f.name f.attrs (NodeList.ofList f.revKids.reverse)

/-- Auxiliary for `closeTo`: `n` is a just-closed element still to be
attached while the scan for the target frame continues. -/
def closeToCarry (tgt : LC) (n : Node) : List Frame → List Node → (List Frame × List Node)
  | [], done => ([], n :: done)
  | g :: gs, done =>
      let g2 : Frame := { g with revKids := n :: g.revKids }
      if g.name = tgt then pushN (frameNode g2) gs done
      else closeToCarry tgt (frameNode g2) gs done

/-- Close open elements until one named `tgt` has been closed (callers
ensure one exists). -/
def closeTo (tgt : LC) : List Frame → List Node → (List Frame × List Node)
  | [], done => ([], done)
  | f :: fs, done =>
      if f.name = tgt then pushN (frameNode f) fs done
      else closeToCarry tgt (frameNode f) fs done

/-- Auxiliary for `closeAll`: fold the carried node into the remaining
frames. -/
def closeAllCarry (n : Node) : List Frame → List Node → List Node
  | [], done => n :: done
  | g :: gs, done => closeAllCarry (frameNode { g with revKids := n :: g.revKids }) gs done

/-- Close every still-open element at end of input. -/
def closeAll : List Frame → List Node → List Node
  | [], done => done
  | f :: fs, done => closeAllCarry (frameNode f) fs done

/-- Process one token. -/
def stepTok : (List Frame × List Node) → Tok → (List Frame × List Node)
  | (fs, done), .chars s =>
      if isBlankL s then (fs, done) else pushN (.text s) fs done
  | (fs, done), .tagOpen n attrs sc =>
      let attrs2 := dedupAttrs attrs
      if sc || n ∈ voidTags then pushN (.elem n attrs2 .nil) fs done
      else (⟨n, attrs2, []⟩ :: fs, done)
  | (fs, done), .tagClose n =>
      if hasFrame n fs then closeTo n fs done else (fs, done)

/-- Build the top-level forest from a token stream. -/
def buildNodes (toks : List Tok) : List Node :=
  let st := toks.foldl stepTok ([], [])
  (closeAll st.1 st.2).reverse

/-- Wrap stray top-level character data in paragraphs, as the HTML parser
does when text appears directly under `body`. -/
def wrapStray : List Node → List Node
  | [] => []
  | .text s :: rest => .elem "p".data [] (.cons (.text s) .nil) :: wrapStray rest
  | n :: rest => n :: wrapStray rest

/-- Is this node a `head` or `body` element? -/
def isHeadOrBody : Node → Bool
  | .elem t _ _ => t = "head".data || t = "body".data
  | _ => false

/-- Are all nodes in the list `head` or `body` elements? -/
def NodeList.allHeadOrBody : NodeList → Bool
  | .nil => true
  | .cons n ns => isHeadOrBody n && NodeList.allHeadOrBody ns

/-- Convert a `NodeList` back to an ordinary list. -/
def NodeList.toList : NodeList → List Node
  | .nil => []
  | .cons n ns => n :: NodeList.toList ns

/-- Impose the `html`/`body` document structure on the parsed forest, as
libxml2's HTML parser guarantees for non-empty documents. -/
def ensureDoc (ns : List Node) : Node :=
  match ns with
  | [Node.elem t a kids] =>
      if t = "html".data then
        .elem t a
          (if kids.allHeadOrBody then kids
           else .cons (.elem "body".data [] (NodeList.ofList (wrapStray kids.toList))) .nil)
      else
        .elem "html".data []
          (.cons (.elem "body".data [] (NodeList.ofList (wrapStray ns))) .nil)
  | _ =>
      .elem "html".data []
        (.cons (.elem "body".data [] (NodeList.ofList (wrapStray ns))) .nil)

/-- Model of `etree.parse(StringIO(s), etree.HTMLParser(remove_blank_text=True))`
followed by `tree.getroot()`.  A blank input raises
`XMLSyntaxError("Document is empty")` in lxml.  A non-blank input with no
element or character content — comment-only, doctype-only, stray close
tags — parses to a rootless document (`getroot()` is `None`), and
`etree.tostring(None, ...)` then raises
`TypeError("Type 'NoneType' cannot be serialized.")`; both exceptions
reach the caller's `except Exception` branch.  Only inputs that produce
some content node are recovered into a document. -/
def parseDocument (s : LC) : Except LC Node :=
  if isBlankL s then .error "Document is empty".data
  else
    match buildNodes (tokenize s) with
    | [] => .error "Type 'NoneType' cannot be serialized.".data
    | ns => .ok (ensureDoc ns)

/-- Model of `HTMLToXHTMLConverter.convert`.  The lxml `XMLSyntaxError`
raised for blank input is not an `etree.ParserError`, so it reaches the
`except Exception` branch and becomes
`ValueError("Error converting to XHTML: ...")`. -/
def convert (html_string : LC) : Except LC LC :=
  match parseDocument html_string with
  | .error e => .error ("Error converting to XHTML: ".data ++ e)
  | .ok root => .ok (replaceHtml5 (fixSelfClose (tostringDoc false root)))

/-! ## URL resolution and image sniffing

`_process_images` parses with `etree.fromstring(content, etree.HTMLParser())`
— no `remove_blank_text` — so the builder below is also offered without
blank removal; libxml2 always skips whitespace outside of elements, which
the `rbt`-independent top-level case models. -/

/-- Variant of `stepTok` keeping whitespace-only text inside elements
(`etree.HTMLParser()` without `remove_blank_text`); blanks outside any
element, and blanks directly under `html` or `head`, are ignorable
whitespace for libxml2's HTML parser and are skipped even without
`remove_blank_text`. -/
def stepTokKB : (List Frame × List Node) → Tok → (List Frame × List Node)
  | (fs, done), .chars s =>
      if isBlankL s &&
          (match fs with
           | [] => true
           | f :: _ => f.name = "html".data || f.name = "head".data) then (fs, done)
      else pushN (.text s) fs done
  | st, .tagOpen n attrs sc => stepTok st (.tagOpen n attrs sc)
  | st, .tagClose n => stepTok st (.tagClose n)

/-- Build the top-level forest, keeping in-element blanks. -/
def buildNodesKB (toks : List Tok) : List Node :=
  let st := toks.foldl stepTokKB ([], [])
  (closeAll st.1 st.2).reverse

/-- Model of `etree.fromstring(s, etree.HTMLParser())` (no
`remove_blank_text`) as used by `_process_images`.  As with `parseDocument`,
content-free input yields no root; `root.xpath` on `None` then raises,
which `_process_images` catches, returning the fragment unchanged. -/
def parseDocumentKB (s : LC) : Except LC Node :=
  if isBlankL s then .error "Document is empty".data
  else
    match buildNodesKB (tokenize s) with
    | [] => .error "rootless document".data
    | ns => .ok (ensureDoc ns)

/-- Split a URL at its `://` scheme separator, if present. -/
def splitSchemeSep : LC → Option (LC × LC)
  | [] => none
  | ':' :: '/' :: '/' :: rest => some ([], rest)
  | c :: rest => (splitSchemeSep rest).map (fun p => (c :: p.1, p.2))

/-- The `scheme://host` part of a URL. -/
def hostPart (u : LC) : LC :=
  match splitSchemeSep u with
  | none => u.takeWhile (fun c => c ≠ '/')
  | some (sch, rest) =>
      sch ++ "://".data ++ rest.takeWhile (fun c => c ≠ '/')

/-- The URL up to and including the last `/` of its path (the whole
authority followed by `/` when the path is empty). -/
def upToLastSlash (u : LC) : LC :=
  match splitSchemeSep u with
  | none => ((u.reverse.dropWhile (fun c => c ≠ '/'))).reverse
  | some (sch, rest) =>
      let host := rest.takeWhile (fun c => c ≠ '/')
      let path := rest.dropWhile (fun c => c ≠ '/')
      sch ++ "://".data ++ host ++
        (if path.isEmpty then ['/']
         else (path.reverse.dropWhile (fun c => c ≠ '/')).reverse)

/-- Modelled from `urllib.parse.urljoin`, restricted to the cases the
program meets: an absolute `http(s)` reference wins; a root-relative
reference replaces the path; any other reference replaces the last path
segment.  (Dot-segment normalization is not modelled; the theorems below
constrain resolved URLs only through this function.) -/
def urljoin (base rel : LC) : LC :=
  if startsWithL "http://".data rel || startsWithL "https://".data rel then rel
  else if startsWithL "/".data rel then hostPart base ++ rel
  else upToLastSlash base ++ rel

/-- The `netloc` of `urllib.parse.urlparse`. -/
def netlocOf (u : LC) : LC :=
  match splitSchemeSep u with
  | none => []
  | some (_, rest) => rest.takeWhile (fun c => c ≠ '/')

/-- Does the byte list start with the given bytes? -/
def bytesStartWith : List Nat → List Nat → Bool
  | [], _ => true
  | _ :: _, [] => false
  | p :: ps, b :: bs => p == b && bytesStartWith ps bs

/-- Model of `imghdr.what(None, data)` restricted to the formats that
`_get_image_info` maps; every other format falls through to the `.jpg`
default exactly as an unrecognized format does, so the observable result
of `_get_image_info` is unchanged.  Tests in imghdr order: jpeg
(`data[6:10] in (b"JFIF", b"Exif")`), png, gif, webp. -/
def imghdrWhat (data : List Nat) : Option LC :=
  if bytesStartWith [74, 70, 73, 70] (data.drop 6) ||
     bytesStartWith [69, 120, 105, 102] (data.drop 6) then some "jpeg".data
  else if bytesStartWith [137, 80, 78, 71, 13, 10, 26, 10] data then some "png".data
  else if bytesStartWith [71, 73, 70, 56, 55, 97] data ||
          bytesStartWith [71, 73, 70, 56, 57, 97] data then some "gif".data
  else if bytesStartWith [82, 73, 70, 70] data &&
          bytesStartWith [87, 69, 66, 80] (data.drop 8) then some "webp".data
  else none

/-- The `type_map` of `_get_image_info`. -/
def typeMap : List (LC × (LC × LC)) :=
  [("jpeg".data, (".jpg".data, "image/jpeg".data)),
   ("jpg".data, (".jpg".data, "image/jpeg".data)),
   ("png".data, (".png".data, "image/png".data)),
   ("gif".data, (".gif".data, "image/gif".data)),
   ("webp".data, (".webp".data, "image/webp".data))]

/-- Model of `EPUBCreator._get_image_info`. -/
def get_image_info (image_data : List Nat) : LC × LC :=
  match imghdrWhat image_data with
  | none => (".jpg".data, "image/jpeg".data)
  | some t =>
      match typeMap.find? (fun p => p.1 = t) with
      | none => (".jpg".data, "image/jpeg".data)
      | some p => p.2

/-! ## Image download with deduplication (EPUBCreator)

The creator's mutable state (`self.downloaded_images` and the items added
to `self.book`) is passed explicitly.  `requests.get` plus
`raise_for_status` is an oracle returning the body bytes or `none` for any
exception; `hashlib.md5(...).hexdigest()` is an arbitrary function
parameter.  Each call also reports the list of URLs actually fetched, the
fetch-count instrumentation the spec asks for. -/

/-- A fetch oracle: `none` models any `requests` exception, including
`raise_for_status` on a non-success status. -/
abbrev FetchOracle := LC → Option (List Nat)

/-- An item added to the EPUB package. -/
structure EpubItem where
  uid : LC
  file_name : LC
  media_type : LC
  content : List Nat

/-- The relevant mutable state of `EPUBCreator`. -/
structure CreatorState where
  downloadedImages : List (LC × (LC × List Nat))
  bookItems : List EpubItem

/-- Dictionary lookup in the download cache. -/
def lookupD (k : LC) (d : List (LC × (LC × List Nat))) : Option (LC × List Nat) :=
  (d.find? (fun p => p.1 = k)).map (fun p => p.2)

/-- Model of `EPUBCreator._download_image`.  Returns the new state, the
`(filename, content)` pair or `none` (the `except` branch returns
`None, None`), and the list of URLs fetched during the call. -/
def download_image (fetch : FetchOracle) (md5hex : LC → LC) (st : CreatorState)
    (img_url base_url : LC) : CreatorState × Option (LC × List Nat) × List LC :=
  let u := urljoin base_url img_url
  match lookupD u st.downloadedImages with
  | some fd => (st, some fd, [])
  | none =>
      match fetch u with
      | none => (st, none, [u])
      | some image_data =>
          let em := get_image_info image_data
          let img_hash := 'i' :: md5hex u
          let filename := "images/".data ++ img_hash ++ em.1
          ({ downloadedImages := st.downloadedImages ++ [(u, (filename, image_data))],
             bookItems := st.bookItems ++ [⟨img_hash, filename, em.2, image_data⟩] },
           some (filename, image_data), [u])

/-- Look up an attribute value (`img.get(k)`). -/
def getAttr (k : LC) (attrs : List (LC × LC)) : Option LC :=
  (attrs.find? (fun p => p.1 = k)).map (fun p => p.2)

/-- Overwrite an attribute value in place (`img.set(k, v)`). -/
def setAttr (k v : LC) : List (LC × LC) → List (LC × LC)
  | [] => [(k, v)]
  | a :: rest => if a.1 = k then (k, v) :: rest else a :: setAttr k v rest

mutual

/-- Process one node for `_process_images`: every `img` element with a
non-empty `src` is downloaded and rewritten when the download succeeds;
document order is pre-order, matching `root.xpath("//img")`. -/
def processNode (fetch : FetchOracle) (md5hex : LC → LC) (base : LC) :
    CreatorState → Node → CreatorState × Node × List LC
  | st, .text s => (st, .text s, [])
  | st, .elem t a kids =>
      if t = "img".data then
        match getAttr "src".data a with
        | none =>
            let r := processKids fetch md5hex base st kids
            (r.1, .elem t a r.2.1, r.2.2)
        | some src =>
            if src.isEmpty then
              let r := processKids fetch md5hex base st kids
              (r.1, .elem t a r.2.1, r.2.2)
            else
              let d := download_image fetch md5hex st src base
              let a2 := match d.2.1 with
                | some fd => setAttr "src".data fd.1 a
                | none => a
              let r := processKids fetch md5hex base d.1 kids
              (r.1, .elem t a2 r.2.1, d.2.2 ++ r.2.2)
      else
        let r := processKids fetch md5hex base st kids
        (r.1, .elem t a r.2.1, r.2.2)

/-- Process a sibling list left to right, threading the state. -/
def processKids (fetch : FetchOracle) (md5hex : LC → LC) (base : LC) :
    CreatorState → NodeList → CreatorState × NodeList × List LC
  | st, .nil => (st, .nil, [])
  | st, .cons n ns =>
      let rn := processNode fetch md5hex base st n
      let rs := processKids fetch md5hex base rn.1 ns
      (rs.1, .cons rn.2.1 rs.2.1, rn.2.2 ++ rs.2.2)

end

/-- Model of `EPUBCreator._process_images`: parse, rewrite image
references, reserialize (`etree.tostring(root, encoding="unicode",
method="xml")`, no doctype, no pretty-printing); any parse failure is
caught and the content returned unchanged. -/
def process_images (fetch : FetchOracle) (md5hex : LC → LC) (st : CreatorState)
    (content : LC) (base_url : LC) : CreatorState × LC × List LC :=
  match parseDocumentKB content with
  | .error _ => (st, content, [])
  | .ok root =>
      let r := processNode fetch md5hex base_url st root
      (r.1, serNode false false 0 r.2.1, r.2.2)

/-! ## Chapter creation (EPUBCreator.create_chapter) -/

/-- Feed metadata (`FeedMetadata` dataclass). -/
structure FeedMetadata where
  title : LC
  link : LC
  description : LC

/-- A feed item (`FeedItem` dataclass; the unused `content` field is
omitted). -/
structure FeedItem where
  title : LC
  link : LC
  published : LC

/-- An `epub.EpubHtml` document as far as the claims observe it. -/
structure EpubHtml where
  title : LC
  file_name : LC
  lang : LC
  content : LC

/-- Modelled from the `slugify` collaborator (python-slugify): lowercase,
non-alphanumeric runs become single dashes, no leading or trailing dash. -/
def alnumRunsGo (cur : LC) : LC → List LC
  | [] => if cur.isEmpty then [] else [cur]
  | c :: rest =>
      if c.isAlphanum then alnumRunsGo (cur ++ [c]) rest
      else if cur.isEmpty then alnumRunsGo [] rest
      else cur :: alnumRunsGo [] rest

/-- Join word runs with dashes. -/
def joinDash : List LC → LC
  | [] => []
  | [w] => w
  | w :: ws => w ++ '-' :: joinDash ws

/-- Modelled from the `slugify` collaborator (python-slugify). -/
def slugify (s : LC) : LC := joinDash (alnumRunsGo [] (lowerL s))

/-- Python `str.replace(pat, repl)`: literal leftmost non-overlapping
replacement.  `skip > 0` means the scanner is inside an already-matched
occurrence and drops that many characters. -/
def strReplaceGo (pat repl : LC) : Nat → LC → LC
  | _, [] => []
  | skip + 1, _ :: rest => strReplaceGo pat repl skip rest
  | 0, c :: rest =>
      if startsWithL pat (c :: rest) then
        repl ++ strReplaceGo pat repl (pat.length - 1) rest
      else c :: strReplaceGo pat repl 0 rest

/-- Python `s.replace(pat, repl)` for a non-empty pattern. -/
def strReplace (pat repl s : LC) : LC := strReplaceGo pat repl 0 s

/-- The block-container alternatives of the wrap check in
`create_chapter`. -/
def blockTags : List LC :=
  ["div", "article", "section", "main", "aside", "header", "footer",
   "nav", "p"].map String.data

/-- Is `c` a regex word character (for `\b`)? -/
def isWordChar (c : Char) : Bool := c.isAlphanum || c = '_'

/-- Does `rest` begin with tag name `t` (case-insensitively) followed by a
word boundary? -/
def matchTagWB (t : LC) (rest : LC) : Bool :=
  startsWithL t (lowerL rest) &&
    (match rest.drop t.length with
     | [] => true
     | c :: _ => !isWordChar c)

/-- Model of `re.match(r"^\s*<(div|article|section|main|aside|header|footer|nav|p)\b", content, re.IGNORECASE)`. -/
def startsWithBlockTag (content : LC) : Bool :=
  match content.dropWhile Char.isWhitespace with
  | '<' :: rest => blockTags.any (fun t => matchTagWB t rest)
  | _ => false

/-- The placeholder body used when extraction yields nothing. -/
def placeholderText : LC := "<p>Failed to extract content.</p>".data

/-- The synthesized chapter header block (`header_box` f-string,
whitespace exactly as in the source). -/
def headerBox (title link : LC) : LC :=
  "\n        <div class=\"header\">\n            <h1>".data ++ title ++
  "</h1>\n            <p><a href=\"".data ++ link ++ "\">".data ++ link ++
  "</a></p>\n        </div>\n        ".data

/-- Model of `EPUBCreator.create_chapter`.  `extractO` models
`extract(fetch_url(link), ...)`: the extracted HTML or `None`.  Returns
the updated state, the chapter, and the fetch log of its image
downloads. -/
def create_chapter (fetch : FetchOracle) (md5hex : LC → LC)
    (extractO : LC → Option LC) (st : CreatorState) (item : FeedItem) :
    Except LC (CreatorState × EpubHtml × List LC) :=
  let content0 := match extractO item.link with
    | none => placeholderText
    | some c => c
  let content1 := strReplace "<graphic".data "<img".data content0
  let content2 :=
    if startsWithBlockTag content1 then content1
    else "<div class=\"chapter-content\">".data ++ content1 ++ "</div>".data
  let content3 := headerBox item.title item.link ++ content2
  match convert content3 with
  | .error e => .error e
  | .ok content4 =>
      let r := process_images fetch md5hex st content4 item.link
      .ok (r.1,
        { title := item.title,
          file_name := slugify item.title ++ ".xhtml".data,
          lang := "en".data,
          content := r.2.1 },
        r.2.2)

/-! ## Cover page and document assembly -/

/-- The cover page markup with an icon (`cover_content` f-string in the
`try` branch). -/
def coverContentWithIcon (icon_filename : LC) (m : FeedMetadata) : LC :=
  "\n            <div style=\"text-align: center; padding: 20px;\">\n                <div style=\"margin: 50px auto;\">\n                    <img src=\"".data ++
  icon_filename ++
  "\" style=\"max-width: 200px; display: block; margin: 0 auto;\" />\n                </div>\n                <h1 style=\"font-size: 24px; margin: 20px 0;\">".data ++
  m.title ++
  "</h1>\n                <p style=\"font-size: 16px; color: #666; margin: 10px 0;\">".data ++
  m.description ++
  "</p>\n            </div>\n            ".data

/-- The text-only fallback cover markup. -/
def coverContentTextOnly (m : FeedMetadata) : LC :=
  "\n            <div style=\"text-align: center; padding: 20px;\">\n                <h1 style=\"font-size: 24px; margin: 20px 0;\">".data ++
  m.title ++
  "</h1>\n                <p style=\"font-size: 16px; color: #666; margin: 10px 0;\">".data ++
  m.description ++
  "</p>\n            </div>\n            ".data

/-- Model of `EPUBCreator._create_cover_page`.  The Google favicon lookup
is an oracle; on any failure inside the `try` (including a failed
conversion) the text-only cover is produced; items already added to the
book before the failure stay added. -/
def create_cover_page (iconF : FetchOracle) (md5hex : LC → LC)
    (st : CreatorState) (m : FeedMetadata) : Except LC (CreatorState × EpubHtml) :=
  let fallback : CreatorState → Except LC (CreatorState × EpubHtml) := fun stF =>
    match convert (coverContentTextOnly m) with
    | .error e => .error e
    | .ok c =>
        .ok (stF, { title := "Cover".data, file_name := "cover.xhtml".data,
                    lang := "en".data, content := c })
  let g_favicon_url :=
    "https://www.google.com/s2/favicons?domain=".data ++ netlocOf m.link ++ "&sz=256".data
  match iconF g_favicon_url with
  | none => fallback st
  | some icon_data =>
      let em := get_image_info icon_data
      let icon_hash := "cover_icon".data ++ md5hex g_favicon_url
      let icon_filename := "images/".data ++ icon_hash ++ em.1
      let st2 : CreatorState :=
        { st with bookItems := st.bookItems ++ [⟨icon_hash, icon_filename, em.2, icon_data⟩] }
      match convert (coverContentWithIcon icon_filename m) with
      | .error _ => fallback st2
      | .ok c =>
          .ok (st2, { title := "Cover".data, file_name := "cover.xhtml".data,
                      lang := "en".data, content := c })

/-- The assembled document as far as the claims observe it: the linear
reading order (`spine`), the table of contents and the packaged items. -/
structure Document where
  spine : List EpubHtml
  toc : List EpubHtml
  items : List EpubItem

/-- Model of `EPUBCreator.save`: cover first in the spine, chapters only in
the TOC. -/
def save (iconF : FetchOracle) (md5hex : LC → LC) (st : CreatorState)
    (m : FeedMetadata) (chapters : List EpubHtml) : Except LC Document :=
  match create_cover_page iconF md5hex st m with
  | .error e => .error e
  | .ok r =>
      .ok { spine := r.2 :: chapters, toc := chapters, items := r.1.bookItems }

/-! ## Feed items and the orchestrator -/

/-- A raw feed entry as returned by the feedparser collaborator. -/
structure FeedEntry where
  title : LC
  link : LC
  published : LC

/-- Python list slicing `entries[:limit]` for an arbitrary integer limit. -/
def pySliceTo (limit : Int) (l : List FeedEntry) : List FeedEntry :=
  if 0 ≤ limit then l.take limit.toNat
  else l.take (l.length - limit.natAbs)

/-- Model of `RSSFeedParser.get_feed_items`:
`entries[:limit] if limit else entries` — a falsy limit (`None` or `0`)
keeps every entry. -/
def get_feed_items (entries : List FeedEntry) (limit : Option Int) : List FeedItem :=
  let es := match limit with
    | some k => if k ≠ 0 then pySliceTo k entries else entries
    | none => entries
  es.map (fun e => ⟨e.title, e.link, e.published⟩)

/-- Build the chapters of all items in order, threading the creator
state. -/
def buildChapters (fetch : FetchOracle) (md5hex : LC → LC)
    (extractO : LC → Option LC) :
    CreatorState → List FeedItem → Except LC (CreatorState × List EpubHtml × List LC)
  | st, [] => .ok (st, [], [])
  | st, i :: is =>
      match create_chapter fetch md5hex extractO st i with
      | .error e => .error e
      | .ok r =>
          match buildChapters fetch md5hex extractO r.1 is with
          | .error e => .error e
          | .ok r2 => .ok (r2.1, r.2.1 :: r2.2.1, r.2.2 ++ r2.2.2)

/-- Model of `create_epub`: cap the entries, build each chapter in feed
order, then save.  Returns the output path and the document. -/
def create_epub (fetch : FetchOracle) (md5hex : LC → LC)
    (extractO : LC → Option LC) (iconF : FetchOracle)
    (metadata : FeedMetadata) (entries : List FeedEntry) (item_limit : Int) :
    Except LC (LC × Document) :=
  let items := get_feed_items entries (some item_limit)
  let st0 : CreatorState := ⟨[], []⟩
  match buildChapters fetch md5hex extractO st0 items with
  | .error e => .error e
  | .ok r =>
      match save iconF md5hex r.1 metadata r.2.1 with
      | .error e => .error e
      | .ok doc => .ok (slugify metadata.title ++ ".epub".data, doc)

/-! ## Observations used by the claims -/

deriving instance DecidableEq for Except

deriving instance DecidableEq for EpubItem

deriving instance DecidableEq for CreatorState

deriving instance DecidableEq for EpubHtml

mutual

/-- Tree-level form of one deprecated-tag rewrite: the element is renamed
to `div` and gains a leading `class` attribute carrying the original tag
name (this is what the two string rewrites of `convert` effect on a
serialized clean tree). -/
def rewriteTagN (tag : LC) : Node → Node
  | .text s => .text s
  | .elem t a kids =>
      if t = tag then
        .elem "div".data (("class".data, tag) :: a) (rewriteTagL tag kids)
      else .elem t a (rewriteTagL tag kids)

/-- `rewriteTagN` on a sibling list. -/
def rewriteTagL (tag : LC) : NodeList → NodeList
  | .nil => .nil
  | .cons n ns => .cons (rewriteTagN tag n) (rewriteTagL tag ns)

end

/-- The tree-level form of the whole deprecated-tag rewrite loop. -/
def rewriteDoc (t : Node) : Node :=
  html5Tags.foldl (fun u tag => rewriteTagN tag u) t

mutual

/-- No element of the tree carries a deprecated tag name. -/
def noHtml5N : Node → Bool
  | .text _ => true
  | .elem t _ kids => !(html5Tags.any (fun g => g = t)) && noHtml5L kids

/-- `noHtml5N` on a sibling list. -/
def noHtml5L : NodeList → Bool
  | .nil => true
  | .cons n ns => noHtml5N n && noHtml5L ns

end

mutual

/-- No element of the tree carries the name `g`. -/
def noTagN (g : LC) : Node → Bool
  | .text _ => true
  | .elem t _ kids => !(t == g) && noTagL g kids

/-- `noTagN` on a sibling list. -/
def noTagL (g : LC) : NodeList → Bool
  | .nil => true
  | .cons n ns => noTagN g n && noTagL g ns

end

/-! ### Clean trees

`cleanN` describes the trees on which serialization and reparsing are
mutually inverse and on which the string rewrites of `convert` act exactly
as the tree rewrite `rewriteTagN`: lowercase alphanumeric names that do not
strictly extend a deprecated tag name, attribute values and text free of
markup metacharacters, no duplicate attribute names, no `class` attribute
on deprecated-tag elements (the duplicate-`class` counterexample), no
whitespace-only or adjacent text nodes, and childless void elements. -/

/-- The lowercase letters. -/
def lowerAlpha (c : Char) : Bool :=
  c ∈ "abcdefghijklmnopqrstuvwxyz".data

/-- Lowercase-alphanumeric name characters. -/
def cleanNameChar (c : Char) : Bool :=
  c ∈ "abcdefghijklmnopqrstuvwxyz0123456789".data

/-- A clean tag or attribute name. -/
def cleanName (n : LC) : Bool :=
  (match n with
   | [] => false
   | c :: _ => lowerAlpha c) &&
  n.all cleanNameChar &&
  html5Tags.all (fun t => !startsWithL t n || t == n)

/-- Characters allowed in a clean attribute value. -/
def cleanValChar (c : Char) : Bool :=
  !(c = '<' || c = '>' || c = '&' || c = '"' || c = '\'')

/-- Characters allowed in clean text. -/
def cleanTextChar (c : Char) : Bool :=
  !(c = '<' || c = '>' || c = '&')

/-- No attribute name occurs twice. -/
def nodupKeys : List (LC × LC) → Bool
  | [] => true
  | p :: rest => !(rest.any (fun q => q.1 = p.1)) && nodupKeys rest

/-- Clean attributes for an element named `t`. -/
def cleanAttrsOf (t : LC) (a : List (LC × LC)) : Bool :=
  a.all (fun p => cleanName p.1 && p.2.all cleanValChar) &&
  nodupKeys a &&
  (!(html5Tags.any (fun g => g = t)) || !(a.any (fun p => p.1 = "class".data)))

/-- No two adjacent text nodes in a sibling list. -/
def noAdjText : NodeList → Bool
  | .nil => true
  | .cons _ .nil => true
  | .cons n (.cons m ns) =>
      !(isTextNode n && isTextNode m) && noAdjText (.cons m ns)

mutual

/-- A clean node (see the section comment). -/
def cleanN : Node → Bool
  | .text s => !isBlankL s && s.all cleanTextChar
  | .elem t a kids =>
      cleanName t && cleanAttrsOf t a &&
      (!(voidTags.any (fun g => g = t)) || kids == .nil) &&
      noAdjText kids && cleanL kids

/-- `cleanN` on a sibling list. -/
def cleanL : NodeList → Bool
  | .nil => true
  | .cons n ns => cleanN n && cleanL ns

end

/-- A clean parsed document: an `html` root whose children are all `head`
or `body` elements (the shape `ensureDoc` preserves), clean throughout. -/
def cleanDoc : Node → Bool
  | .text _ => false
  | .elem t a kids =>
      t == "html".data && cleanN (.elem t a kids) && kids.allHeadOrBody

/-! ### A strict-markup checker

`wfDoc` holds when the string is well-formed strict XML(-ish) markup: tags
properly nested and matched, attributes quoted with unique names, no raw
`&` or `<` in character data, character data only inside the root
element.  Used to state the validity conjunct of the spec's normalizer
guarantee. -/

/-- A well-formed XML name for the strict checker. -/
def wfName (n : LC) : Bool :=
  (match n with
   | [] => false
   | c :: _ => c.isAlpha) &&
  n.all isNameChar

/-- State of the strict attribute checker. -/
inductive WfA where
  | ws
  | nm (acc : LC)
  | postNm (n : LC)
  | postEq (n : LC)
  | val (n : LC) (q : Char)

/-- Check the attribute part of a tag body; `seen` collects names already
used.  Returns the self-closing flag, or `none` when not well-formed. -/
def wfAGo (seen : List LC) : WfA → LC → Option Bool
  | .ws, [] => some false
  | .nm _, [] => none
  | .postNm _, [] => none
  | .postEq _, [] => none
  | .val _ _, [] => none
  | .ws, c :: rest =>
      if c.isWhitespace then wfAGo seen .ws rest
      else if c = '/' then (if rest.isEmpty then some true else none)
      else if c.isAlpha then wfAGo seen (.nm [c]) rest
      else none
  | .nm acc, c :: rest =>
      if isNameChar c then wfAGo seen (.nm (acc ++ [c])) rest
      else if c = '=' then wfAGo seen (.postEq acc) rest
      else if c.isWhitespace then wfAGo seen (.postNm acc) rest
      else none
  | .postNm n, c :: rest =>
      if c = '=' then wfAGo seen (.postEq n) rest
      else if c.isWhitespace then wfAGo seen (.postNm n) rest
      else none
  | .postEq n, c :: rest =>
      if c = '"' || c = '\'' then wfAGo seen (.val n c) rest
      else if c.isWhitespace then wfAGo seen (.postEq n) rest
      else none
  | .val n q, c :: rest =>
      if c = q then
        (if seen.any (fun m => m = n) then none else wfAGo (n :: seen) .ws rest)
      else if c = '<' || c = '&' then none
      else wfAGo seen (.val n q) rest

/-- State of the strict markup checker. -/
inductive WfMode where
  | txt
  | tag (acc : LC) (q : Option Char)

/-- The strict markup checker: `stack` holds the open element names,
`root` whether a root element has been completed. -/
def wfGo (stack : List LC) (root : Bool) : WfMode → LC → Bool
  | .txt, [] => stack.isEmpty && root
  | .tag _ _, [] => false
  | .txt, c :: rest =>
      if c = '<' then wfGo stack root (.tag [] none) rest
      else if c = '&' then false
      else if stack.isEmpty && !c.isWhitespace then false
      else wfGo stack root .txt rest
  | .tag acc (some q), c :: rest =>
      if c = q then wfGo stack root (.tag (acc ++ [c]) none) rest
      else wfGo stack root (.tag (acc ++ [c]) (some q)) rest
  | .tag acc none, c :: rest =>
      if c = '"' || c = '\'' then wfGo stack root (.tag (acc ++ [c]) (some c)) rest
      else if c ≠ '>' then wfGo stack root (.tag (acc ++ [c]) none) rest
      else
        match acc with
        | '!' :: _ => wfGo stack root .txt rest
        | '/' :: nrest =>
            (match stack with
             | [] => false
             | top :: stack2 =>
                 if top = nrest && wfName nrest then
                   wfGo stack2 (root || stack2.isEmpty) .txt rest
                 else false)
        | _ =>
            let n := acc.takeWhile isNameChar
            if wfName n && !(root && stack.isEmpty) then
              match wfAGo [] .ws (acc.drop n.length) with
              | none => false
              | some true => wfGo stack (root || stack.isEmpty) .txt rest
              | some false => wfGo (n :: stack) root .txt rest
            else false

/-- Does the string parse as well-formed strict markup (one root element,
everything matched and quoted)? -/
def wfDoc (s : LC) : Bool := wfGo [] false .txt s

mutual

/-- The `src` attributes of the `img` elements of a tree, in document
order (`None` records an `img` without `src`). -/
def imgSrcsN : Node → List (Option LC)
  | .text _ => []
  | .elem t a kids =>
      (if t = "img".data then [getAttr "src".data a] else []) ++ imgSrcsL kids

/-- `imgSrcsN` on a sibling list. -/
def imgSrcsL : NodeList → List (Option LC)
  | .nil => []
  | .cons n ns => imgSrcsN n ++ imgSrcsL ns

end

/-- The per-image outcome relation of `_process_images` (claim C3): each
image reference is left unchanged, or rewritten to the localized name its
resolved URL maps to in the final download cache. -/
def srcOutcome (base : LC) (stFinal : CreatorState) : Option LC → Option LC → Prop :=
  fun s s2 =>
    s2 = s ∨
    ∃ v fn data, s = some v ∧ s2 = some fn ∧
      lookupD (urljoin base v) stFinal.downloadedImages = some (fn, data)

/-! ### Segments

A serialized document is a concatenation of segments — tags, character
data, pretty-printer blanks and the doctype.  The scanners of `convert`
and the tokenizer both act segment-wise on clean documents, which reduces
every string-level argument to one induction over segment lists. -/

/-- One segment of serialized markup. -/
inductive Seg where
  | sOpen (name : LC) (attrs : List (LC × LC)) (sc : Bool)
  | sClose (name : LC)
  | sText (s : LC)
  | sBlank (s : LC)
  | sDoctype
deriving Repr, DecidableEq

/-- Render one segment; `sp` chooses `<t/>` (`false`) or `<t />` (`true`)
for self-closing tags. -/
def renderSeg (sp : Bool) : Seg → LC
  | .sOpen n a sc =>
      '<' :: (n ++ serAttrs a ++
        (if sc then (if sp then [' ', '/', '>'] else ['/', '>']) else ['>']))
  | .sClose n => '<' :: '/' :: (n ++ ['>'])
  | .sText s => escapeText s
  | .sBlank s => s
  | .sDoctype => doctypeStr

/-- Render a segment list. -/
def renderSegs (sp : Bool) : List Seg → LC
  | [] => []
  | s :: rest => renderSeg sp s ++ renderSegs sp rest

mutual

/-- The segments of a serialized node (mirrors `serNode`). -/
def segsOfN (fmt : Bool) (d : Nat) : Node → List Seg
  | .text s => [.sText s]
  | .elem t a .nil => [.sOpen t a true]
  | .elem t a (.cons c cs) =>
      let fmt2 := fmt && !(NodeList.cons c cs).hasText
      .sOpen t a false ::
        ((if fmt2 then segsFmt (d + 1) (.cons c cs) ++ [.sBlank ('\n' :: indentL d)]
          else segsOfL (.cons c cs)) ++ [.sClose t])

/-- The segments of inline-serialized children (mirrors `serKids`). -/
def segsOfL : NodeList → List Seg
  | .nil => []
  | .cons c cs => segsOfN false 0 c ++ segsOfL cs

/-- The segments of formatted children (mirrors `serKidsFmt`). -/
def segsFmt (d : Nat) : NodeList → List Seg
  | .nil => []
  | .cons c cs => .sBlank ('\n' :: indentL d) :: (segsOfN true d c ++ segsFmt d cs)

end

/-- The segments of a whole serialized document (mirrors `tostringDoc`). -/
def segsDoc (root : Node) : List Seg :=
  .sDoctype :: .sBlank ['\n'] :: (segsOfN true 0 root ++ [.sBlank ['\n']])

/-- The tokens the lexer produces from one rendered segment. -/
def tokOfSeg : Seg → List Tok
  | .sOpen n a sc => [.tagOpen n a sc]
  | .sClose n => [.tagClose n]
  | .sText s => [.chars s]
  | .sBlank s => [.chars s]
  | .sDoctype => []

/-- Does this segment render starting with `<` (tags and the doctype)? -/
def tagLike : Seg → Bool
  | .sOpen _ _ _ => true
  | .sClose _ => true
  | .sDoctype => true
  | _ => false

/-- No two adjacent segments are both character data (so every character
run is delimited by markup and the lexer emits one token per data
segment). -/
def sepSegs : List Seg → Bool
  | [] => true
  | [_] => true
  | a :: b :: rest => (tagLike a || tagLike b) && sepSegs (b :: rest)

/-- The token stream of a rendered segment list. -/
def toksOfSegs : List Seg → List Tok
  | [] => []
  | s :: ls => tokOfSeg s ++ toksOfSegs ls

/-- The tree `parseDocument` produces for the input
`<article id="a">hi</article>` (used as a concrete clean document). -/
def c8wT : Node :=
  .elem "html".data [] (.cons (.elem "body".data []
    (.cons (.elem "article".data [("id".data, "a".data)]
      (.cons (.text "hi".data) .nil)) .nil)) .nil)

/-- The segment-level effect of `replaceOpenTag tag`. -/
def openRw (tag : LC) : Seg → Seg
  | .sOpen n a sc =>
      if n = tag then .sOpen "div".data (("class".data, tag) :: a) sc
      else .sOpen n a sc
  | s => s

/-- The segment-level effect of `replaceCloseTag tag`. -/
def closeRw (tag : LC) : Seg → Seg
  | .sClose n => if n = tag then .sClose "div".data else .sClose n
  | s => s

/-- Cleanliness of one segment (enough for the scanners and the lexer to
act segment-wise). -/
def cleanSeg : Seg → Bool
  | .sOpen n a _ => cleanName n && a.all (fun p => cleanName p.1 && p.2.all cleanValChar)
  | .sClose n => cleanName n
  | .sText s => !isBlankL s && s.all cleanTextChar
  | .sBlank s => isBlankL s && !s.isEmpty
  | .sDoctype => true

/-- Attach a list of nodes, in order. -/
def pushList (ts : NodeList) (fs : List Frame) (done : List Node) :
    List Frame × List Node :=
  match ts with
  | .nil => (fs, done)
  | .cons n ns =>
      let r := pushN n fs done
      pushList ns r.1 r.2

mutual

/-- The tree that the keep-blanks parse of a pretty-printed serialization
yields: every formatted child list gets the printer's whitespace back as
text nodes. -/
def padBlanksN (fmt : Bool) (d : Nat) : Node → Node
  | .text s => .text s
  | .elem t a .nil => .elem t a .nil
  | .elem t a (.cons c cs) =>
      let fmt2 := fmt && !(NodeList.cons c cs).hasText
      .elem t a
        (if fmt2 then padBlanksFmt (d + 1) (.cons c cs) (.cons (.text ('\n' :: indentL d)) .nil)
         else padBlanksL (.cons c cs))

/-- `padBlanksN` on inline children. -/
def padBlanksL : NodeList → NodeList
  | .nil => .nil
  | .cons c cs => .cons (padBlanksN false 0 c) (padBlanksL cs)

/-- `padBlanksN` on formatted children: a leading blank before each child
and the closing indentation `tail` at the end. -/
def padBlanksFmt (d : Nat) : NodeList → NodeList → NodeList
  | .nil, tail => tail
  | .cons c cs, tail =>
      .cons (.text ('\n' :: indentL d)) (.cons (padBlanksN true d c) (padBlanksFmt d cs tail))

end

/-! ### The chapter markup produced for an empty extraction

`chapterSegs` is the segment decomposition of
`header_box ++ "<p>Failed to extract content.</p>"`, the chapter markup
`create_chapter` assembles when extraction yields nothing (the
placeholder already starts with a block tag, so no wrapper is added);
`chapterTree` is the tree its parse produces and `chapterTreeKB` the
tree the keep-blanks reparse of the pretty-printed serialization
produces inside `_process_images`. -/

/-- The segments of the placeholder chapter markup. -/
def chapterSegs (title link : LC) : List Seg :=
  [.sBlank "\n        ".data,
   .sOpen "div".data [("class".data, "header".data)] false,
   .sBlank "\n            ".data,
   .sOpen "h1".data [] false,
   .sText title,
   .sClose "h1".data,
   .sBlank "\n            ".data,
   .sOpen "p".data [] false,
   .sOpen "a".data [("href".data, link)] false,
   .sText link,
   .sClose "a".data,
   .sClose "p".data,
   .sBlank "\n        ".data,
   .sClose "div".data,
   .sBlank "\n        ".data,
   .sOpen "p".data [] false,
   .sText "Failed to extract content.".data,
   .sClose "p".data]

/-- The parse of the placeholder chapter markup. -/
def chapterTree (title link : LC) : Node :=
  .elem "html".data [] (.cons (.elem "body".data []
    (.cons (.elem "div".data [("class".data, "header".data)]
      (.cons (.elem "h1".data [] (.cons (.text title) .nil))
       (.cons (.elem "p".data []
         (.cons (.elem "a".data [("href".data, link)]
           (.cons (.text link) .nil)) .nil)) .nil)))
     (.cons (.elem "p".data []
       (.cons (.text "Failed to extract content.".data) .nil)) .nil))) .nil)

/-- The keep-blanks reparse of the pretty-printed chapter serialization:
the printer's blanks inside `body` come back as text nodes, while the
blanks directly under `html` are ignorable whitespace and disappear, so
the root keeps its single `body` child. -/
def chapterTreeKB (title link : LC) : Node :=
  .elem "html".data [] (.cons (.elem "body".data []
    (.cons (.text "\n    ".data)
     (.cons (.elem "div".data [("class".data, "header".data)]
       (.cons (.text "\n      ".data)
        (.cons (.elem "h1".data [] (.cons (.text title) .nil))
         (.cons (.text "\n      ".data)
          (.cons (.elem "p".data []
            (.cons (.text "\n        ".data)
             (.cons (.elem "a".data [("href".data, link)]
               (.cons (.text link) .nil))
              (.cons (.text "\n      ".data) .nil))))
           (.cons (.text "\n    ".data) .nil))))))
      (.cons (.text "\n    ".data)
       (.cons (.elem "p".data []
         (.cons (.text "Failed to extract content.".data) .nil))
        (.cons (.text "\n  ".data) .nil)))))) .nil)

/-! # Theorems -/

section Lemmas

/-- A list containing a non-whitespace character is not blank. -/
theorem isBlankL_eq_false {s : LC} {c : Char} (hc : c ∈ s)
    (h : c.isWhitespace = false) : isBlankL s = false := by
  simp only [isBlankL, List.all_eq_true, not_forall]
  simp only [List.all_eq_false]
  exact ⟨c, hc, by simp [h]⟩

/-- The header box makes every chapter body non-blank. -/
theorem headerBox_append_not_blank (t l x : LC) :
    isBlankL (headerBox t l ++ x) = false := by
  apply isBlankL_eq_false (c := '<')
  · simp only [headerBox, List.append_assoc, List.mem_append]
    left
    decide
  · decide

/-- `find?` skips a prefix in which nothing matches. -/
theorem find?_append_of_none {α : Type} {p : α → Bool} {l1 l2 : List α}
    (h : l1.find? p = none) : (l1 ++ l2).find? p = l2.find? p := by
  induction l1 with
  | nil => simp
  | cons a l ih =>
      by_cases hp : p a
      · rw [List.find?_cons_of_pos _ hp] at h; cases h
      · rw [List.cons_append, List.find?_cons_of_neg _ hp]
        rw [List.find?_cons_of_neg _ hp] at h
        exact ih h

/-- `find?` is stable under appending once it has found a match. -/
theorem find?_append_of_some {α : Type} {p : α → Bool} {l1 l2 : List α} {x : α}
    (h : l1.find? p = some x) : (l1 ++ l2).find? p = some x := by
  induction l1 with
  | nil => cases h
  | cons a l ih =>
      by_cases hp : p a
      · rw [List.find?_cons_of_pos _ hp] at h
        rw [List.cons_append, List.find?_cons_of_pos _ hp]
        exact h
      · rw [List.find?_cons_of_neg _ hp] at h
        rw [List.cons_append, List.find?_cons_of_neg _ hp]
        exact ih h

/-- A list in which `find?` fails filters to the empty list. -/
theorem filter_eq_nil_of_find?_none {α : Type} {p : α → Bool} {l : List α}
    (h : l.find? p = none) : l.filter p = [] := by
  induction l with
  | nil => rfl
  | cons a l ih =>
      by_cases hp : p a
      · rw [List.find?_cons_of_pos _ hp] at h; cases h
      · rw [List.find?_cons_of_neg _ hp] at h
        simp [List.filter_cons, hp, ih h]

end Lemmas

section SegMachinery

set_option maxHeartbeats 2000000 in
/-- Facts about clean name characters. -/
theorem cleanNameChar_props {c : Char} (h : cleanNameChar c = true) :
    isNameChar c = true ∧ Char.toLower c = c ∧ c.isWhitespace = false ∧
    cleanTextChar c = true ∧ cleanValChar c = true ∧
    c ≠ '/' ∧ c ≠ '>' ∧ c ≠ '<' ∧ c ≠ '"' ∧ c ≠ '\'' ∧ c ≠ '=' ∧ c ≠ '&' ∧
    c ≠ '!' ∧ c ≠ '?' := by
  simp only [cleanNameChar, decide_eq_true_eq] at h
  fin_cases h <;> decide

/-- Facts about lowercase letters. -/
theorem lowerAlpha_props {c : Char} (h : lowerAlpha c = true) :
    c.isAlpha = true ∧ cleanNameChar c = true ∧ c ≠ '!' ∧ c ≠ '?' ∧ c ≠ '/' := by
  simp only [lowerAlpha, decide_eq_true_eq] at h
  fin_cases h <;> decide

/-- Facts about clean attribute-value characters. -/
theorem cleanValChar_props {c : Char} (h : cleanValChar c = true) :
    c ≠ '<' ∧ c ≠ '>' ∧ c ≠ '&' ∧ c ≠ '"' ∧ c ≠ '\'' := by
  simp only [cleanValChar, Bool.not_eq_true', Bool.or_eq_false_iff,
    decide_eq_false_iff_not] at h
  exact ⟨h.1.1.1.1, h.1.1.1.2, h.1.1.2, h.1.2, h.2⟩

/-- Facts about clean text characters. -/
theorem cleanTextChar_props {c : Char} (h : cleanTextChar c = true) :
    c ≠ '<' ∧ c ≠ '>' ∧ c ≠ '&' := by
  simp only [cleanTextChar, Bool.not_eq_true', Bool.or_eq_false_iff,
    decide_eq_false_iff_not] at h
  exact ⟨h.1.1, h.1.2, h.2⟩

/-- Clean text serializes to itself. -/
theorem escapeText_id {s : LC} (h : s.all cleanTextChar = true) :
    escapeText s = s := by
  induction s with
  | nil => rfl
  | cons c rest ih =>
      simp only [List.all_cons, Bool.and_eq_true] at h
      obtain ⟨h1, h2, h3⟩ := cleanTextChar_props h.1
      simp only [escapeText, escChar, h1, h2, h3, if_false, ite_false, ih h.2]
      rfl

/-- A clean attribute value serializes to itself. -/
theorem escapeAttr_id {s : LC} (h : s.all cleanValChar = true) :
    escapeAttr s = s := by
  induction s with
  | nil => rfl
  | cons c rest ih =>
      simp only [List.all_cons, Bool.and_eq_true] at h
      obtain ⟨h1, h2, h3, h4, h5⟩ := cleanValChar_props h.1
      simp only [escapeAttr, escAttrChar, h1, h3, h4, if_false, ite_false, ih h.2]
      rfl

set_option maxHeartbeats 4000000 in
/-- `unescape` passes an ordinary character through. -/
theorem unescape_cons_ne {c : Char} {rest : LC} (h : c ≠ '&') :
    unescape (c :: rest) = c :: unescape rest := by
  rw [unescape.eq_def]
  split
  · rename_i heq; cases heq
  · rename_i heq; injection heq with h1 _; exact absurd h1 h
  · rename_i heq; injection heq with h1 _; exact absurd h1 h
  · rename_i heq; injection heq with h1 _; exact absurd h1 h
  · rename_i heq; injection heq with h1 _; exact absurd h1 h
  · rename_i heq; injection heq with h1 _; exact absurd h1 h
  · rename_i heq; injection heq with h1 h2; rw [h1, h2]

/-- An ampersand-free string is unchanged by entity decoding. -/
theorem unescape_id {s : LC} (h : '&' ∉ s) : unescape s = s := by
  induction s with
  | nil => rfl
  | cons c rest ih =>
      simp only [List.mem_cons, not_or] at h
      rw [unescape_cons_ne (fun hc => h.1 hc.symm), ih h.2]

/-- Rendering distributes over append. -/
theorem renderSegs_append (sp : Bool) (l1 l2 : List Seg) :
    renderSegs sp (l1 ++ l2) = renderSegs sp l1 ++ renderSegs sp l2 := by
  induction l1 with
  | nil => rfl
  | cons s rest ih => simp [renderSegs, ih]

mutual

/-- The serializer renders exactly the node's segments. -/
theorem serNode_eq_segs (sp fmt : Bool) (d : Nat) :
    ∀ t : Node, serNode sp fmt d t = renderSegs sp (segsOfN fmt d t)
  | .text s => by simp [serNode, segsOfN, renderSegs, renderSeg]
  | .elem t a .nil => by simp [serNode, segsOfN, renderSegs, renderSeg]
  | .elem t a (.cons c cs) => by
      rw [serNode, segsOfN]
      by_cases hf : (fmt && !(NodeList.cons c cs).hasText) = true
      · simp only [hf, if_true, reduceIte, renderSegs, renderSeg, renderSegs_append,
          serKidsFmt_eq_segs sp (d + 1) (.cons c cs)]
        simp [renderSegs, renderSeg, renderSegs_append, List.append_assoc]
      · simp only [hf, if_false, Bool.false_eq_true, reduceIte, renderSegs, renderSeg,
          renderSegs_append, serKids_eq_segs sp (.cons c cs)]
        simp [renderSegs, renderSeg]

/-- `serKids` renders exactly the inline segments. -/
theorem serKids_eq_segs (sp : Bool) :
    ∀ ts : NodeList, serKids sp ts = renderSegs sp (segsOfL ts)
  | .nil => by simp [serKids, segsOfL, renderSegs]
  | .cons c cs => by
      rw [serKids, segsOfL, renderSegs_append, serNode_eq_segs sp false 0 c,
        serKids_eq_segs sp cs]

/-- `serKidsFmt` renders exactly the formatted segments. -/
theorem serKidsFmt_eq_segs (sp : Bool) (d : Nat) :
    ∀ ts : NodeList, serKidsFmt sp d ts = renderSegs sp (segsFmt d ts)
  | .nil => by simp [serKidsFmt, segsFmt, renderSegs]
  | .cons c cs => by
      rw [serKidsFmt, segsFmt]
      simp [renderSegs, renderSeg, renderSegs_append, serNode_eq_segs,
        serKidsFmt_eq_segs sp d cs]

end

/-- The whole-document serialization in segment form. -/
theorem tostringDoc_eq_segs (sp : Bool) (root : Node) :
    tostringDoc sp root = renderSegs sp (segsDoc root) := by
  simp [tostringDoc, segsDoc, renderSegs, renderSeg, renderSegs_append,
    serNode_eq_segs, List.append_assoc]

/-- Unpack a clean name. -/
theorem cleanName_props {n : LC} (h : cleanName n = true) :
    n.all cleanNameChar = true ∧
    html5Tags.all (fun t => !startsWithL t n || t == n) = true ∧
    ∃ c m, n = c :: m ∧ lowerAlpha c = true := by
  simp only [cleanName, Bool.and_eq_true] at h
  obtain ⟨⟨hmatch, hall⟩, hhtml⟩ := h
  cases n with
  | nil => cases hmatch
  | cons c m => exact ⟨hall, hhtml, c, m, rfl, hmatch⟩

/-- Generic character-class bound for serialized attributes. -/
theorem serAttrs_all {p : Char → Bool} (hsp : p ' ' = true) (heq : p '=' = true)
    (hq : p '"' = true) (hn : ∀ c, cleanNameChar c = true → p c = true)
    (hv : ∀ c, cleanValChar c = true → p c = true) :
    ∀ {a : List (LC × LC)},
      a.all (fun pr => cleanName pr.1 && pr.2.all cleanValChar) = true →
      (serAttrs a).all p = true := by
  intro a ha
  induction a with
  | nil => rfl
  | cons pr rest ih =>
      simp only [List.all_cons, Bool.and_eq_true] at ha
      obtain ⟨⟨hnm, hvv⟩, hrest⟩ := ha
      obtain ⟨hall, _, _⟩ := cleanName_props hnm
      rw [serAttrs]
      rw [List.all_append]
      refine (Bool.and_eq_true _ _).mpr ⟨?_, ih hrest⟩
      rw [serAttr, escapeAttr_id hvv]
      simp only [List.all_cons, List.all_append, Bool.and_eq_true]
      refine ⟨hsp, ?_, heq, hq, ?_, by simp [hq]⟩
      · exact List.all_eq_true.mpr fun c hc =>
          hn c (List.all_eq_true.mp hall c hc)
      · exact List.all_eq_true.mpr fun c hc =>
          hv c (List.all_eq_true.mp hvv c hc)

/-- Serialized attributes of a non-empty list end in a quote. -/
theorem serAttrs_concat {a : List (LC × LC)} (h : a ≠ []) :
    ∃ y, serAttrs a = y ++ ['"'] := by
  induction a with
  | nil => cases h rfl
  | cons pr rest ih =>
      cases hr : rest with
      | nil =>
          refine ⟨' ' :: (pr.1 ++ '=' :: '"' :: escapeAttr pr.2), ?_⟩
          simp [serAttrs, serAttr, hr]
      | cons q qs =>
          obtain ⟨y, hy⟩ := ih (by simp [hr])
          rw [hr] at hy
          refine ⟨serAttr pr ++ y, ?_⟩
          simp [serAttrs, hr, ← hy, List.append_assoc]

/-- No `>` occurs in a rendered clean open-tag body. -/
theorem no_gt_open_body {n : LC} {a : List (LC × LC)} (hn : cleanName n = true)
    (ha : a.all (fun pr => cleanName pr.1 && pr.2.all cleanValChar) = true) :
    '>' ∉ n ++ serAttrs a := by
  intro hmem
  obtain ⟨hall, _, _⟩ := cleanName_props hn
  have hattrs : (serAttrs a).all (fun c => c ≠ '>') = true :=
    serAttrs_all (by decide) (by decide) (by decide)
      (fun c hc => by simpa using (cleanNameChar_props hc).2.2.2.2.2.2.1)
      (fun c hc => by simpa using (cleanValChar_props hc).2.1) ha
  rcases List.mem_append.mp hmem with hmem | hmem
  · exact (cleanNameChar_props (List.all_eq_true.mp hall _ hmem)).2.2.2.2.2.2.1 rfl
  · have := List.all_eq_true.mp hattrs _ hmem
    simp at this

/-- No `<` occurs in a rendered clean open-tag body. -/
theorem no_lt_open_body {n : LC} {a : List (LC × LC)} (hn : cleanName n = true)
    (ha : a.all (fun pr => cleanName pr.1 && pr.2.all cleanValChar) = true) :
    '<' ∉ n ++ serAttrs a := by
  intro hmem
  obtain ⟨hall, _, _⟩ := cleanName_props hn
  have hattrs : (serAttrs a).all (fun c => c ≠ '<') = true :=
    serAttrs_all (by decide) (by decide) (by decide)
      (fun c hc => by simpa using (cleanNameChar_props hc).2.2.2.2.2.2.2.1)
      (fun c hc => by simpa using (cleanValChar_props hc).1) ha
  rcases List.mem_append.mp hmem with hmem | hmem
  · exact (cleanNameChar_props (List.all_eq_true.mp hall _ hmem)).2.2.2.2.2.2.2.1 rfl
  · have := List.all_eq_true.mp hattrs _ hmem
    simp at this

/-- A blank run contains no `<`. -/
theorem no_lt_of_blank {s : LC} (h : isBlankL s = true) : '<' ∉ s := by
  intro hmem
  have := List.all_eq_true.mp h _ hmem
  simp at this

/-- Clean text contains no `<`. -/
theorem no_lt_of_cleanText {s : LC} (h : s.all cleanTextChar = true) : '<' ∉ s := by
  intro hmem
  exact (cleanTextChar_props (List.all_eq_true.mp h _ hmem)).1 rfl

/-- Clean text contains no `&`. -/
theorem no_amp_of_cleanText {s : LC} (h : s.all cleanTextChar = true) : '&' ∉ s := by
  intro hmem
  exact (cleanTextChar_props (List.all_eq_true.mp h _ hmem)).2.2 rfl

/-- The self-closing scanner passes `<`-free text through. -/
theorem fixGo_pass {s : LC} (rest : LC) (h : '<' ∉ s) :
    fixGo none (s ++ rest) = s ++ fixGo none rest := by
  induction s with
  | nil => rfl
  | cons c cs ih =>
      simp only [List.mem_cons, not_or] at h
      have hc : ¬ c = '<' := fun hcc => h.1 hcc.symm
      rw [List.cons_append]
      simp only [fixGo]
      rw [if_neg hc, ih h.2]
      rfl

/-- The self-closing scanner on a buffered tag body. -/
theorem fixGo_buffer {b : LC} (acc rest : LC) (h : '>' ∉ b) :
    fixGo (some acc) (b ++ '>' :: rest) =
      (if 2 ≤ (acc ++ b).length ∧ (acc ++ b).getLast? = some '/' then
        '<' :: ((acc ++ b).dropLast ++ [' ', '/', '>'])
       else '<' :: ((acc ++ b) ++ ['>'])) ++ fixGo none rest := by
  induction b generalizing acc with
  | nil =>
      rw [List.nil_append, fixGo]
      simp
  | cons c cs ih =>
      simp only [List.mem_cons, not_or] at h
      have hc : ¬ c = '>' := fun hcc => h.1 hcc.symm
      rw [List.cons_append]
      simp only [fixGo]
      rw [if_neg hc, ih (acc ++ [c]) h.2]
      simp [List.append_assoc]

/-- The last element of a list satisfies any predicate all elements do. -/
theorem mem_of_getLast?_eq {α : Type} {l : List α} {x : α}
    (hx : l.getLast? = some x) : x ∈ l := by
  induction l with
  | nil => cases hx
  | cons a l ih =>
      cases l with
      | nil =>
          simp only [List.getLast?_singleton, Option.some.injEq] at hx
          simp [hx]
      | cons b l2 =>
          rw [List.getLast?_cons_cons] at hx
          exact List.mem_cons_of_mem _ (ih hx)

/-- The self-closing scanner enters buffering mode at a `<`. -/
theorem fixGo_enter (l : LC) : fixGo none ('<' :: l) = fixGo (some []) l := by
  simp [fixGo]

/-- The self-closing scanner transforms one rendered clean segment. -/
theorem fixGo_seg {s : Seg} (hc : cleanSeg s = true) (rest : LC) :
    fixGo none (renderSeg false s ++ rest) = renderSeg true s ++ fixGo none rest := by
  cases s with
  | sOpen n a sc =>
      simp only [cleanSeg, Bool.and_eq_true] at hc
      obtain ⟨hn, ha⟩ := hc
      obtain ⟨hall, _, c0, m, hn0, hc0⟩ := cleanName_props hn
      cases sc with
      | true =>
          have hshape : renderSeg false (.sOpen n a true) ++ rest =
              '<' :: (((n ++ serAttrs a) ++ ['/']) ++ '>' :: rest) := by
            simp [renderSeg, List.append_assoc]
          rw [hshape, fixGo_enter]
          rw [fixGo_buffer _ _ (by
            intro hmem
            rcases List.mem_append.mp hmem with hmem | hmem
            · exact no_gt_open_body hn ha hmem
            · simp at hmem)]
          rw [if_pos (by
            constructor
            · simp only [List.nil_append, List.length_append, hn0, List.length_cons]
              omega
            · simp only [List.nil_append]
              exact List.getLast?_concat _)]
          simp only [List.nil_append, List.dropLast_concat]
          simp [renderSeg, List.append_assoc]
      | false =>
          have hshape : renderSeg false (.sOpen n a false) ++ rest =
              '<' :: ((n ++ serAttrs a) ++ '>' :: rest) := by
            simp [renderSeg, List.append_assoc]
          rw [hshape, fixGo_enter]
          rw [fixGo_buffer _ _ (no_gt_open_body hn ha)]
          rw [if_neg (by
            rintro ⟨_, hlast⟩
            simp only [List.nil_append] at hlast
            rcases ha2 : a with _ | ⟨pr, arest⟩
            · rw [ha2, serAttrs, List.append_nil] at hlast
              have hmem := mem_of_getLast?_eq hlast
              exact (cleanNameChar_props (List.all_eq_true.mp hall _ hmem)).2.2.2.2.2.1 rfl
            · obtain ⟨y, hy⟩ := serAttrs_concat (a := pr :: arest) (by simp)
              rw [ha2, hy, ← List.append_assoc, List.getLast?_concat] at hlast
              cases hlast)]
          simp only [List.nil_append]
          simp [renderSeg, List.append_assoc]
  | sClose n =>
      simp only [cleanSeg] at hc
      obtain ⟨hall, _, c0, m, hn0, hc0⟩ := cleanName_props hc
      have hshape : renderSeg false (.sClose n) ++ rest =
          '<' :: (('/' :: n) ++ '>' :: rest) := by
        simp [renderSeg, List.append_assoc]
      rw [hshape, fixGo_enter]
      rw [fixGo_buffer _ _ (by
        intro hmem
        rcases List.mem_cons.mp hmem with hmem | hmem
        · cases hmem
        · exact (cleanNameChar_props (List.all_eq_true.mp hall _ hmem)).2.2.2.2.2.2.1 rfl)]
      rw [if_neg (by
        rintro ⟨_, hlast⟩
        rw [List.nil_append, hn0, List.getLast?_cons_cons] at hlast
        have hmem := mem_of_getLast?_eq hlast
        rw [← hn0] at hmem
        exact (cleanNameChar_props (List.all_eq_true.mp hall _ hmem)).2.2.2.2.2.1 rfl)]
      simp [renderSeg, List.append_assoc]
  | sText s =>
      simp only [cleanSeg, Bool.and_eq_true] at hc
      rw [renderSeg, renderSeg, escapeText_id hc.2, fixGo_pass _ (no_lt_of_cleanText hc.2)]
  | sBlank s =>
      simp only [cleanSeg, Bool.and_eq_true] at hc
      rw [renderSeg, renderSeg, fixGo_pass _ (no_lt_of_blank hc.1)]
  | sDoctype =>
      have hd : doctypeStr =
          '<' :: (("!DOCTYPE html PUBLIC \"-//W3C//DTD XHTML 1.1//EN\" " ++
            "\"http://www.w3.org/TR/xhtml11/DTD/xhtml11.dtd\"").data ++ ['>']) := by decide
      show fixGo none (doctypeStr ++ rest) = doctypeStr ++ fixGo none rest
      rw [hd]
      rw [show ('<' :: (("!DOCTYPE html PUBLIC \"-//W3C//DTD XHTML 1.1//EN\" " ++
            "\"http://www.w3.org/TR/xhtml11/DTD/xhtml11.dtd\"").data ++ ['>'])) ++ rest =
          '<' :: (("!DOCTYPE html PUBLIC \"-//W3C//DTD XHTML 1.1//EN\" " ++
            "\"http://www.w3.org/TR/xhtml11/DTD/xhtml11.dtd\"").data ++ '>' :: rest) from by
        simp [List.append_assoc]]
      rw [fixGo_enter]
      rw [fixGo_buffer _ _ (by decide)]
      rw [if_neg (by decide)]
      simp only [List.nil_append, List.cons_append, List.append_assoc]

/-- The self-closing rewrite of `convert` acts segment-wise on a rendered
clean document: `<t/>` becomes `<t />` and nothing else changes. -/
theorem fixGo_segs {L : List Seg} (h : L.all cleanSeg = true) :
    fixGo none (renderSegs false L) = renderSegs true L := by
  induction L with
  | nil => rfl
  | cons s ls ih =>
      simp only [List.all_cons, Bool.and_eq_true] at h
      rw [renderSegs, fixGo_seg h.1, ih h.2]
      rfl

/-- A list is a prefix of itself followed by anything. -/
theorem startsWithL_self_append (l r : LC) : startsWithL l (l ++ r) = true := by
  induction l with
  | nil => rfl
  | cons c cs ih => simp [startsWithL, ih]

/-- A failed prefix cannot start matching past a name boundary. -/
theorem startsWith_append_name {tag : LC} (htag : tag.all cleanNameChar = true) :
    ∀ {n : LC} {c : Char} {r : LC}, n.all cleanNameChar = true →
      cleanNameChar c = false → startsWithL tag n = false →
      startsWithL tag (n ++ c :: r) = false := by
  induction tag with
  | nil => intro n c r _ _ hpref; rw [startsWithL] at hpref; cases hpref
  | cons t ts ih =>
      intro n c r hn hc hpref
      simp only [List.all_cons, Bool.and_eq_true] at htag
      cases n with
      | nil =>
          rw [List.nil_append]
          show (decide (t = c) && startsWithL ts r) = false
          by_cases htc : t = c
          · rw [htc] at htag; rw [htag.1] at hc; cases hc
          · simp [htc]
      | cons m ms =>
          simp only [List.all_cons, Bool.and_eq_true] at hn
          simp only [List.cons_append, startsWithL] at hpref ⊢
          by_cases htm : t = m
          · simp only [htm, decide_True, Bool.true_and] at hpref ⊢
            exact ih htag.2 hn.2 hc hpref
          · simp [htm]

/-- The open-tag scanner passes `<`-free text through. -/
theorem rotGo_pass {tag : LC} {s : LC} (rest : LC) (h : '<' ∉ s) :
    rotGo tag none (s ++ rest) = s ++ rotGo tag none rest := by
  induction s with
  | nil => rfl
  | cons c cs ih =>
      simp only [List.mem_cons, not_or] at h
      have hc : (c = '<' && startsWithL tag (cs ++ rest)) = false := by
        have : ¬ c = '<' := fun hcc => h.1 hcc.symm
        simp [this]
      rw [List.cons_append]
      rw [show rotGo tag none (c :: (cs ++ rest)) =
        if (c = '<' && startsWithL tag (cs ++ rest)) = true then rotGo tag (some []) (cs ++ rest)
        else c :: rotGo tag none (cs ++ rest) from by simp [rotGo]]
      rw [hc]
      simp only [Bool.false_eq_true, if_false, ite_false]
      rw [ih h.2]
      simp

/-- The open-tag scanner at a `<` whose suffix starts with the tag. -/
theorem rotGo_enter {tag : LC} {l : LC} (h : startsWithL tag l = true) :
    rotGo tag none ('<' :: l) = rotGo tag (some []) l := by
  rw [show rotGo tag none ('<' :: l) =
    if ('<' = '<' && startsWithL tag l) = true then rotGo tag (some []) l
    else '<' :: rotGo tag none l from by simp [rotGo]]
  simp [h]

/-- The open-tag scanner at a `<` whose suffix does not start with the
tag: advance one character. -/
theorem rotGo_skip {tag : LC} {l : LC} (h : startsWithL tag l = false) :
    rotGo tag none ('<' :: l) = '<' :: rotGo tag none l := by
  rw [show rotGo tag none ('<' :: l) =
    if ('<' = '<' && startsWithL tag l) = true then rotGo tag (some []) l
    else '<' :: rotGo tag none l from by simp [rotGo]]
  simp [h]

/-- The open-tag scanner on a buffered confirmed tag body. -/
theorem rotGo_buffer {tag : LC} {b : LC} (acc rest : LC) (h : '>' ∉ b) :
    rotGo tag (some acc) (b ++ '>' :: rest) =
      ('<' :: ("div class=\"".data ++ tag ++ '"' :: ((acc ++ b).drop tag.length ++ ['>']))) ++
        rotGo tag none rest := by
  induction b generalizing acc with
  | nil =>
      rw [List.nil_append]
      rw [show rotGo tag (some acc) ('>' :: rest) =
        if ('>' : Char) = '>' then
          ('<' :: ("div class=\"".data ++ tag ++ '"' :: (acc.drop tag.length ++ ['>']))) ++
            rotGo tag none rest
        else rotGo tag (some (acc ++ ['>'])) rest from by simp [rotGo]]
      simp
  | cons c cs ih =>
      simp only [List.mem_cons, not_or] at h
      have hc : ¬ c = '>' := fun hcc => h.1 hcc.symm
      rw [List.cons_append]
      rw [show rotGo tag (some acc) (c :: (cs ++ '>' :: rest)) =
        if c = '>' then
          ('<' :: ("div class=\"".data ++ tag ++ '"' :: (acc.drop tag.length ++ ['>']))) ++
            rotGo tag none (cs ++ '>' :: rest)
        else rotGo tag (some (acc ++ [c])) (cs ++ '>' :: rest) from by simp [rotGo]]
      rw [if_neg hc, ih (acc ++ [c]) h.2]
      simp [List.append_assoc]

/-- A nonempty prefix fails on a list with a different head. -/
theorem startsWith_ne_head {t0 : Char} {ts : LC} {c : Char} {r : LC} (h : t0 ≠ c) :
    startsWithL (t0 :: ts) (c :: r) = false := by
  simp [startsWithL, h]

/-- Each deprecated tag is a nonempty clean lowercase name. -/
theorem html5_tag_shape {tag : LC} (htag5 : tag ∈ html5Tags) :
    ∃ t0 ts, tag = t0 :: ts ∧ cleanNameChar t0 = true ∧
      tag.all cleanNameChar = true := by
  fin_cases htag5 <;> exact ⟨_, _, rfl, by decide, by decide⟩

/-- A clean name other than a deprecated tag never starts with it. -/
theorem cleanName_not_startsWith {tag n : LC} (htag5 : tag ∈ html5Tags)
    (hn : cleanName n = true) (hne : n ≠ tag) :
    startsWithL tag n = false := by
  obtain ⟨_, hhtml, _⟩ := cleanName_props hn
  have := List.all_eq_true.mp hhtml tag htag5
  rcases hsw : startsWithL tag n with _ | _
  · rfl
  · rw [hsw] at this
    simp only [Bool.not_true, Bool.false_or, beq_iff_eq] at this
    exact absurd this.symm hne

/-- The open-tag rewrite of one deprecated tag acts segment-wise on a
rendered clean segment. -/
theorem rotGo_seg {tag : LC} (htag5 : tag ∈ html5Tags) {s : Seg}
    (hc : cleanSeg s = true) (rest : LC) :
    rotGo tag none (renderSeg true s ++ rest) =
      renderSeg true (openRw tag s) ++ rotGo tag none rest := by
  obtain ⟨t0, ts, htg, ht0, htall⟩ := html5_tag_shape htag5
  cases s with
  | sOpen n a sc =>
      simp only [cleanSeg, Bool.and_eq_true] at hc
      obtain ⟨hn, ha⟩ := hc
      obtain ⟨hall, _, c0, m, hn0, hc0⟩ := cleanName_props hn
      by_cases hne : n = tag
      · subst hne
        have hval : n.all cleanValChar = true := by
          rw [List.all_eq_true] at hall ⊢
          exact fun c hcmem => (cleanNameChar_props (hall c hcmem)).2.2.2.2.1
        have hlit : "div class=\"".data =
            "div".data ++ ' ' :: ("class".data ++ ['=', '"']) := by decide
        cases sc with
        | true =>
            have hshape : renderSeg true (.sOpen n a true) ++ rest =
                '<' :: ((n ++ serAttrs a ++ [' ', '/']) ++ '>' :: rest) := by
              simp [renderSeg, List.append_assoc]
            rw [hshape]
            rw [rotGo_enter (by
              rw [show (n ++ serAttrs a ++ [' ', '/']) ++ '>' :: rest =
                  n ++ ((serAttrs a ++ [' ', '/']) ++ '>' :: rest) from by
                simp [List.append_assoc]]
              exact startsWithL_self_append _ _)]
            rw [rotGo_buffer _ _ (by
              intro hmem
              rcases List.mem_append.mp hmem with hmem | hmem
              · exact no_gt_open_body hn ha hmem
              · simp at hmem)]
            simp [openRw, renderSeg, serAttrs, serAttr, escapeAttr_id hval, hlit,
              List.append_assoc]
        | false =>
            have hshape : renderSeg true (.sOpen n a false) ++ rest =
                '<' :: ((n ++ serAttrs a) ++ '>' :: rest) := by
              simp [renderSeg, List.append_assoc]
            rw [hshape]
            rw [rotGo_enter (by
              rw [show (n ++ serAttrs a) ++ '>' :: rest =
                  n ++ (serAttrs a ++ '>' :: rest) from by simp [List.append_assoc]]
              exact startsWithL_self_append _ _)]
            rw [rotGo_buffer _ _ (no_gt_open_body hn ha)]
            simp [openRw, renderSeg, serAttrs, serAttr, escapeAttr_id hval, hlit,
              List.append_assoc]
      · have hpref : startsWithL tag n = false := cleanName_not_startsWith htag5 hn hne
        have hbody : ∃ c r2, serAttrs a ++
            (if sc then ([' ', '/', '>'] : LC) else ['>']) ++ rest = c :: r2 ∧
            cleanNameChar c = false := by
          cases a with
          | nil => cases sc <;> exact ⟨_, _, rfl, by decide⟩
          | cons pr arest => exact ⟨' ', _, rfl, by decide⟩
        obtain ⟨bc, br, hsplit, hbc⟩ := hbody
        have hshape : renderSeg true (.sOpen n a sc) ++ rest =
            '<' :: (n ++ (bc :: br)) := by
          rw [← hsplit]
          simp [renderSeg, List.append_assoc]
        rw [hshape]
        rw [rotGo_skip (startsWith_append_name htall hall hbc hpref)]
        rw [show n ++ bc :: br =
            (n ++ serAttrs a ++ (if sc then ([' ', '/', '>'] : LC) else ['>'])) ++ rest from by
          rw [← hsplit]; simp [List.append_assoc]]
        have hp : '<' ∉ n ++ serAttrs a ++ (if sc then ([' ', '/', '>'] : LC) else ['>']) := by
          intro hmem
          rcases List.mem_append.mp hmem with hmem | hmem
          · exact no_lt_open_body hn ha hmem
          · cases sc <;> simp_all
        rw [rotGo_pass _ hp]
        simp [openRw, hne, renderSeg, List.append_assoc]
  | sClose n =>
      simp only [cleanSeg] at hc
      obtain ⟨hall, _, c0, m, hn0, hc0⟩ := cleanName_props hc
      have hshape : renderSeg true (.sClose n) ++ rest =
          '<' :: ('/' :: ((n ++ ['>']) ++ rest)) := by
        simp [renderSeg, List.append_assoc]
      rw [hshape, htg]
      rw [rotGo_skip (startsWith_ne_head (cleanNameChar_props ht0).2.2.2.2.2.1)]
      rw [← htg]
      rw [show '/' :: ((n ++ ['>']) ++ rest) = ('/' :: (n ++ ['>'])) ++ rest from rfl]
      have hp : '<' ∉ '/' :: (n ++ ['>']) := by
        intro hmem
        rcases List.mem_cons.mp hmem with hmem | hmem
        · cases hmem
        · rcases List.mem_append.mp hmem with hmem | hmem
          · exact (cleanNameChar_props (List.all_eq_true.mp hall _ hmem)).2.2.2.2.2.2.2.1 rfl
          · simp at hmem
      rw [rotGo_pass _ hp]
      simp [openRw, renderSeg, List.append_assoc]
  | sText s =>
      simp only [cleanSeg, Bool.and_eq_true] at hc
      show rotGo tag none (escapeText s ++ rest) = escapeText s ++ rotGo tag none rest
      rw [escapeText_id hc.2, rotGo_pass _ (no_lt_of_cleanText hc.2)]
  | sBlank s =>
      simp only [cleanSeg, Bool.and_eq_true] at hc
      exact rotGo_pass _ (no_lt_of_blank hc.1)
  | sDoctype =>
      have hd : doctypeStr =
          '<' :: ('!' :: (("DOCTYPE html PUBLIC \"-//W3C//DTD XHTML 1.1//EN\" " ++
            "\"http://www.w3.org/TR/xhtml11/DTD/xhtml11.dtd\"").data ++ ['>'])) := by decide
      show rotGo tag none (doctypeStr ++ rest) = doctypeStr ++ rotGo tag none rest
      rw [hd, htg]
      rw [show ('<' :: ('!' :: (("DOCTYPE html PUBLIC \"-//W3C//DTD XHTML 1.1//EN\" " ++
            "\"http://www.w3.org/TR/xhtml11/DTD/xhtml11.dtd\"").data ++ ['>']))) ++ rest =
          '<' :: ('!' :: (("DOCTYPE html PUBLIC \"-//W3C//DTD XHTML 1.1//EN\" " ++
            "\"http://www.w3.org/TR/xhtml11/DTD/xhtml11.dtd\"").data ++ '>' :: rest)) from by
        simp [List.append_assoc]]
      rw [rotGo_skip (startsWith_ne_head (cleanNameChar_props ht0).2.2.2.2.2.2.2.2.2.2.2.2.1)]
      rw [show ('!' :: (("DOCTYPE html PUBLIC \"-//W3C//DTD XHTML 1.1//EN\" " ++
            "\"http://www.w3.org/TR/xhtml11/DTD/xhtml11.dtd\"").data ++ '>' :: rest) : LC) =
          ('!' :: (("DOCTYPE html PUBLIC \"-//W3C//DTD XHTML 1.1//EN\" " ++
            "\"http://www.w3.org/TR/xhtml11/DTD/xhtml11.dtd\"").data ++ ['>'])) ++ rest from by
        simp [List.append_assoc]]
      have hp : '<' ∉ '!' :: (("DOCTYPE html PUBLIC \"-//W3C//DTD XHTML 1.1//EN\" " ++
          "\"http://www.w3.org/TR/xhtml11/DTD/xhtml11.dtd\"").data ++ ['>']) := by decide
      rw [rotGo_pass _ hp]
      simp [List.append_assoc]

/-- The open-tag rewrite acts segment-wise on a whole rendered clean
segment list. -/
theorem rotGo_segs {tag : LC} (htag5 : tag ∈ html5Tags) {L : List Seg}
    (h : L.all cleanSeg = true) :
    rotGo tag none (renderSegs true L) = renderSegs true (L.map (openRw tag)) := by
  induction L with
  | nil => rfl
  | cons s ls ih =>
      simp only [List.all_cons, Bool.and_eq_true] at h
      rw [renderSegs, rotGo_seg htag5 h.1, ih h.2]
      rfl

/-- A close pattern never matches a different clean name. -/
theorem startsWith_gt_name {tag : LC} (htag : tag.all cleanNameChar = true) :
    ∀ {n : LC}, n.all cleanNameChar = true → n ≠ tag →
      ∀ r, startsWithL (tag ++ ['>']) (n ++ '>' :: r) = false := by
  induction tag with
  | nil =>
      intro n hn hne r
      cases n with
      | nil => cases hne rfl
      | cons m ms =>
          simp only [List.all_cons, Bool.and_eq_true] at hn
          exact startsWith_ne_head (Ne.symm (cleanNameChar_props hn.1).2.2.2.2.2.2.1)
  | cons t ts ih =>
      intro n hn hne r
      simp only [List.all_cons, Bool.and_eq_true] at htag
      cases n with
      | nil =>
          exact startsWith_ne_head (cleanNameChar_props htag.1).2.2.2.2.2.2.1
      | cons m ms =>
          simp only [List.all_cons, Bool.and_eq_true] at hn
          simp only [List.cons_append, startsWithL]
          by_cases htm : t = m
          · subst htm
            simp only [decide_True, Bool.true_and]
            exact ih htag.2 hn.2 (fun hms => hne (by rw [hms])) r
          · simp [htm]

/-- The close-tag scanner inside a matched occurrence drops exactly the
occurrence. -/
theorem rctGo_consume {tag : LC} : ∀ (l z : LC), rctGo tag l.length (l ++ z) = rctGo tag 0 z := by
  intro l
  induction l with
  | nil => intro z; rfl
  | cons c cs ih =>
      intro z
      rw [List.cons_append]
      rw [show (c :: cs : LC).length = cs.length + 1 from rfl]
      rw [show rctGo tag (cs.length + 1) (c :: (cs ++ z)) =
        rctGo tag cs.length (cs ++ z) from by simp [rctGo]]
      exact ih z

/-- The close-tag scanner at a position where the pattern does not match:
emit one character. -/
theorem rctGo_step {tag : LC} {c : Char} {l : LC}
    (h : startsWithL ('<' :: '/' :: (tag ++ ['>'])) (c :: l) = false) :
    rctGo tag 0 (c :: l) = c :: rctGo tag 0 l := by
  rw [show rctGo tag 0 (c :: l) =
    if startsWithL ('<' :: '/' :: (tag ++ ['>'])) (c :: l) then
      "</div>".data ++ rctGo tag (tag.length + 2) l
    else c :: rctGo tag 0 l from by simp [rctGo]]
  simp [h]

/-- The close-tag scanner passes `<`-free text through. -/
theorem rctGo_pass {tag : LC} {s : LC} (rest : LC) (h : '<' ∉ s) :
    rctGo tag 0 (s ++ rest) = s ++ rctGo tag 0 rest := by
  induction s with
  | nil => rfl
  | cons c cs ih =>
      simp only [List.mem_cons, not_or] at h
      rw [List.cons_append]
      rw [rctGo_step (startsWith_ne_head h.1)]
      rw [ih h.2]
      rfl

/-- The close-tag scanner rewrites an exact close tag. -/
theorem rctGo_close_eq {tag : LC} (rest : LC) :
    rctGo tag 0 (('<' :: ('/' :: (tag ++ ['>']))) ++ rest) =
      "</div>".data ++ rctGo tag 0 rest := by
  have hshape : ('<' :: ('/' :: (tag ++ ['>']))) ++ rest =
      '<' :: (('/' :: (tag ++ ['>'])) ++ rest) := by simp
  rw [hshape]
  rw [show rctGo tag 0 ('<' :: (('/' :: (tag ++ ['>'])) ++ rest)) =
    if startsWithL ('<' :: '/' :: (tag ++ ['>'])) ('<' :: (('/' :: (tag ++ ['>'])) ++ rest)) then
      "</div>".data ++ rctGo tag (tag.length + 2) (('/' :: (tag ++ ['>'])) ++ rest)
    else '<' :: rctGo tag 0 (('/' :: (tag ++ ['>'])) ++ rest) from by simp [rctGo]]
  rw [if_pos (by rw [← hshape]; exact startsWithL_self_append _ _)]
  rw [show tag.length + 2 = ('/' :: (tag ++ ['>']) : LC).length from by simp]
  rw [rctGo_consume]

/-- The close-tag rewrite of one deprecated tag acts segment-wise on a
rendered clean segment. -/
theorem rctGo_seg {tag : LC} (htag5 : tag ∈ html5Tags) {s : Seg}
    (hc : cleanSeg s = true) (rest : LC) :
    rctGo tag 0 (renderSeg true s ++ rest) =
      renderSeg true (closeRw tag s) ++ rctGo tag 0 rest := by
  obtain ⟨t0, ts, htg, ht0, htall⟩ := html5_tag_shape htag5
  cases s with
  | sOpen n a sc =>
      simp only [cleanSeg, Bool.and_eq_true] at hc
      obtain ⟨hn, ha⟩ := hc
      obtain ⟨hall, _, c0, m, hn0, hc0⟩ := cleanName_props hn
      have hshape : renderSeg true (.sOpen n a sc) ++ rest =
          '<' :: (c0 :: ((m ++ serAttrs a ++
            (if sc then ([' ', '/', '>'] : LC) else ['>'])) ++ rest)) := by
        simp [renderSeg, hn0, List.append_assoc]
      rw [hshape]
      rw [rctGo_step (by
        have hsl : ('/' : Char) ≠ c0 := Ne.symm (lowerAlpha_props hc0).2.2.2.2
        simp [startsWithL, hsl])]
      rw [show c0 :: ((m ++ serAttrs a ++
            (if sc then ([' ', '/', '>'] : LC) else ['>'])) ++ rest) =
          (n ++ serAttrs a ++ (if sc then ([' ', '/', '>'] : LC) else ['>'])) ++ rest from by
        rw [hn0]; simp [List.append_assoc]]
      have hp : '<' ∉ n ++ serAttrs a ++ (if sc then ([' ', '/', '>'] : LC) else ['>']) := by
        intro hmem
        rcases List.mem_append.mp hmem with hmem | hmem
        · exact no_lt_open_body hn ha hmem
        · cases sc <;> simp_all
      rw [rctGo_pass _ hp]
      simp [closeRw, renderSeg, hn0, List.append_assoc]
  | sClose n =>
      simp only [cleanSeg] at hc
      obtain ⟨hall, _, c0, m, hn0, hc0⟩ := cleanName_props hc
      by_cases hne : n = tag
      · subst hne
        rw [show renderSeg true (.sClose n) ++ rest =
            ('<' :: ('/' :: (n ++ ['>']))) ++ rest from by simp [renderSeg]]
        rw [rctGo_close_eq]
        rw [show renderSeg true (closeRw n (.sClose n)) = "</div>".data from by
          simp [closeRw, renderSeg]]
      · have hsw : startsWithL (tag ++ ['>']) (n ++ '>' :: rest) = false :=
          startsWith_gt_name htall hall hne rest
        have hshape : renderSeg true (.sClose n) ++ rest =
            '<' :: ('/' :: (n ++ '>' :: rest)) := by
          simp [renderSeg, List.append_assoc]
        rw [hshape]
        rw [rctGo_step (by
          show (decide ('<' = '<') && (decide ('/' = '/') &&
            startsWithL (tag ++ ['>']) (n ++ '>' :: rest))) = false
          rw [hsw]
          simp)]
        rw [show ('/' :: (n ++ '>' :: rest) : LC) = ('/' :: (n ++ ['>'])) ++ rest from by
          simp [List.append_assoc]]
        have hp : '<' ∉ '/' :: (n ++ ['>']) := by
          intro hmem
          rcases List.mem_cons.mp hmem with hmem | hmem
          · cases hmem
          · rcases List.mem_append.mp hmem with hmem | hmem
            · exact (cleanNameChar_props (List.all_eq_true.mp hall _ hmem)).2.2.2.2.2.2.2.1 rfl
            · simp at hmem
        rw [rctGo_pass _ hp]
        simp [closeRw, hne, renderSeg, List.append_assoc]
  | sText s =>
      simp only [cleanSeg, Bool.and_eq_true] at hc
      show rctGo tag 0 (escapeText s ++ rest) = escapeText s ++ rctGo tag 0 rest
      rw [escapeText_id hc.2, rctGo_pass _ (no_lt_of_cleanText hc.2)]
  | sBlank s =>
      simp only [cleanSeg, Bool.and_eq_true] at hc
      exact rctGo_pass _ (no_lt_of_blank hc.1)
  | sDoctype =>
      have hd : doctypeStr =
          '<' :: ('!' :: (("DOCTYPE html PUBLIC \"-//W3C//DTD XHTML 1.1//EN\" " ++
            "\"http://www.w3.org/TR/xhtml11/DTD/xhtml11.dtd\"").data ++ ['>'])) := by decide
      show rctGo tag 0 (doctypeStr ++ rest) = doctypeStr ++ rctGo tag 0 rest
      rw [hd]
      rw [show ('<' :: ('!' :: (("DOCTYPE html PUBLIC \"-//W3C//DTD XHTML 1.1//EN\" " ++
            "\"http://www.w3.org/TR/xhtml11/DTD/xhtml11.dtd\"").data ++ ['>']))) ++ rest =
          '<' :: ('!' :: ((("DOCTYPE html PUBLIC \"-//W3C//DTD XHTML 1.1//EN\" " ++
            "\"http://www.w3.org/TR/xhtml11/DTD/xhtml11.dtd\"").data ++ ['>']) ++ rest)) from by
        simp [List.append_assoc]]
      rw [rctGo_step (by
        have hsl : ('/' : Char) ≠ '!' := by decide
        simp [startsWithL, hsl])]
      rw [show ('!' :: ((("DOCTYPE html PUBLIC \"-//W3C//DTD XHTML 1.1//EN\" " ++
            "\"http://www.w3.org/TR/xhtml11/DTD/xhtml11.dtd\"").data ++ ['>']) ++ rest) : LC) =
          ('!' :: (("DOCTYPE html PUBLIC \"-//W3C//DTD XHTML 1.1//EN\" " ++
            "\"http://www.w3.org/TR/xhtml11/DTD/xhtml11.dtd\"").data ++ ['>'])) ++ rest from rfl]
      have hp : '<' ∉ '!' :: (("DOCTYPE html PUBLIC \"-//W3C//DTD XHTML 1.1//EN\" " ++
          "\"http://www.w3.org/TR/xhtml11/DTD/xhtml11.dtd\"").data ++ ['>']) := by decide
      rw [rctGo_pass _ hp]
      simp [List.append_assoc]

/-- The close-tag rewrite acts segment-wise on a whole rendered clean
segment list. -/
theorem rctGo_segs {tag : LC} (htag5 : tag ∈ html5Tags) {L : List Seg}
    (h : L.all cleanSeg = true) :
    rctGo tag 0 (renderSegs true L) = renderSegs true (L.map (closeRw tag)) := by
  induction L with
  | nil => simp [renderSegs, rctGo]
  | cons s ls ih =>
      simp only [List.all_cons, Bool.and_eq_true] at h
      rw [renderSegs, rctGo_seg htag5 h.1, ih h.2]
      rfl

/-- Rewriting one deprecated tag preserves segment cleanliness. -/
theorem cleanSeg_openRw {tag : LC} (htag5 : tag ∈ html5Tags) {s : Seg}
    (hc : cleanSeg s = true) : cleanSeg (openRw tag s) = true := by
  have hvt : tag.all cleanValChar = true := by fin_cases htag5 <;> decide
  cases s with
  | sOpen n a sc =>
      by_cases hne : n = tag
      · subst hne
        simp only [cleanSeg, Bool.and_eq_true] at hc
        show cleanSeg (if n = n then Seg.sOpen "div".data (("class".data, n) :: a) sc
          else Seg.sOpen n a sc) = true
        rw [if_pos rfl]
        simp only [cleanSeg, List.all_cons, Bool.and_eq_true]
        exact ⟨by decide, ⟨by decide, hvt⟩, hc.2⟩
      · simp only [openRw, if_neg hne]
        exact hc
  | sClose n => exact hc
  | sText s => exact hc
  | sBlank s => exact hc
  | sDoctype => exact hc

/-- Rewriting one deprecated close tag preserves segment cleanliness. -/
theorem cleanSeg_closeRw {tag : LC} {s : Seg} (hc : cleanSeg s = true) :
    cleanSeg (closeRw tag s) = true := by
  cases s with
  | sOpen n a sc => exact hc
  | sClose n =>
      by_cases hne : n = tag
      · subst hne
        show cleanSeg (if n = n then Seg.sClose "div".data else Seg.sClose n) = true
        rw [if_pos rfl]
        decide
      · simp only [closeRw, if_neg hne]
        exact hc
  | sText s => exact hc
  | sBlank s => exact hc
  | sDoctype => exact hc

/-- One tag rewrite pass preserves cleanliness of a segment list. -/
theorem all_cleanSeg_rw {tag : LC} (htag5 : tag ∈ html5Tags) {L : List Seg}
    (h : L.all cleanSeg = true) :
    ((L.map (openRw tag)).map (closeRw tag)).all cleanSeg = true := by
  rw [List.all_map, List.all_map]
  rw [List.all_eq_true] at h ⊢
  intro s hs
  exact cleanSeg_closeRw (cleanSeg_openRw htag5 (h s hs))

/-- One iteration of the deprecated-tag loop acts segment-wise. -/
theorem applyTagRewrite_segs {tag : LC} (htag5 : tag ∈ html5Tags) {L : List Seg}
    (h : L.all cleanSeg = true) :
    applyTagRewrite (renderSegs true L) tag =
      renderSegs true ((L.map (openRw tag)).map (closeRw tag)) := by
  show replaceCloseTag tag (replaceOpenTag tag (renderSegs true L)) = _
  rw [show replaceOpenTag tag (renderSegs true L) = rotGo tag none (renderSegs true L) from rfl]
  rw [rotGo_segs htag5 h]
  show rctGo tag 0 (renderSegs true (L.map (openRw tag))) = _
  rw [rctGo_segs htag5 (by
    rw [List.all_map]
    rw [List.all_eq_true] at h ⊢
    exact fun s hs => cleanSeg_openRw htag5 (h s hs))]

/-- The full deprecated-tag loop acts segment-wise, one tag at a time. -/
theorem foldl_rw_segs (T : List LC) (hT : ∀ t ∈ T, t ∈ html5Tags) :
    ∀ (L : List Seg), L.all cleanSeg = true →
      T.foldl applyTagRewrite (renderSegs true L) =
        renderSegs true (T.foldl (fun M tag => (M.map (openRw tag)).map (closeRw tag)) L) := by
  induction T with
  | nil => intro L _; rfl
  | cons t ts ih =>
      intro L h
      have ht5 : t ∈ html5Tags := hT t (by simp)
      rw [List.foldl_cons, applyTagRewrite_segs ht5 h, List.foldl_cons]
      exact ih (fun u hu => hT u (by simp [hu])) _ (all_cleanSeg_rw ht5 h)

/-- Tag rewriting never turns an element into text or vice versa. -/
theorem isTextNode_rewriteTagN (tag : LC) (n : Node) :
    isTextNode (rewriteTagN tag n) = isTextNode n := by
  cases n with
  | text s => rfl
  | elem t a kids =>
      simp only [rewriteTagN]
      split <;> rfl

/-- Tag rewriting preserves the presence of text children. -/
theorem hasText_rewriteTagL (tag : LC) :
    ∀ kids : NodeList, (rewriteTagL tag kids).hasText = kids.hasText
  | .nil => rfl
  | .cons n ns => by
      simp [rewriteTagL, NodeList.hasText, isTextNode_rewriteTagN,
        hasText_rewriteTagL tag ns]

mutual

/-- Rewriting one deprecated tag commutes with segment extraction. -/
theorem segsOfN_rw (tag : LC) (fmt : Bool) (d : Nat) :
    ∀ t : Node, segsOfN fmt d (rewriteTagN tag t) =
      ((segsOfN fmt d t).map (openRw tag)).map (closeRw tag)
  | .text s => by simp [rewriteTagN, segsOfN, openRw, closeRw]
  | .elem t a .nil => by
      by_cases ht : t = tag <;>
        simp [rewriteTagN, rewriteTagL, segsOfN, openRw, closeRw, ht]
  | .elem t a (.cons c cs) => by
      rw [show rewriteTagN tag (.elem t a (.cons c cs)) =
          (if t = tag then
            Node.elem "div".data (("class".data, tag) :: a)
              (NodeList.cons (rewriteTagN tag c) (rewriteTagL tag cs))
          else Node.elem t a (NodeList.cons (rewriteTagN tag c) (rewriteTagL tag cs)))
          from rfl]
      by_cases ht : t = tag
      · rw [if_pos ht]
        simp only [segsOfN]
        rw [show NodeList.cons (rewriteTagN tag c) (rewriteTagL tag cs) =
            rewriteTagL tag (NodeList.cons c cs) from rfl]
        rw [hasText_rewriteTagL]
        by_cases hf : (fmt && !(NodeList.cons c cs).hasText) = true
        · simp only [hf, if_true, reduceIte]
          rw [segsFmt_rw tag (d + 1) (NodeList.cons c cs)]
          simp [List.map_append, openRw, closeRw, ht]
        · simp only [hf, Bool.false_eq_true, if_false, reduceIte]
          rw [segsOfL_rw tag (NodeList.cons c cs)]
          simp [List.map_append, openRw, closeRw, ht]
      · rw [if_neg ht]
        simp only [segsOfN]
        rw [show NodeList.cons (rewriteTagN tag c) (rewriteTagL tag cs) =
            rewriteTagL tag (NodeList.cons c cs) from rfl]
        rw [hasText_rewriteTagL]
        by_cases hf : (fmt && !(NodeList.cons c cs).hasText) = true
        · simp only [hf, if_true, reduceIte]
          rw [segsFmt_rw tag (d + 1) (NodeList.cons c cs)]
          simp [List.map_append, openRw, closeRw, ht]
        · simp only [hf, Bool.false_eq_true, if_false, reduceIte]
          rw [segsOfL_rw tag (NodeList.cons c cs)]
          simp [List.map_append, openRw, closeRw, ht]

/-- `segsOfN_rw` on inline children. -/
theorem segsOfL_rw (tag : LC) :
    ∀ kids : NodeList, segsOfL (rewriteTagL tag kids) =
      ((segsOfL kids).map (openRw tag)).map (closeRw tag)
  | .nil => by simp [rewriteTagL, segsOfL]
  | .cons c cs => by
      rw [show rewriteTagL tag (.cons c cs) =
          NodeList.cons (rewriteTagN tag c) (rewriteTagL tag cs) from rfl]
      rw [segsOfL, segsOfL]
      simp [List.map_append, segsOfN_rw tag false 0 c, segsOfL_rw tag cs]

/-- `segsOfN_rw` on formatted children. -/
theorem segsFmt_rw (tag : LC) (d : Nat) :
    ∀ kids : NodeList, segsFmt d (rewriteTagL tag kids) =
      ((segsFmt d kids).map (openRw tag)).map (closeRw tag)
  | .nil => by simp [rewriteTagL, segsFmt]
  | .cons c cs => by
      rw [show rewriteTagL tag (.cons c cs) =
          NodeList.cons (rewriteTagN tag c) (rewriteTagL tag cs) from rfl]
      rw [segsFmt, segsFmt]
      simp [List.map_append, segsOfN_rw tag true d c, segsFmt_rw tag d cs,
        openRw, closeRw]

end

/-- Rewriting one deprecated tag commutes with document segments. -/
theorem segsDoc_rw (tag : LC) (t : Node) :
    segsDoc (rewriteTagN tag t) = ((segsDoc t).map (openRw tag)).map (closeRw tag) := by
  simp [segsDoc, List.map_append, segsOfN_rw tag true 0 t, openRw, closeRw]

/-- The whole deprecated-tag loop at segment level equals the tree-level
rewrite. -/
theorem segsDoc_fold_rw (T : List LC) :
    ∀ t : Node,
      T.foldl (fun M tag => (M.map (openRw tag)).map (closeRw tag)) (segsDoc t) =
        segsDoc (T.foldl (fun u tag => rewriteTagN tag u) t) := by
  induction T with
  | nil => intro t; rfl
  | cons g gs ih =>
      intro t
      rw [List.foldl_cons, List.foldl_cons, ← segsDoc_rw g t]
      exact ih (rewriteTagN g t)

/-- The pretty-printer indentation is whitespace. -/
theorem isBlankL_indent (d : Nat) : isBlankL ('\n' :: indentL d) = true := by
  simp only [isBlankL, List.all_cons, Bool.and_eq_true]
  constructor
  · decide
  · rw [List.all_eq_true]
    intro c hc
    rw [List.eq_of_mem_replicate hc]
    decide

/-- The pretty-printer indentation blank is a clean segment. -/
theorem blank_indent_clean (d : Nat) : cleanSeg (.sBlank ('\n' :: indentL d)) = true := by
  simp only [cleanSeg, Bool.and_eq_true]
  exact ⟨isBlankL_indent d, by simp⟩

mutual

/-- Clean nodes produce clean segments. -/
theorem segsOfN_clean (fmt : Bool) (d : Nat) :
    ∀ t : Node, cleanN t = true → (segsOfN fmt d t).all cleanSeg = true
  | .text s, h => by
      simp only [cleanN] at h
      simp [segsOfN, cleanSeg, h]
  | .elem t a .nil, h => by
      simp only [cleanN, Bool.and_eq_true] at h
      obtain ⟨⟨⟨⟨hname, hattrs⟩, _⟩, _⟩, _⟩ := h
      simp only [cleanAttrsOf, Bool.and_eq_true] at hattrs
      simp [segsOfN, cleanSeg, hname, hattrs.1.1]
  | .elem t a (.cons c cs), h => by
      simp only [cleanN, Bool.and_eq_true] at h
      obtain ⟨⟨⟨⟨hname, hattrs⟩, _⟩, _⟩, hkids⟩ := h
      simp only [cleanAttrsOf, Bool.and_eq_true] at hattrs
      simp only [segsOfN]
      by_cases hf : (fmt && !(NodeList.cons c cs).hasText) = true
      · simp only [hf, if_true, reduceIte]
        simp [List.all_cons, List.all_append, cleanSeg, hname, hattrs.1.1,
          segsFmt_clean (d + 1) (.cons c cs) hkids, blank_indent_clean d,
          isBlankL_indent d]
      · simp only [hf, Bool.false_eq_true, if_false, reduceIte]
        simp [List.all_cons, List.all_append, cleanSeg, hname, hattrs.1.1,
          segsOfL_clean (.cons c cs) hkids]

/-- `segsOfN_clean` on inline children. -/
theorem segsOfL_clean :
    ∀ kids : NodeList, cleanL kids = true → (segsOfL kids).all cleanSeg = true
  | .nil, _ => rfl
  | .cons c cs, h => by
      simp only [cleanL, Bool.and_eq_true] at h
      simp [segsOfL, List.all_append, segsOfN_clean false 0 c h.1,
        segsOfL_clean cs h.2]

/-- `segsOfN_clean` on formatted children. -/
theorem segsFmt_clean (d : Nat) :
    ∀ kids : NodeList, cleanL kids = true → (segsFmt d kids).all cleanSeg = true
  | .nil, _ => rfl
  | .cons c cs, h => by
      simp only [cleanL, Bool.and_eq_true] at h
      simp [segsFmt, List.all_cons, List.all_append, blank_indent_clean d,
        segsOfN_clean true d c h.1, segsFmt_clean d cs h.2]

end

/-- A clean document yields clean segments. -/
theorem segsDoc_clean {t : Node} (h : cleanDoc t = true) :
    (segsDoc t).all cleanSeg = true := by
  cases t with
  | text s => simp [cleanDoc] at h
  | elem t a kids =>
      simp only [cleanDoc, Bool.and_eq_true] at h
      have hb : cleanSeg (Seg.sBlank ['\n']) = true := by decide
      have hd : cleanSeg Seg.sDoctype = true := rfl
      simp [segsDoc, List.all_cons, List.all_append, hb, hd,
        segsOfN_clean true 0 _ h.1.2]

/-- What `convert` computes on an input that parses to a clean tree: the
serialized, self-close-fixed, deprecated-tag-rewritten document. -/
theorem convert_ok_segs {s : LC} {t : Node} (hparse : parseDocument s = .ok t)
    (hclean : (segsDoc t).all cleanSeg = true) :
    convert s = .ok (renderSegs true (segsDoc (rewriteDoc t))) := by
  rw [show convert s = (match parseDocument s with
    | .error e => .error ("Error converting to XHTML: ".data ++ e)
    | .ok root => .ok (replaceHtml5 (fixSelfClose (tostringDoc false root)))) from rfl]
  rw [hparse]
  show Except.ok (replaceHtml5 (fixSelfClose (tostringDoc false t))) = _
  rw [tostringDoc_eq_segs]
  rw [show fixSelfClose (renderSegs false (segsDoc t)) =
      fixGo none (renderSegs false (segsDoc t)) from rfl]
  rw [fixGo_segs hclean]
  rw [show replaceHtml5 (renderSegs true (segsDoc t)) =
      html5Tags.foldl applyTagRewrite (renderSegs true (segsDoc t)) from rfl]
  rw [foldl_rw_segs html5Tags (fun u hu => hu) _ hclean]
  rw [segsDoc_fold_rw]
  rfl

/-- The strict checker passes clean character data inside an element. -/
theorem wfGo_text_pass {stack : List LC} {root : Bool} {s : LC} (z : LC)
    (hs : s.all cleanTextChar = true) (hst : stack.isEmpty = false) :
    wfGo stack root .txt (s ++ z) = wfGo stack root .txt z := by
  induction s with
  | nil => rfl
  | cons c cs ih =>
      simp only [List.all_cons, Bool.and_eq_true] at hs
      obtain ⟨h1, _, h2⟩ := cleanTextChar_props hs.1
      rw [List.cons_append]
      rw [show wfGo stack root .txt (c :: (cs ++ z)) =
        if c = '<' then wfGo stack root (.tag [] none) (cs ++ z)
        else if c = '&' then false
        else if stack.isEmpty && !c.isWhitespace then false
        else wfGo stack root .txt (cs ++ z) from by simp [wfGo]]
      rw [if_neg h1, if_neg h2, if_neg (by simp [hst])]
      exact ih hs.2

/-- The strict checker passes whitespace anywhere in text mode. -/
theorem wfGo_blank_pass {stack : List LC} {root : Bool} {s : LC} (z : LC)
    (hs : isBlankL s = true) :
    wfGo stack root .txt (s ++ z) = wfGo stack root .txt z := by
  induction s with
  | nil => rfl
  | cons c cs ih =>
      simp only [isBlankL, List.all_cons, Bool.and_eq_true] at hs
      have h1 : c ≠ '<' := fun hc => by rw [hc] at hs; cases hs.1
      have h2 : c ≠ '&' := fun hc => by rw [hc] at hs; cases hs.1
      rw [List.cons_append]
      rw [show wfGo stack root .txt (c :: (cs ++ z)) =
        if c = '<' then wfGo stack root (.tag [] none) (cs ++ z)
        else if c = '&' then false
        else if stack.isEmpty && !c.isWhitespace then false
        else wfGo stack root .txt (cs ++ z) from by simp [wfGo]]
      rw [if_neg h1, if_neg h2, if_neg (by simp [hs.1])]
      exact ih (by simp [isBlankL, hs.2])

/-- Tag-buffer accumulation over quote-free, `>`-free characters. -/
theorem wfGo_tagacc {stack : List LC} {root : Bool} :
    ∀ {b : LC} (acc z : LC),
      b.all (fun c => !(c = '"' || c = '\'' || c = '>')) = true →
      wfGo stack root (.tag acc none) (b ++ z) =
        wfGo stack root (.tag (acc ++ b) none) z := by
  intro b
  induction b with
  | nil => intro acc z _; rw [List.nil_append, List.append_nil]
  | cons c cs ih =>
      intro acc z h
      simp only [List.all_cons, Bool.and_eq_true, Bool.not_eq_true',
        Bool.or_eq_false_iff, decide_eq_false_iff_not] at h
      rw [List.cons_append]
      rw [show wfGo stack root (.tag acc none) (c :: (cs ++ z)) =
        if c = '"' || c = '\'' then wfGo stack root (.tag (acc ++ [c]) (some c)) (cs ++ z)
        else if c ≠ '>' then wfGo stack root (.tag (acc ++ [c]) none) (cs ++ z)
        else wfGo stack root (.tag acc none) ('>' :: (cs ++ z)) from by
          simp [wfGo]]
      rw [if_neg (by simp [h.1.1.1, h.1.1.2])]
      rw [if_pos h.1.2]
      rw [ih (acc ++ [c]) z (by
        rw [List.all_eq_true]
        intro x hx
        have := h.2
        rw [List.all_eq_true] at this
        exact this x hx)]
      rw [List.append_assoc]
      rfl

/-- Tag-buffer accumulation inside a quoted attribute value. -/
theorem wfGo_valacc {stack : List LC} {root : Bool} {q : Char} :
    ∀ {v : LC} (acc z : LC), v.all (fun c => !(c = q)) = true →
      wfGo stack root (.tag acc (some q)) (v ++ z) =
        wfGo stack root (.tag (acc ++ v) (some q)) z := by
  intro v
  induction v with
  | nil => intro acc z _; rw [List.nil_append, List.append_nil]
  | cons c cs ih =>
      intro acc z h
      simp only [List.all_cons, Bool.and_eq_true, Bool.not_eq_true',
        decide_eq_false_iff_not] at h
      rw [List.cons_append]
      rw [show wfGo stack root (.tag acc (some q)) (c :: (cs ++ z)) =
        if c = q then wfGo stack root (.tag (acc ++ [c]) none) (cs ++ z)
        else wfGo stack root (.tag (acc ++ [c]) (some q)) (cs ++ z) from by
          simp [wfGo]]
      rw [if_neg h.1]
      rw [ih (acc ++ [c]) z (by
        rw [List.all_eq_true]
        intro x hx
        have := h.2
        rw [List.all_eq_true] at this
        exact this x hx)]
      rw [List.append_assoc]
      rfl

/-- Attribute-checker name accumulation. -/
theorem wfAGo_nmacc {seen : List LC} :
    ∀ {k : LC} (acc z : LC), k.all cleanNameChar = true →
      wfAGo seen (.nm acc) (k ++ z) = wfAGo seen (.nm (acc ++ k)) z := by
  intro k
  induction k with
  | nil => intro acc z _; rw [List.nil_append, List.append_nil]
  | cons c cs ih =>
      intro acc z h
      simp only [List.all_cons, Bool.and_eq_true] at h
      have hnc : isNameChar c = true := (cleanNameChar_props h.1).1
      rw [List.cons_append]
      rw [show wfAGo seen (.nm acc) (c :: (cs ++ z)) =
        if isNameChar c then wfAGo seen (.nm (acc ++ [c])) (cs ++ z)
        else if c = '=' then wfAGo seen (.postEq acc) (cs ++ z)
        else if c.isWhitespace then wfAGo seen (.postNm acc) (cs ++ z)
        else none from by simp [wfAGo]]
      rw [if_pos hnc, ih (acc ++ [c]) z h.2, List.append_assoc]
      rfl

/-- Attribute-checker quoted-value consumption. -/
theorem wfAGo_val {seen : List LC} {n : LC} :
    ∀ {v : LC} (z : LC), v.all cleanValChar = true →
      wfAGo seen (.val n '"') (v ++ z) = wfAGo seen (.val n '"') z := by
  intro v
  induction v with
  | nil => intro z _; rfl
  | cons c cs ih =>
      intro z h
      simp only [List.all_cons, Bool.and_eq_true] at h
      obtain ⟨h1, _, h3, h4, _⟩ := cleanValChar_props h.1
      rw [List.cons_append]
      rw [show wfAGo seen (.val n '"') (c :: (cs ++ z)) =
        if c = '"' then
          (if seen.any (fun m => m = n) then none else wfAGo (n :: seen) .ws (cs ++ z))
        else if c = '<' || c = '&' then none
        else wfAGo seen (.val n '"') (cs ++ z) from by simp [wfAGo]]
      rw [if_neg h4, if_neg (by simp [h1, h3])]
      exact ih z h.2

/-- The attribute checker consumes one serialized attribute and records
its name. -/
theorem wfAGo_attr {seen : List LC} {k v : LC} (z : LC) (hk : cleanName k = true)
    (hv : v.all cleanValChar = true) (hns : seen.any (fun m => m = k) = false) :
    wfAGo seen .ws (serAttr (k, v) ++ z) = wfAGo (k :: seen) .ws z := by
  obtain ⟨hall, _, c0, m, hk0, hc0⟩ := cleanName_props hk
  obtain ⟨hc0n, _⟩ := lowerAlpha_props hc0
  have hc0c : cleanNameChar c0 = true := (lowerAlpha_props hc0).2.1
  obtain ⟨_, _, hws, _, _, hsl, _⟩ := cleanNameChar_props hc0c
  rw [show serAttr (k, v) ++ z =
      ' ' :: (k ++ ('=' :: '"' :: (escapeAttr v ++ ('"' :: z)))) from by
    simp [serAttr, List.append_assoc]]
  rw [show wfAGo seen .ws (' ' :: (k ++ ('=' :: '"' :: (escapeAttr v ++ ('"' :: z))))) =
    wfAGo seen .ws (k ++ ('=' :: '"' :: (escapeAttr v ++ ('"' :: z)))) from by
    simp [wfAGo]]
  rw [hk0, List.cons_append]
  rw [show wfAGo seen .ws (c0 :: (m ++ ('=' :: '"' :: (escapeAttr v ++ ('"' :: z))))) =
    if c0.isWhitespace then wfAGo seen .ws (m ++ ('=' :: '"' :: (escapeAttr v ++ ('"' :: z))))
    else if c0 = '/' then
      (if (m ++ ('=' :: '"' :: (escapeAttr v ++ ('"' :: z)))).isEmpty then some true else none)
    else if c0.isAlpha then
      wfAGo seen (.nm [c0]) (m ++ ('=' :: '"' :: (escapeAttr v ++ ('"' :: z))))
    else none from by simp [wfAGo]]
  rw [if_neg (by simp [hws]), if_neg hsl, if_pos hc0n]
  rw [wfAGo_nmacc [c0] _ (by
    rw [hk0] at hall
    simp only [List.all_cons, Bool.and_eq_true] at hall
    exact hall.2)]
  rw [show wfAGo seen (.nm ([c0] ++ m)) ('=' :: '"' :: (escapeAttr v ++ ('"' :: z))) =
    if isNameChar '=' then wfAGo seen (.nm (([c0] ++ m) ++ ['='])) ('"' :: (escapeAttr v ++ ('"' :: z)))
    else if ('=' : Char) = '=' then wfAGo seen (.postEq ([c0] ++ m)) ('"' :: (escapeAttr v ++ ('"' :: z)))
    else if ('=' : Char).isWhitespace then
      wfAGo seen (.postNm ([c0] ++ m)) ('"' :: (escapeAttr v ++ ('"' :: z)))
    else none from by simp [wfAGo]]
  rw [if_neg (by decide), if_pos rfl]
  rw [show wfAGo seen (.postEq ([c0] ++ m)) ('"' :: (escapeAttr v ++ ('"' :: z))) =
    wfAGo seen (.val ([c0] ++ m) '"') (escapeAttr v ++ ('"' :: z)) from by simp [wfAGo]]
  rw [escapeAttr_id hv, wfAGo_val _ hv]
  rw [show wfAGo seen (.val ([c0] ++ m) '"') ('"' :: z) =
    if seen.any (fun q => q = [c0] ++ m) then none else wfAGo (([c0] ++ m) :: seen) .ws z
    from by simp [wfAGo]]
  rw [show ([c0] ++ m : LC) = k from by rw [hk0]; rfl]
  rw [if_neg (by simp only [hns]; exact fun hcon => by cases hcon)]
  rw [hk0]

/-- The attribute checker accepts a clean, duplicate-free attribute list. -/
theorem wfAGo_attrs :
    ∀ {a : List (LC × LC)} (seen : List LC) (z : LC),
      a.all (fun p => cleanName p.1 && p.2.all cleanValChar) = true →
      nodupKeys a = true →
      (∀ p ∈ a, seen.any (fun m => m = p.1) = false) →
      ∃ seen2, wfAGo seen .ws (serAttrs a ++ z) = wfAGo seen2 .ws z := by
  intro a
  induction a with
  | nil => intro seen z _ _ _; exact ⟨seen, rfl⟩
  | cons p rest ih =>
      intro seen z hclean hnodup hdisj
      simp only [List.all_cons, Bool.and_eq_true] at hclean
      simp only [nodupKeys, Bool.and_eq_true, Bool.not_eq_true',
        List.any_eq_false] at hnodup
      rw [show serAttrs (p :: rest) ++ z = serAttr (p.1, p.2) ++ (serAttrs rest ++ z) from by
        simp [serAttrs, List.append_assoc]]
      rw [wfAGo_attr _ hclean.1.1 hclean.1.2 (hdisj p (by simp))]
      refine ih (p.1 :: seen) z hclean.2 hnodup.2 ?_
      intro q hq
      simp only [List.any_cons, Bool.or_eq_false_iff]
      constructor
      · simp only [decide_eq_false_iff_not]
        intro hqp
        exact absurd hqp.symm (by simpa using hnodup.1 q hq)
      · exact hdisj q (by simp [hq])

/-- Tag-buffer consumption of one serialized attribute. -/
theorem wfGo_tag_attr {stack : List LC} {root : Bool} {k v : LC} (acc z : LC)
    (hk : cleanName k = true) (hv : v.all cleanValChar = true) :
    wfGo stack root (.tag acc none) (serAttr (k, v) ++ z) =
      wfGo stack root (.tag (acc ++ serAttr (k, v)) none) z := by
  obtain ⟨hall, _, c0, m, hk0, hc0⟩ := cleanName_props hk
  rw [show serAttr (k, v) ++ z =
      (' ' :: (k ++ ['='])) ++ ('"' :: (escapeAttr v ++ ('"' :: z))) from by
    simp [serAttr, List.append_assoc]]
  rw [wfGo_tagacc acc _ (by
    simp only [List.all_cons, Bool.and_eq_true]
    refine ⟨by decide, ?_⟩
    rw [List.all_eq_true]
    intro x hx
    rcases List.mem_append.mp hx with hx | hx
    · obtain ⟨_, _, _, _, _, _, hgt, _, hq, hq2, _⟩ :=
        cleanNameChar_props (List.all_eq_true.mp hall _ hx)
      simp [hq, hq2, hgt]
    · simp at hx
      simp [hx])]
  rw [show wfGo stack root (.tag (acc ++ (' ' :: (k ++ ['=']))) none)
      ('"' :: (escapeAttr v ++ ('"' :: z))) =
    wfGo stack root (.tag ((acc ++ (' ' :: (k ++ ['=']))) ++ ['"']) (some '"'))
      (escapeAttr v ++ ('"' :: z)) from by simp [wfGo]]
  rw [escapeAttr_id hv]
  rw [wfGo_valacc _ _ (by
    rw [List.all_eq_true]
    intro x hx
    simp [(cleanValChar_props (List.all_eq_true.mp hv _ hx)).2.2.2.1])]
  rw [show wfGo stack root
      (.tag (((acc ++ (' ' :: (k ++ ['=']))) ++ ['"']) ++ v) (some '"')) ('"' :: z) =
    wfGo stack root
      (.tag ((((acc ++ (' ' :: (k ++ ['=']))) ++ ['"']) ++ v) ++ ['"']) none) z from by
    simp [wfGo]]
  rw [show (((acc ++ (' ' :: (k ++ ['=']))) ++ ['"']) ++ v) ++ ['"'] =
      acc ++ serAttr (k, v) from by simp [serAttr, hv, escapeAttr_id hv, List.append_assoc]]

/-- Tag-buffer consumption of a serialized attribute list. -/
theorem wfGo_tag_attrs {stack : List LC} {root : Bool} :
    ∀ {a : List (LC × LC)} (acc z : LC),
      a.all (fun p => cleanName p.1 && p.2.all cleanValChar) = true →
      wfGo stack root (.tag acc none) (serAttrs a ++ z) =
        wfGo stack root (.tag (acc ++ serAttrs a) none) z := by
  intro a
  induction a with
  | nil => intro acc z _; simp [serAttrs]
  | cons p rest ih =>
      intro acc z h
      simp only [List.all_cons, Bool.and_eq_true] at h
      rw [show serAttrs (p :: rest) ++ z = serAttr (p.1, p.2) ++ (serAttrs rest ++ z) from by
        simp [serAttrs, List.append_assoc]]
      rw [wfGo_tag_attr acc _ h.1.1 h.1.2, ih _ z h.2]
      rw [show (acc ++ serAttr (p.1, p.2)) ++ serAttrs rest = acc ++ serAttrs (p :: rest) from by
        simp [serAttrs, List.append_assoc]]

/-- A clean name is a well-formed strict name. -/
theorem wfName_of_cleanName {n : LC} (h : cleanName n = true) : wfName n = true := by
  obtain ⟨hall, _, c0, m, hn0, hc0⟩ := cleanName_props h
  simp only [wfName, hn0, Bool.and_eq_true]
  constructor
  · exact (lowerAlpha_props hc0).1
  · rw [← hn0, List.all_eq_true]
    intro x hx
    exact (cleanNameChar_props (List.all_eq_true.mp hall _ hx)).1

/-- `takeWhile` stops exactly at the end of a name. -/
theorem takeWhile_name {n : LC} (hall : n.all cleanNameChar = true) :
    ∀ {ys : LC}, (ys = [] ∨ ∃ y t, ys = y :: t ∧ isNameChar y = false) →
      (n ++ ys).takeWhile isNameChar = n := by
  induction n with
  | nil =>
      intro ys hys
      rcases hys with rfl | ⟨y, t, rfl, hy⟩
      · rfl
      · simp [List.takeWhile_cons, hy]
  | cons c cs ih =>
      intro ys hys
      simp only [List.all_cons, Bool.and_eq_true] at hall
      rw [List.cons_append]
      simp [List.takeWhile_cons, (cleanNameChar_props hall.1).1, ih hall.2 hys]

/-- The open-tag `>` handler pushes the (well-formed, attribute-checked)
name. -/
theorem wfGo_gt_open_push {stack : List LC} {root : Bool} {c0 : Char} {m rest : LC}
    (h1 : c0 ≠ '!') (h2 : c0 ≠ '/')
    (hwf : wfName ((c0 :: m).takeWhile isNameChar) = true)
    (hguard : (root && stack.isEmpty) = false)
    (hA : wfAGo [] .ws ((c0 :: m).drop ((c0 :: m).takeWhile isNameChar).length) =
      some false) :
    wfGo stack root (.tag (c0 :: m) none) ('>' :: rest) =
      wfGo (((c0 :: m).takeWhile isNameChar) :: stack) root .txt rest := by
  rw [wfGo]
  · rw [if_neg (by decide), if_neg (by decide)]
    simp only [hwf, hguard, hA, Bool.true_and, Bool.not_false, Bool.and_true, if_true,
      reduceIte]
  · intro tail heq
    injection heq with heq1 _
    exact h1 heq1
  · intro nrest heq
    injection heq with heq1 _
    exact h2 heq1

/-- The open-tag `>` handler on a self-closing tag. -/
theorem wfGo_gt_open_self {stack : List LC} {root : Bool} {c0 : Char} {m rest : LC}
    (h1 : c0 ≠ '!') (h2 : c0 ≠ '/')
    (hwf : wfName ((c0 :: m).takeWhile isNameChar) = true)
    (hguard : (root && stack.isEmpty) = false)
    (hA : wfAGo [] .ws ((c0 :: m).drop ((c0 :: m).takeWhile isNameChar).length) =
      some true) :
    wfGo stack root (.tag (c0 :: m) none) ('>' :: rest) =
      wfGo stack (root || stack.isEmpty) .txt rest := by
  rw [wfGo]
  · rw [if_neg (by decide), if_neg (by decide)]
    simp only [hwf, hguard, hA, Bool.true_and, Bool.not_false, Bool.and_true, if_true,
      reduceIte]
  · intro tail heq
    injection heq with heq1 _
    exact h1 heq1
  · intro nrest heq
    injection heq with heq1 _
    exact h2 heq1

/-- The close-tag `>` handler pops the matching open tag. -/
theorem wfGo_gt_close {stack2 : List LC} {root : Bool} {n rest : LC}
    (hwf : wfName n = true) :
    wfGo (n :: stack2) root (.tag ('/' :: n) none) ('>' :: rest) =
      wfGo stack2 (root || stack2.isEmpty) .txt rest := by
  rw [wfGo]
  rw [if_neg (by decide), if_neg (by decide)]
  simp [hwf]

/-- The doctype `>` handler returns to text mode. -/
theorem wfGo_gt_doctype {stack : List LC} {root : Bool} {m rest : LC} :
    wfGo stack root (.tag ('!' :: m) none) ('>' :: rest) =
      wfGo stack root .txt rest := by
  simp [wfGo]

/-- Text-mode `<` enters tag mode. -/
theorem wfGo_lt {stack : List LC} {root : Bool} {z : LC} :
    wfGo stack root .txt ('<' :: z) = wfGo stack root (.tag [] none) z := by
  simp [wfGo]

/-- Tag-mode `"` opens a quoted region. -/
theorem wfGo_quote_open {stack : List LC} {root : Bool} {acc z : LC} :
    wfGo stack root (.tag acc none) ('"' :: z) =
      wfGo stack root (.tag (acc ++ ['"']) (some '"')) z := by
  simp [wfGo]

/-- Tag-mode `"` closes a quoted region. -/
theorem wfGo_quote_close {stack : List LC} {root : Bool} {acc z : LC} :
    wfGo stack root (.tag acc (some '"')) ('"' :: z) =
      wfGo stack root (.tag (acc ++ ['"']) none) z := by
  simp [wfGo]

/-- The attribute checker accepts the self-closing tail. -/
theorem wfAGo_ws_sc {seen : List LC} : wfAGo seen .ws [' ', '/'] = some true := by
  simp [wfAGo]

/-- A clean name avoids quotes and `>`. -/
theorem cleanName_tagacc_pred {n : LC} (hall : n.all cleanNameChar = true) :
    n.all (fun c => !(c = '"' || c = '\'' || c = '>')) = true := by
  rw [List.all_eq_true]
  intro x hx
  obtain ⟨_, _, _, _, _, _, hgt, _, hq, hq2, _⟩ :=
    cleanNameChar_props (List.all_eq_true.mp hall _ hx)
  simp [hq, hq2, hgt]

/-- The strict checker consumes a rendered open tag and pushes its name. -/
theorem wfGo_open_seg {stack : List LC} {root : Bool} {n : LC} {a : List (LC × LC)}
    (hn : cleanName n = true)
    (ha : a.all (fun p => cleanName p.1 && p.2.all cleanValChar) = true)
    (hnodup : nodupKeys a = true)
    (hguard : (root && stack.isEmpty) = false) (rest : LC) :
    wfGo stack root .txt (renderSeg true (.sOpen n a false) ++ rest) =
      wfGo (n :: stack) root .txt rest := by
  obtain ⟨hall, _, c0, m, hn0, hc0⟩ := cleanName_props hn
  have hys : serAttrs a = [] ∨ ∃ y tl, serAttrs a = y :: tl ∧ isNameChar y = false := by
    cases a with
    | nil => exact Or.inl rfl
    | cons p r => exact Or.inr ⟨' ', _, rfl, by decide⟩
  have htw : (n ++ serAttrs a).takeWhile isNameChar = n := takeWhile_name hall hys
  rw [show renderSeg true (.sOpen n a false) ++ rest =
      '<' :: (n ++ (serAttrs a ++ ('>' :: rest))) from by simp [renderSeg, List.append_assoc]]
  rw [wfGo_lt]
  rw [wfGo_tagacc [] _ (cleanName_tagacc_pred hall)]
  rw [List.nil_append]
  rw [wfGo_tag_attrs n _ ha]
  rw [show (n ++ serAttrs a : LC) = c0 :: (m ++ serAttrs a) from by rw [hn0]; rfl]
  have htw2 : (c0 :: (m ++ serAttrs a)).takeWhile isNameChar = n := by
    rw [show c0 :: (m ++ serAttrs a) = n ++ serAttrs a from by rw [hn0]; rfl]
    exact htw
  have hA : wfAGo [] .ws ((c0 :: (m ++ serAttrs a)).drop
      ((c0 :: (m ++ serAttrs a)).takeWhile isNameChar).length) = some false := by
    rw [htw2]
    rw [show c0 :: (m ++ serAttrs a) = n ++ serAttrs a from by rw [hn0]; rfl]
    rw [List.drop_left]
    obtain ⟨seen2, hseen⟩ := wfAGo_attrs [] [] ha hnodup (fun p hp => rfl)
    rw [List.append_nil] at hseen
    rw [hseen]
    rfl
  rw [wfGo_gt_open_push (lowerAlpha_props hc0).2.2.1 (lowerAlpha_props hc0).2.2.2.2
    (by rw [htw2]; exact wfName_of_cleanName hn) hguard hA]
  rw [htw2]

/-- The strict checker consumes a rendered self-closing tag. -/
theorem wfGo_open_self_seg {stack : List LC} {root : Bool} {n : LC} {a : List (LC × LC)}
    (hn : cleanName n = true)
    (ha : a.all (fun p => cleanName p.1 && p.2.all cleanValChar) = true)
    (hnodup : nodupKeys a = true)
    (hguard : (root && stack.isEmpty) = false) (rest : LC) :
    wfGo stack root .txt (renderSeg true (.sOpen n a true) ++ rest) =
      wfGo stack (root || stack.isEmpty) .txt rest := by
  obtain ⟨hall, _, c0, m, hn0, hc0⟩ := cleanName_props hn
  have hys : serAttrs a ++ [' ', '/'] = [] ∨
      ∃ y tl, serAttrs a ++ [' ', '/'] = y :: tl ∧ isNameChar y = false := by
    cases a with
    | nil => exact Or.inr ⟨' ', _, rfl, by decide⟩
    | cons p r => exact Or.inr ⟨' ', _, rfl, by decide⟩
  have htw : (n ++ (serAttrs a ++ [' ', '/'])).takeWhile isNameChar = n :=
    takeWhile_name hall hys
  rw [show renderSeg true (.sOpen n a true) ++ rest =
      '<' :: (n ++ (serAttrs a ++ ([' ', '/'] ++ ('>' :: rest)))) from by
    simp [renderSeg, List.append_assoc]]
  rw [wfGo_lt]
  rw [wfGo_tagacc [] _ (cleanName_tagacc_pred hall)]
  rw [List.nil_append]
  rw [wfGo_tag_attrs n _ ha]
  rw [wfGo_tagacc _ _ (by decide)]
  rw [show ((n ++ serAttrs a) ++ [' ', '/'] : LC) = c0 :: ((m ++ serAttrs a) ++ [' ', '/'])
    from by rw [hn0]; rfl]
  have htw2 : (c0 :: ((m ++ serAttrs a) ++ [' ', '/'])).takeWhile isNameChar = n := by
    rw [show c0 :: ((m ++ serAttrs a) ++ [' ', '/']) = (n ++ serAttrs a) ++ [' ', '/'] from by
      rw [hn0]; rfl]
    rw [List.append_assoc]
    exact htw
  have hA : wfAGo [] .ws ((c0 :: ((m ++ serAttrs a) ++ [' ', '/'])).drop
      ((c0 :: ((m ++ serAttrs a) ++ [' ', '/'])).takeWhile isNameChar).length) = some true := by
    rw [htw2]
    rw [show c0 :: ((m ++ serAttrs a) ++ [' ', '/']) = n ++ (serAttrs a ++ [' ', '/']) from by
      rw [hn0]; simp [List.append_assoc]]
    rw [List.drop_left]
    obtain ⟨seen2, hseen⟩ := wfAGo_attrs [] [' ', '/'] ha hnodup (fun p hp => rfl)
    rw [hseen]
    exact wfAGo_ws_sc
  rw [wfGo_gt_open_self (lowerAlpha_props hc0).2.2.1 (lowerAlpha_props hc0).2.2.2.2
    (by rw [htw2]; exact wfName_of_cleanName hn) hguard hA]

/-- The strict checker consumes a rendered close tag, popping its name. -/
theorem wfGo_close_seg {stack : List LC} {root : Bool} {n : LC}
    (hn : cleanName n = true) (rest : LC) :
    wfGo (n :: stack) root .txt (renderSeg true (.sClose n) ++ rest) =
      wfGo stack (root || stack.isEmpty) .txt rest := by
  obtain ⟨hall, _, c0, m, hn0, hc0⟩ := cleanName_props hn
  rw [show renderSeg true (.sClose n) ++ rest =
      '<' :: (('/' :: n) ++ ('>' :: rest)) from by simp [renderSeg, List.append_assoc]]
  rw [wfGo_lt]
  rw [wfGo_tagacc [] _ (by
    simp only [List.all_cons, Bool.and_eq_true]
    exact ⟨by decide, cleanName_tagacc_pred hall⟩)]
  rw [List.nil_append]
  exact wfGo_gt_close (wfName_of_cleanName hn)

/-- The strict checker consumes the doctype and returns to text mode. -/
theorem wfGo_doctype_seg {stack : List LC} {root : Bool} (rest : LC) :
    wfGo stack root .txt (doctypeStr ++ rest) = wfGo stack root .txt rest := by
  have hd1 : doctypeStr =
      '<' :: ("!DOCTYPE html PUBLIC ".data ++
        ('"' :: ("-//W3C//DTD XHTML 1.1//EN".data ++
        ('"' :: (" ".data ++
        ('"' :: ("http://www.w3.org/TR/xhtml11/DTD/xhtml11.dtd".data ++
        ('"' :: ['>'])))))))) := by decide
  rw [show doctypeStr ++ rest =
      '<' :: ("!DOCTYPE html PUBLIC ".data ++
        ('"' :: ("-//W3C//DTD XHTML 1.1//EN".data ++
        ('"' :: (" ".data ++
        ('"' :: ("http://www.w3.org/TR/xhtml11/DTD/xhtml11.dtd".data ++
        ('"' :: ('>' :: rest))))))))) from by rw [hd1]; simp [List.append_assoc]]
  rw [wfGo_lt]
  rw [wfGo_tagacc [] _ (by decide)]
  rw [wfGo_quote_open]
  rw [wfGo_valacc _ _ (by decide)]
  rw [wfGo_quote_close]
  rw [wfGo_tagacc _ _ (by decide)]
  rw [wfGo_quote_open]
  rw [wfGo_valacc _ _ (by decide)]
  rw [wfGo_quote_close]
  exact wfGo_gt_doctype

mutual

/-- The strict checker passes the rendered segments of a clean node when
inside an open element. -/
theorem wfGo_node (fmt : Bool) (d : Nat) :
    ∀ t : Node, cleanN t = true → ∀ (stack : List LC) (root : Bool) (rest : LC),
      stack.isEmpty = false →
      wfGo stack root .txt (renderSegs true (segsOfN fmt d t) ++ rest) =
        wfGo stack root .txt rest
  | .text s, h => by
      intro stack root rest hst
      simp only [cleanN, Bool.and_eq_true] at h
      rw [show renderSegs true (segsOfN fmt d (.text s)) ++ rest =
          escapeText s ++ rest from by simp [segsOfN, renderSegs, renderSeg]]
      rw [escapeText_id h.2]
      exact wfGo_text_pass rest h.2 hst
  | .elem t a .nil, h => by
      intro stack root rest hst
      simp only [cleanN, Bool.and_eq_true] at h
      obtain ⟨⟨⟨⟨hname, hattrs⟩, _⟩, _⟩, _⟩ := h
      simp only [cleanAttrsOf, Bool.and_eq_true] at hattrs
      rw [show renderSegs true (segsOfN fmt d (.elem t a .nil)) ++ rest =
          renderSeg true (.sOpen t a true) ++ rest from by simp [segsOfN, renderSegs]]
      rw [wfGo_open_self_seg hname hattrs.1.1 hattrs.1.2 (by simp [hst]) rest]
      rw [hst]
      simp
  | .elem t a (.cons c cs), h => by
      intro stack root rest hst
      simp only [cleanN, Bool.and_eq_true] at h
      obtain ⟨⟨⟨⟨hname, hattrs⟩, _⟩, _⟩, hkids⟩ := h
      simp only [cleanAttrsOf, Bool.and_eq_true] at hattrs
      simp only [segsOfN]
      by_cases hf : (fmt && !(NodeList.cons c cs).hasText) = true
      · simp only [hf, if_true, reduceIte]
        rw [show renderSegs true (.sOpen t a false ::
            ((segsFmt (d + 1) (.cons c cs) ++ [.sBlank ('\n' :: indentL d)]) ++ [.sClose t]))
            ++ rest =
          renderSeg true (.sOpen t a false) ++
            (renderSegs true (segsFmt (d + 1) (.cons c cs)) ++
              (('\n' :: indentL d) ++ (renderSeg true (.sClose t) ++ rest))) from by
          simp [renderSegs, renderSegs_append, renderSeg, List.append_assoc]]
        rw [wfGo_open_seg hname hattrs.1.1 hattrs.1.2 (by simp [hst]) _]
        rw [wfGo_kidsFmt (d + 1) (.cons c cs) hkids (t :: stack) root _ rfl]
        rw [wfGo_blank_pass _ (isBlankL_indent d)]
        rw [wfGo_close_seg hname rest]
        rw [hst]
        simp
      · simp only [hf, Bool.false_eq_true, if_false, reduceIte]
        rw [show renderSegs true (.sOpen t a false ::
            (segsOfL (.cons c cs) ++ [.sClose t])) ++ rest =
          renderSeg true (.sOpen t a false) ++
            (renderSegs true (segsOfL (.cons c cs)) ++
              (renderSeg true (.sClose t) ++ rest)) from by
          simp [renderSegs, renderSegs_append, renderSeg, List.append_assoc]]
        rw [wfGo_open_seg hname hattrs.1.1 hattrs.1.2 (by simp [hst]) _]
        rw [wfGo_kids (.cons c cs) hkids (t :: stack) root _ rfl]
        rw [wfGo_close_seg hname rest]
        rw [hst]
        simp

/-- `wfGo_node` on inline children. -/
theorem wfGo_kids :
    ∀ kids : NodeList, cleanL kids = true →
      ∀ (stack : List LC) (root : Bool) (rest : LC), stack.isEmpty = false →
        wfGo stack root .txt (renderSegs true (segsOfL kids) ++ rest) =
          wfGo stack root .txt rest
  | .nil, _ => by intro stack root rest hst; simp [segsOfL, renderSegs]
  | .cons k ks, h => by
      intro stack root rest hst
      simp only [cleanL, Bool.and_eq_true] at h
      rw [show renderSegs true (segsOfL (.cons k ks)) ++ rest =
          renderSegs true (segsOfN false 0 k) ++ (renderSegs true (segsOfL ks) ++ rest)
          from by simp [segsOfL, renderSegs_append, List.append_assoc]]
      rw [wfGo_node false 0 k h.1 stack root _ hst]
      exact wfGo_kids ks h.2 stack root rest hst

/-- `wfGo_node` on formatted children. -/
theorem wfGo_kidsFmt (d : Nat) :
    ∀ kids : NodeList, cleanL kids = true →
      ∀ (stack : List LC) (root : Bool) (rest : LC), stack.isEmpty = false →
        wfGo stack root .txt (renderSegs true (segsFmt d kids) ++ rest) =
          wfGo stack root .txt rest
  | .nil, _ => by intro stack root rest hst; simp [segsFmt, renderSegs]
  | .cons k ks, h => by
      intro stack root rest hst
      simp only [cleanL, Bool.and_eq_true] at h
      rw [show renderSegs true (segsFmt d (.cons k ks)) ++ rest =
          ('\n' :: indentL d) ++
            (renderSegs true (segsOfN true d k) ++ (renderSegs true (segsFmt d ks) ++ rest))
          from by simp [segsFmt, renderSegs, renderSeg, renderSegs_append, List.append_assoc]]
      rw [wfGo_blank_pass _ (isBlankL_indent d)]
      rw [wfGo_node true d k h.1 stack root _ hst]
      exact wfGo_kidsFmt d ks h.2 stack root rest hst

end

/-- The rendered form of a clean document is well-formed strict markup. -/
theorem wfDoc_render {t : Node} (h : cleanDoc t = true) :
    wfDoc (renderSegs true (segsDoc t)) = true := by
  cases t with
  | text s => simp [cleanDoc] at h
  | elem t a kids =>
      simp only [cleanDoc, Bool.and_eq_true] at h
      obtain ⟨⟨hhtml, hcn⟩, _⟩ := h
      simp only [cleanN, Bool.and_eq_true] at hcn
      obtain ⟨⟨⟨⟨hname, hattrs⟩, _⟩, _⟩, hkids⟩ := hcn
      simp only [cleanAttrsOf, Bool.and_eq_true] at hattrs
      rw [show wfDoc (renderSegs true (segsDoc (.elem t a kids))) =
          wfGo [] false .txt (doctypeStr ++ (['\n'] ++
            (renderSegs true (segsOfN true 0 (.elem t a kids)) ++ ['\n']))) from by
        simp [wfDoc, segsDoc, renderSegs, renderSegs_append, renderSeg, List.append_assoc]]
      rw [wfGo_doctype_seg]
      rw [wfGo_blank_pass _ (by decide)]
      cases kids with
      | nil =>
          rw [show renderSegs true (segsOfN true 0 (.elem t a .nil)) ++ ['\n'] =
              renderSeg true (.sOpen t a true) ++ ['\n'] from by simp [segsOfN, renderSegs]]
          rw [wfGo_open_self_seg hname hattrs.1.1 hattrs.1.2 (by simp) _]
          rfl
      | cons c cs =>
          simp only [segsOfN]
          by_cases hf : (true && !(NodeList.cons c cs).hasText) = true
          · simp only [hf, if_true, reduceIte]
            rw [show renderSegs true (.sOpen t a false ::
                ((segsFmt 1 (.cons c cs) ++ [.sBlank ('\n' :: indentL 0)]) ++ [.sClose t]))
                ++ ['\n'] =
              renderSeg true (.sOpen t a false) ++
                (renderSegs true (segsFmt 1 (.cons c cs)) ++
                  (('\n' :: indentL 0) ++ (renderSeg true (.sClose t) ++ ['\n']))) from by
              simp [renderSegs, renderSegs_append, renderSeg, List.append_assoc]]
            rw [wfGo_open_seg hname hattrs.1.1 hattrs.1.2 (by simp) _]
            rw [wfGo_kidsFmt 1 (.cons c cs) hkids [t] false _ rfl]
            rw [wfGo_blank_pass _ (isBlankL_indent 0)]
            rw [wfGo_close_seg hname ['\n']]
            rfl
          · simp only [hf, Bool.false_eq_true, if_false, reduceIte]
            rw [show renderSegs true (.sOpen t a false ::
                (segsOfL (.cons c cs) ++ [.sClose t])) ++ ['\n'] =
              renderSeg true (.sOpen t a false) ++
                (renderSegs true (segsOfL (.cons c cs)) ++
                  (renderSeg true (.sClose t) ++ ['\n'])) from by
              simp [renderSegs, renderSegs_append, renderSeg, List.append_assoc]]
            rw [wfGo_open_seg hname hattrs.1.1 hattrs.1.2 (by simp) _]
            rw [wfGo_kids (.cons c cs) hkids [t] false _ rfl]
            rw [wfGo_close_seg hname ['\n']]
            rfl

mutual

/-- Rewriting a tag removes every element named by it. -/
theorem noTagN_rewrite_self (tag : LC) (hdiv : tag ≠ "div".data) :
    ∀ t : Node, noTagN tag (rewriteTagN tag t) = true
  | .text s => rfl
  | .elem t a kids => by
      rw [rewriteTagN]
      by_cases ht : t = tag
      · rw [if_pos ht]
        simp only [noTagN, Bool.and_eq_true]
        refine ⟨?_, noTagL_rewrite_self tag hdiv kids⟩
        simp only [Bool.not_eq_true', beq_eq_false_iff_ne, ne_eq]
        exact fun hh => hdiv hh.symm
      · rw [if_neg ht]
        simp only [noTagN, Bool.and_eq_true]
        exact ⟨by simp [ht], noTagL_rewrite_self tag hdiv kids⟩

/-- `noTagN_rewrite_self` on a sibling list. -/
theorem noTagL_rewrite_self (tag : LC) (hdiv : tag ≠ "div".data) :
    ∀ kids : NodeList, noTagL tag (rewriteTagL tag kids) = true
  | .nil => rfl
  | .cons n ns => by
      rw [show rewriteTagL tag (.cons n ns) =
          NodeList.cons (rewriteTagN tag n) (rewriteTagL tag ns) from rfl]
      simp only [noTagL, Bool.and_eq_true]
      exact ⟨noTagN_rewrite_self tag hdiv n, noTagL_rewrite_self tag hdiv ns⟩

end

mutual

/-- Rewriting one tag introduces only `div` elements, preserving
absence of any other name. -/
theorem noTagN_rewrite_pres (g tag : LC) (hdiv : g ≠ "div".data) :
    ∀ t : Node, noTagN g t = true → noTagN g (rewriteTagN tag t) = true
  | .text s, _ => rfl
  | .elem t a kids, h => by
      simp only [noTagN, Bool.and_eq_true] at h
      rw [rewriteTagN]
      by_cases ht : t = tag
      · rw [if_pos ht]
        simp only [noTagN, Bool.and_eq_true]
        refine ⟨?_, noTagL_rewrite_pres g tag hdiv kids h.2⟩
        simp only [Bool.not_eq_true', beq_eq_false_iff_ne, ne_eq]
        exact fun hh => hdiv hh.symm
      · rw [if_neg ht]
        simp only [noTagN, Bool.and_eq_true]
        exact ⟨h.1, noTagL_rewrite_pres g tag hdiv kids h.2⟩

/-- `noTagN_rewrite_pres` on a sibling list. -/
theorem noTagL_rewrite_pres (g tag : LC) (hdiv : g ≠ "div".data) :
    ∀ kids : NodeList, noTagL g kids = true → noTagL g (rewriteTagL tag kids) = true
  | .nil, _ => rfl
  | .cons n ns, h => by
      simp only [noTagL, Bool.and_eq_true] at h
      rw [show rewriteTagL tag (.cons n ns) =
          NodeList.cons (rewriteTagN tag n) (rewriteTagL tag ns) from rfl]
      simp only [noTagL, Bool.and_eq_true]
      exact ⟨noTagN_rewrite_pres g tag hdiv n h.1, noTagL_rewrite_pres g tag hdiv ns h.2⟩

end

/-- Absence of a name is preserved through the whole rewrite loop. -/
theorem noTag_fold_pres (g : LC) (hdiv : g ≠ "div".data) :
    ∀ (T : List LC) (u : Node), noTagN g u = true →
      noTagN g (T.foldl (fun v tag => rewriteTagN tag v) u) = true := by
  intro T
  induction T with
  | nil => intro u h; exact h
  | cons t ts ih => intro u h; exact ih _ (noTagN_rewrite_pres g t hdiv u h)

/-- After folding the rewrite over a tag list, none of those tags
remain. -/
theorem noTag_foldl (T : List LC) (hT : ∀ x ∈ T, x ≠ "div".data) :
    ∀ u : Node, ∀ g ∈ T,
      noTagN g (T.foldl (fun v tag => rewriteTagN tag v) u) = true := by
  induction T with
  | nil => intro u g hg; cases hg
  | cons t ts ih =>
      intro u g hg
      rw [List.foldl_cons]
      rcases List.mem_cons.mp hg with rfl | hg2
      · exact noTag_fold_pres g (hT g hg) ts _ (noTagN_rewrite_self g (hT g hg) u)
      · exact ih (fun x hx => hT x (by simp [hx])) _ g hg2

mutual

/-- A tree without any deprecated-tag name is deprecated-free. -/
theorem noHtml5N_of_noTags :
    ∀ t : Node, (∀ g ∈ html5Tags, noTagN g t = true) → noHtml5N t = true
  | .text _, _ => rfl
  | .elem t a kids, h => by
      simp only [noHtml5N, Bool.and_eq_true]
      constructor
      · have hnot : ∀ g ∈ html5Tags, ¬ g = t := by
          intro g hg hgt
          have h2 := h g hg
          simp only [noTagN, Bool.and_eq_true, Bool.not_eq_true', beq_eq_false_iff_ne,
            ne_eq] at h2
          exact h2.1 hgt.symm
        simp only [Bool.not_eq_true', List.any_eq_false]
        exact fun g hg hd => hnot g hg (of_decide_eq_true hd)
      · exact noHtml5L_of_noTags kids (fun g hg => by
          have := h g hg
          simp only [noTagN, Bool.and_eq_true] at this
          exact this.2)

/-- `noHtml5N_of_noTags` on a sibling list. -/
theorem noHtml5L_of_noTags :
    ∀ kids : NodeList, (∀ g ∈ html5Tags, noTagL g kids = true) → noHtml5L kids = true
  | .nil, _ => rfl
  | .cons n ns, h => by
      simp only [noHtml5L, Bool.and_eq_true]
      constructor
      · exact noHtml5N_of_noTags n (fun g hg => by
          have := h g hg
          simp only [noTagL, Bool.and_eq_true] at this
          exact this.1)
      · exact noHtml5L_of_noTags ns (fun g hg => by
          have := h g hg
          simp only [noTagL, Bool.and_eq_true] at this
          exact this.2)

end

/-- The rewrite loop leaves no deprecated tag in any tree. -/
theorem noHtml5_rewriteDoc (t : Node) : noHtml5N (rewriteDoc t) = true :=
  noHtml5N_of_noTags _ (noTag_foldl html5Tags
    (by intro x hx; fin_cases hx <;> decide) t)

mutual

/-- Rewriting a tag absent from the tree is the identity. -/
theorem rewriteTagN_id (tag : LC) :
    ∀ t : Node, noTagN tag t = true → rewriteTagN tag t = t
  | .text s, _ => rfl
  | .elem t a kids, h => by
      simp only [noTagN, Bool.and_eq_true, Bool.not_eq_true', beq_eq_false_iff_ne,
        ne_eq] at h
      rw [rewriteTagN, if_neg h.1, rewriteTagL_id tag kids h.2]

/-- `rewriteTagN_id` on a sibling list. -/
theorem rewriteTagL_id (tag : LC) :
    ∀ kids : NodeList, noTagL tag kids = true → rewriteTagL tag kids = kids
  | .nil, _ => rfl
  | .cons n ns, h => by
      simp only [noTagL, Bool.and_eq_true] at h
      rw [show rewriteTagL tag (.cons n ns) =
          NodeList.cons (rewriteTagN tag n) (rewriteTagL tag ns) from rfl]
      rw [rewriteTagN_id tag n h.1, rewriteTagL_id tag ns h.2]

end

mutual

/-- A deprecated-free tree has no element named by any deprecated tag. -/
theorem noTagN_of_noHtml5 :
    ∀ t : Node, noHtml5N t = true → ∀ g ∈ html5Tags, noTagN g t = true
  | .text _, _ => fun g _ => rfl
  | .elem t a kids, h => by
      intro g hg
      simp only [noHtml5N, Bool.and_eq_true] at h
      simp only [noTagN, Bool.and_eq_true]
      constructor
      · have h1 := h.1
        simp only [Bool.not_eq_true', List.any_eq_false] at h1
        simp only [Bool.not_eq_true', beq_eq_false_iff_ne, ne_eq]
        intro hgt
        exact h1 g hg (decide_eq_true hgt.symm)
      · exact noTagL_of_noHtml5 kids h.2 g hg

/-- `noTagN_of_noHtml5` on a sibling list. -/
theorem noTagL_of_noHtml5 :
    ∀ kids : NodeList, noHtml5L kids = true → ∀ g ∈ html5Tags, noTagL g kids = true
  | .nil, _ => fun g _ => rfl
  | .cons n ns, h => by
      intro g hg
      simp only [noHtml5L, Bool.and_eq_true] at h
      simp only [noTagL, Bool.and_eq_true]
      exact ⟨noTagN_of_noHtml5 n h.1 g hg, noTagL_of_noHtml5 ns h.2 g hg⟩

end

/-- The rewrite loop is the identity on deprecated-free trees. -/
theorem rewriteDoc_id {u : Node} (h : noHtml5N u = true) : rewriteDoc u = u := by
  have hall := noTagN_of_noHtml5 u h
  have haux : ∀ (T : List LC), (∀ g ∈ T, noTagN g u = true) →
      T.foldl (fun v tag => rewriteTagN tag v) u = u := by
    intro T
    induction T with
    | nil => intro _; rfl
    | cons t ts ih =>
        intro hT
        rw [List.foldl_cons, rewriteTagN_id t u (hT t (by simp))]
        exact ih (fun g hg => hT g (by simp [hg]))
  exact haux html5Tags (fun g hg => hall g hg)

/-- Tag rewriting preserves the no-adjacent-text invariant. -/
theorem noAdjText_rewriteTagL (tag : LC) :
    ∀ kids : NodeList, noAdjText (rewriteTagL tag kids) = noAdjText kids
  | .nil => rfl
  | .cons n .nil => by
      rw [show rewriteTagL tag (.cons n .nil) =
          NodeList.cons (rewriteTagN tag n) (rewriteTagL tag .nil) from rfl]
      rfl
  | .cons n (.cons m ns) => by
      rw [show rewriteTagL tag (.cons n (.cons m ns)) =
          NodeList.cons (rewriteTagN tag n)
            (NodeList.cons (rewriteTagN tag m) (rewriteTagL tag ns)) from rfl]
      rw [show noAdjText (NodeList.cons (rewriteTagN tag n)
            (NodeList.cons (rewriteTagN tag m) (rewriteTagL tag ns))) =
          (!(isTextNode (rewriteTagN tag n) && isTextNode (rewriteTagN tag m)) &&
            noAdjText (NodeList.cons (rewriteTagN tag m) (rewriteTagL tag ns))) from rfl]
      rw [show (NodeList.cons (rewriteTagN tag m) (rewriteTagL tag ns)) =
          rewriteTagL tag (.cons m ns) from rfl]
      rw [noAdjText_rewriteTagL tag (.cons m ns)]
      rw [isTextNode_rewriteTagN, isTextNode_rewriteTagN]
      rfl

/-- Tag rewriting preserves emptiness of a sibling list. -/
theorem rewriteTagL_eq_nil (tag : LC) (kids : NodeList) :
    (rewriteTagL tag kids == NodeList.nil) = (kids == NodeList.nil) := by
  cases kids with
  | nil => rfl
  | cons n ns =>
      rw [show rewriteTagL tag (.cons n ns) =
          NodeList.cons (rewriteTagN tag n) (rewriteTagL tag ns) from rfl]
      simp

mutual

/-- Rewriting one deprecated tag preserves cleanliness of a node. -/
theorem cleanN_rw (tag : LC) (htag5 : tag ∈ html5Tags) :
    ∀ t : Node, cleanN t = true → cleanN (rewriteTagN tag t) = true
  | .text s, h => h
  | .elem t a kids, h => by
      simp only [cleanN, Bool.and_eq_true] at h
      obtain ⟨⟨⟨⟨hname, hattrs⟩, hvoid⟩, hadj⟩, hkids⟩ := h
      have hvt : tag.all cleanValChar = true := by fin_cases htag5 <;> decide
      rw [rewriteTagN]
      by_cases ht : t = tag
      · rw [if_pos ht]
        simp only [cleanN, Bool.and_eq_true]
        refine ⟨⟨⟨⟨by decide, ?_⟩, ?_⟩, ?_⟩, cleanL_rw tag htag5 kids hkids⟩
        · simp only [cleanAttrsOf, Bool.and_eq_true] at hattrs ⊢
          have hclass : (a.any fun p => decide (p.1 = "class".data)) = false := by
            have h2 := hattrs.2
            rw [ht] at h2
            have hmem : (html5Tags.any fun g => decide (g = tag)) = true := by
              rw [List.any_eq_true]
              exact ⟨tag, htag5, by simp⟩
            simpa [hmem] using h2
          refine ⟨⟨?_, ?_⟩, ?_⟩
          · simp only [List.all_cons, Bool.and_eq_true]
            exact ⟨by simp [hvt]; decide, hattrs.1.1⟩
          · simp only [nodupKeys, Bool.and_eq_true]
            exact ⟨by simp [hclass], hattrs.1.2⟩
          · have : (html5Tags.any fun g => decide (g = "div".data)) = false := by decide
            simp [this]
        · have : (voidTags.any fun g => decide (g = "div".data)) = false := by decide
          simp [this]
        · rw [noAdjText_rewriteTagL]
          exact hadj
      · rw [if_neg ht]
        simp only [cleanN, Bool.and_eq_true]
        refine ⟨⟨⟨⟨hname, hattrs⟩, ?_⟩, ?_⟩, cleanL_rw tag htag5 kids hkids⟩
        · rw [rewriteTagL_eq_nil]
          exact hvoid
        · rw [noAdjText_rewriteTagL]
          exact hadj

/-- `cleanN_rw` on a sibling list. -/
theorem cleanL_rw (tag : LC) (htag5 : tag ∈ html5Tags) :
    ∀ kids : NodeList, cleanL kids = true → cleanL (rewriteTagL tag kids) = true
  | .nil, _ => rfl
  | .cons n ns, h => by
      simp only [cleanL, Bool.and_eq_true] at h
      rw [show rewriteTagL tag (.cons n ns) =
          NodeList.cons (rewriteTagN tag n) (rewriteTagL tag ns) from rfl]
      simp only [cleanL, Bool.and_eq_true]
      exact ⟨cleanN_rw tag htag5 n h.1, cleanL_rw tag htag5 ns h.2⟩

end

/-- Tag rewriting preserves the head/body shape of the root children. -/
theorem allHeadOrBody_rw (tag : LC) (htag5 : tag ∈ html5Tags) :
    ∀ kids : NodeList, kids.allHeadOrBody = true →
      (rewriteTagL tag kids).allHeadOrBody = true
  | .nil, _ => rfl
  | .cons n ns, h => by
      simp only [NodeList.allHeadOrBody, Bool.and_eq_true] at h
      rw [show rewriteTagL tag (.cons n ns) =
          NodeList.cons (rewriteTagN tag n) (rewriteTagL tag ns) from rfl]
      simp only [NodeList.allHeadOrBody, Bool.and_eq_true]
      refine ⟨?_, allHeadOrBody_rw tag htag5 ns h.2⟩
      cases n with
      | text s => simp [isHeadOrBody] at h
      | elem t a k =>
          have h1 := h.1
          simp only [isHeadOrBody, Bool.or_eq_true, decide_eq_true_eq] at h1
          have hne : t ≠ tag := by
            rcases h1 with h1 | h1 <;> rw [h1] <;> (fin_cases htag5 <;> decide)
          rw [rewriteTagN, if_neg hne]
          simp only [isHeadOrBody, Bool.or_eq_true, decide_eq_true_eq]
          exact h1

/-- One rewrite pass preserves document cleanliness. -/
theorem cleanDoc_rwTag (tag : LC) (htag5 : tag ∈ html5Tags) :
    ∀ t : Node, cleanDoc t = true → cleanDoc (rewriteTagN tag t) = true := by
  intro t h
  cases t with
  | text s => simp [cleanDoc] at h
  | elem t a kids =>
      simp only [cleanDoc, Bool.and_eq_true] at h
      obtain ⟨⟨hhtml, hcn⟩, hhb⟩ := h
      have ht : t = "html".data := by simpa using hhtml
      have hne : t ≠ tag := by rw [ht]; fin_cases htag5 <;> decide
      have hcn2 := cleanN_rw tag htag5 _ hcn
      rw [rewriteTagN, if_neg hne] at hcn2 ⊢
      simp only [cleanDoc, Bool.and_eq_true]
      exact ⟨⟨hhtml, hcn2⟩, allHeadOrBody_rw tag htag5 kids hhb⟩

/-- The whole rewrite loop preserves document cleanliness. -/
theorem cleanDoc_rewriteDoc {t : Node} (h : cleanDoc t = true) :
    cleanDoc (rewriteDoc t) = true := by
  have haux : ∀ (T : List LC), (∀ g ∈ T, g ∈ html5Tags) → ∀ u : Node,
      cleanDoc u = true →
      cleanDoc (T.foldl (fun v tag => rewriteTagN tag v) u) = true := by
    intro T
    induction T with
    | nil => intro _ u hu; exact hu
    | cons g gs ih =>
        intro hT u hu
        rw [List.foldl_cons]
        exact ih (fun x hx => hT x (by simp [hx])) _
          (cleanDoc_rwTag g (hT g (by simp)) u hu)
  exact haux html5Tags (fun g hg => hg) t h

/-- The lexer accumulates `<`-free characters. -/
theorem tokGo_text {b : LC} : ∀ (acc z : LC), '<' ∉ b →
    tokGo (.txt acc) (b ++ z) = tokGo (.txt (acc ++ b)) z := by
  induction b with
  | nil => intro acc z _; rw [List.nil_append, List.append_nil]
  | cons c cs ih =>
      intro acc z h
      simp only [List.mem_cons, not_or] at h
      rw [List.cons_append]
      rw [show tokGo (.txt acc) (c :: (cs ++ z)) =
        if c = '<' then
          (if acc.isEmpty then [] else [.chars (unescape acc)]) ++ tokGo (.tag [] none) (cs ++ z)
        else tokGo (.txt (acc ++ [c])) (cs ++ z) from by simp [tokGo]]
      rw [if_neg (fun hc => h.1 hc.symm)]
      rw [ih (acc ++ [c]) z h.2, List.append_assoc]
      rfl

/-- The lexer at `<`: flush character data, enter tag mode. -/
theorem tokGo_lt {acc z : LC} :
    tokGo (.txt acc) ('<' :: z) =
      (if acc.isEmpty then [] else [.chars (unescape acc)]) ++ tokGo (.tag [] none) z := by
  simp [tokGo]

/-- The lexer accumulates a quote-free, `>`-free tag body. -/
theorem tokGo_tagacc {b : LC} : ∀ (acc z : LC),
    b.all (fun c => !(c = '"' || c = '\'' || c = '>')) = true →
    tokGo (.tag acc none) (b ++ z) = tokGo (.tag (acc ++ b) none) z := by
  induction b with
  | nil => intro acc z _; rw [List.nil_append, List.append_nil]
  | cons c cs ih =>
      intro acc z h
      simp only [List.all_cons, Bool.and_eq_true, Bool.not_eq_true',
        Bool.or_eq_false_iff, decide_eq_false_iff_not] at h
      rw [List.cons_append]
      rw [show tokGo (.tag acc none) (c :: (cs ++ z)) =
        if c = '>' then (parseTagChunk acc).toList ++ tokGo (.txt []) (cs ++ z)
        else if c = '"' || c = '\'' then tokGo (.tag (acc ++ [c]) (some c)) (cs ++ z)
        else tokGo (.tag (acc ++ [c]) none) (cs ++ z) from by simp [tokGo]]
      rw [if_neg h.1.2, if_neg (by simp [h.1.1.1, h.1.1.2])]
      rw [ih (acc ++ [c]) z (by
        rw [List.all_eq_true]
        intro x hx
        have h2 := h.2
        rw [List.all_eq_true] at h2
        exact h2 x hx)]
      rw [List.append_assoc]
      rfl

/-- The lexer at a quote in tag mode. -/
theorem tokGo_quote_open {acc z : LC} :
    tokGo (.tag acc none) ('"' :: z) = tokGo (.tag (acc ++ ['"']) (some '"')) z := by
  simp [tokGo]

/-- The lexer at the closing quote of a quoted region. -/
theorem tokGo_quote_close {acc z : LC} :
    tokGo (.tag acc (some '"')) ('"' :: z) = tokGo (.tag (acc ++ ['"']) none) z := by
  simp [tokGo]

/-- The lexer accumulates inside a quoted region. -/
theorem tokGo_valacc {v : LC} : ∀ (acc z : LC), v.all (fun c => !(c = '"')) = true →
    tokGo (.tag acc (some '"')) (v ++ z) = tokGo (.tag (acc ++ v) (some '"')) z := by
  induction v with
  | nil => intro acc z _; rw [List.nil_append, List.append_nil]
  | cons c cs ih =>
      intro acc z h
      simp only [List.all_cons, Bool.and_eq_true, Bool.not_eq_true',
        decide_eq_false_iff_not] at h
      rw [List.cons_append]
      rw [show tokGo (.tag acc (some '"')) (c :: (cs ++ z)) =
        if c = '"' then tokGo (.tag (acc ++ [c]) none) (cs ++ z)
        else tokGo (.tag (acc ++ [c]) (some '"')) (cs ++ z) from by simp [tokGo]]
      rw [if_neg h.1]
      rw [ih (acc ++ [c]) z (by
        rw [List.all_eq_true]
        intro x hx
        have h2 := h.2
        rw [List.all_eq_true] at h2
        exact h2 x hx)]
      rw [List.append_assoc]
      rfl

/-- The lexer at `>`: emit the parsed tag and return to text mode. -/
theorem tokGo_gt {acc z : LC} :
    tokGo (.tag acc none) ('>' :: z) =
      (parseTagChunk acc).toList ++ tokGo (.txt []) z := by
  simp [tokGo]

/-- A clean name is already lowercase. -/
theorem lowerL_clean {n : LC} (h : n.all cleanNameChar = true) : lowerL n = n := by
  induction n with
  | nil => rfl
  | cons c cs ih =>
      simp only [List.all_cons, Bool.and_eq_true] at h
      simp only [lowerL, List.map_cons]
      rw [show Char.toLower c = c from (cleanNameChar_props h.1).2.1]
      rw [show List.map Char.toLower cs = lowerL cs from rfl, ih h.2]

/-- `takeWhile` keeps a list all of whose elements satisfy the predicate. -/
theorem takeWhile_all {p : Char → Bool} : ∀ {l : LC}, l.all p = true →
    l.takeWhile p = l := by
  intro l
  induction l with
  | nil => intro _; rfl
  | cons c cs ih =>
      intro h
      simp only [List.all_cons, Bool.and_eq_true] at h
      simp [List.takeWhile_cons, h.1, ih h.2]

/-- `dropWhile` drops exactly a name. -/
theorem dropWhile_name {n : LC} (hall : n.all cleanNameChar = true) :
    ∀ {ys : LC}, (ys = [] ∨ ∃ y t, ys = y :: t ∧ isNameChar y = false) →
      (n ++ ys).dropWhile isNameChar = ys := by
  induction n with
  | nil =>
      intro ys hys
      rcases hys with rfl | ⟨y, t, rfl, hy⟩
      · rfl
      · simp [List.dropWhile_cons, hy]
  | cons c cs ih =>
      intro ys hys
      simp only [List.all_cons, Bool.and_eq_true] at hall
      rw [List.cons_append]
      simp [List.dropWhile_cons, (cleanNameChar_props hall.1).1, ih hall.2 hys]

/-- The attribute scanner accumulates name characters. -/
theorem attrGo_name {k : LC} : ∀ (acc z : LC), k.all cleanNameChar = true →
    attrGo (.name acc) (k ++ z) = attrGo (.name (acc ++ k)) z := by
  induction k with
  | nil => intro acc z _; rw [List.nil_append, List.append_nil]
  | cons c cs ih =>
      intro acc z h
      simp only [List.all_cons, Bool.and_eq_true] at h
      rw [List.cons_append]
      rw [show attrGo (.name acc) (c :: (cs ++ z)) =
        if isNameChar c then attrGo (.name (acc ++ [c])) (cs ++ z)
        else if c = '=' then attrGo (.afterEq acc) (cs ++ z)
        else if c.isWhitespace then attrGo (.afterName acc) (cs ++ z)
        else (lowerL acc, []) :: attrGo .skip (cs ++ z) from by simp [attrGo]]
      rw [if_pos (cleanNameChar_props h.1).1, ih (acc ++ [c]) z h.2, List.append_assoc]
      rfl

/-- The attribute scanner accumulates quoted-value characters. -/
theorem attrGo_qacc {v : LC} : ∀ (nm acc z : LC), v.all cleanValChar = true →
    attrGo (.quoted nm '"' acc) (v ++ z) = attrGo (.quoted nm '"' (acc ++ v)) z := by
  induction v with
  | nil => intro nm acc z _; rw [List.nil_append, List.append_nil]
  | cons c cs ih =>
      intro nm acc z h
      simp only [List.all_cons, Bool.and_eq_true] at h
      rw [List.cons_append]
      rw [show attrGo (.quoted nm '"' acc) (c :: (cs ++ z)) =
        if c = '"' then (lowerL nm, unescape acc) :: attrGo .skip (cs ++ z)
        else attrGo (.quoted nm '"' (acc ++ [c])) (cs ++ z) from by simp [attrGo]]
      rw [if_neg (cleanValChar_props h.1).2.2.2.1]
      rw [ih nm (acc ++ [c]) z h.2, List.append_assoc]
      rfl

/-- The attribute scanner reads one serialized attribute. -/
theorem attrGo_attr {k v : LC} (z : LC) (hk : cleanName k = true)
    (hv : v.all cleanValChar = true) :
    attrGo .skip (serAttr (k, v) ++ z) = (k, v) :: attrGo .skip z := by
  obtain ⟨hall, _, c0, m, hk0, hc0⟩ := cleanName_props hk
  rw [show serAttr (k, v) ++ z =
      ' ' :: (k ++ ('=' :: '"' :: (escapeAttr v ++ ('"' :: z)))) from by
    simp [serAttr, List.append_assoc]]
  rw [show attrGo .skip (' ' :: (k ++ ('=' :: '"' :: (escapeAttr v ++ ('"' :: z))))) =
    (if isNameChar ' ' then attrGo (.name [' ']) (k ++ ('=' :: '"' :: (escapeAttr v ++ ('"' :: z))))
     else attrGo .skip (k ++ ('=' :: '"' :: (escapeAttr v ++ ('"' :: z))))) from by
    simp [attrGo]]
  rw [if_neg (by decide)]
  rw [hk0, List.cons_append]
  rw [show attrGo .skip (c0 :: (m ++ ('=' :: '"' :: (escapeAttr v ++ ('"' :: z))))) =
    if isNameChar c0 then attrGo (.name [c0]) (m ++ ('=' :: '"' :: (escapeAttr v ++ ('"' :: z))))
    else attrGo .skip (m ++ ('=' :: '"' :: (escapeAttr v ++ ('"' :: z)))) from by simp [attrGo]]
  rw [if_pos (cleanNameChar_props (lowerAlpha_props hc0).2.1).1]
  rw [attrGo_name [c0] _ (by
    rw [hk0] at hall
    simp only [List.all_cons, Bool.and_eq_true] at hall
    exact hall.2)]
  rw [show attrGo (.name ([c0] ++ m)) ('=' :: '"' :: (escapeAttr v ++ ('"' :: z))) =
    (if isNameChar '=' then
      attrGo (.name (([c0] ++ m) ++ ['='])) ('"' :: (escapeAttr v ++ ('"' :: z)))
     else attrGo (.afterEq ([c0] ++ m)) ('"' :: (escapeAttr v ++ ('"' :: z)))) from by
    simp [attrGo]]
  rw [if_neg (by decide)]
  rw [show attrGo (.afterEq ([c0] ++ m)) ('"' :: (escapeAttr v ++ ('"' :: z))) =
    attrGo (.quoted ([c0] ++ m) '"' []) (escapeAttr v ++ ('"' :: z)) from by simp [attrGo]]
  rw [escapeAttr_id hv]
  rw [attrGo_qacc _ _ _ hv]
  rw [show attrGo (.quoted ([c0] ++ m) '"' ([] ++ v)) ('"' :: z) =
    (lowerL ([c0] ++ m), unescape ([] ++ v)) :: attrGo .skip z from by simp [attrGo]]
  rw [show ([c0] ++ m : LC) = k from by rw [hk0]; rfl]
  rw [List.nil_append]
  rw [lowerL_clean hall]
  rw [unescape_id (fun hmem =>
    (cleanValChar_props (List.all_eq_true.mp hv _ hmem)).2.2.1 rfl)]
  rw [hk0]

/-- The attribute scanner reads a serialized attribute list. -/
theorem attrGo_attrs : ∀ {a : List (LC × LC)} (z : LC),
    a.all (fun p => cleanName p.1 && p.2.all cleanValChar) = true →
    attrGo .skip (serAttrs a ++ z) = a ++ attrGo .skip z := by
  intro a
  induction a with
  | nil => intro z _; rfl
  | cons p rest ih =>
      intro z h
      simp only [List.all_cons, Bool.and_eq_true] at h
      rw [show serAttrs (p :: rest) ++ z = serAttr (p.1, p.2) ++ (serAttrs rest ++ z) from by
        simp [serAttrs, List.append_assoc]]
      rw [attrGo_attr _ h.1.1 h.1.2, ih z h.2]
      rfl

/-- The tag-chunk parser on a rendered close tag. -/
theorem parseTagChunk_close {n : LC} (hn : cleanName n = true) :
    parseTagChunk ('/' :: n) = some (.tagClose n) := by
  obtain ⟨hall, _, _⟩ := cleanName_props hn
  rw [show parseTagChunk ('/' :: n) =
    some (.tagClose (lowerL (n.takeWhile isNameChar))) from rfl]
  rw [takeWhile_all (by
    rw [List.all_eq_true] at hall ⊢
    exact fun x hx => (cleanNameChar_props (hall x hx)).1)]
  rw [lowerL_clean hall]

/-- The tag-chunk parser on a rendered open tag. -/
theorem parseTagChunk_open {n : LC} {a : List (LC × LC)} (sc : Bool)
    (hn : cleanName n = true)
    (ha : a.all (fun p => cleanName p.1 && p.2.all cleanValChar) = true) :
    parseTagChunk (n ++ serAttrs a ++ (if sc then ([' ', '/'] : LC) else [])) =
      some (.tagOpen n a sc) := by
  obtain ⟨hall, _, c0, m, hn0, hc0⟩ := cleanName_props hn
  have hmall : m.all cleanNameChar = true := by
    rw [hn0] at hall
    simp only [List.all_cons, Bool.and_eq_true] at hall
    exact hall.2
  have hys : serAttrs a ++ (if sc then ([' ', '/'] : LC) else []) = [] ∨
      ∃ y t, serAttrs a ++ (if sc then ([' ', '/'] : LC) else []) = y :: t ∧
        isNameChar y = false := by
    cases a with
    | nil =>
        cases sc with
        | true => exact Or.inr ⟨' ', _, rfl, by decide⟩
        | false => exact Or.inl rfl
    | cons p r => exact Or.inr ⟨' ', _, rfl, by decide⟩
  have hchunk : n ++ serAttrs a ++ (if sc then ([' ', '/'] : LC) else []) =
      c0 :: (m ++ (serAttrs a ++ (if sc then ([' ', '/'] : LC) else []))) := by
    rw [hn0]
    simp [List.append_assoc]
  rw [hchunk]
  rw [parseTagChunk]
  · rw [if_pos (lowerAlpha_props hc0).1]
    have htw : (m ++ (serAttrs a ++ (if sc then ([' ', '/'] : LC) else []))).takeWhile
        isNameChar = m := takeWhile_name hmall hys
    have hdw : (m ++ (serAttrs a ++ (if sc then ([' ', '/'] : LC) else []))).dropWhile
        isNameChar = serAttrs a ++ (if sc then ([' ', '/'] : LC) else []) :=
      dropWhile_name hmall hys
    rw [htw, hdw]
    rw [show lowerL (c0 :: m) = n from by rw [← hn0]; exact lowerL_clean hall]
    rw [show parseAttrsL (serAttrs a ++ (if sc then ([' ', '/'] : LC) else [])) = a from by
      rw [parseAttrsL, attrGo_attrs _ ha]
      cases sc with
      | true =>
          rw [if_pos rfl]
          rw [show attrGo AttrMode.skip [' ', '/'] = [] from by decide]
          simp
      | false =>
          rw [if_neg (by simp)]
          rw [show attrGo AttrMode.skip ([] : LC) = [] from rfl]
          simp]
    have hlast : decide ((c0 :: (m ++ (serAttrs a ++
        (if sc then ([' ', '/'] : LC) else [])))).getLast? = some '/') = sc := by
      rw [← hchunk]
      cases sc with
      | true =>
          rw [if_pos rfl]
          rw [show n ++ serAttrs a ++ [' ', '/'] =
            ((n ++ serAttrs a) ++ [' ']) ++ ['/'] from by simp [List.append_assoc]]
          rw [List.getLast?_concat]
          decide
      | false =>
          rw [if_neg (by simp), List.append_nil]
          cases a with
          | nil =>
              rw [show serAttrs [] = ([] : LC) from rfl, List.append_nil]
              have hne : n.getLast? ≠ some '/' := by
                intro hcon
                have hmem := mem_of_getLast?_eq hcon
                exact (cleanNameChar_props
                  (List.all_eq_true.mp hall _ hmem)).2.2.2.2.2.1 rfl
              simp [hne]
          | cons p arest =>
              obtain ⟨y, hy⟩ := serAttrs_concat (a := p :: arest) (by simp)
              rw [hy, ← List.append_assoc, List.getLast?_concat]
              decide
    rw [hlast]
  · intro h1
    exact (lowerAlpha_props hc0).2.2.1 h1
  · intro h1
    exact (lowerAlpha_props hc0).2.2.2.1 h1
  · intro h1
    exact (lowerAlpha_props hc0).2.2.2.2 h1

/-- Lexer tag-buffer consumption of one serialized attribute. -/
theorem tokGo_tag_attr {k v : LC} (acc z : LC) (hk : cleanName k = true)
    (hv : v.all cleanValChar = true) :
    tokGo (.tag acc none) (serAttr (k, v) ++ z) =
      tokGo (.tag (acc ++ serAttr (k, v)) none) z := by
  obtain ⟨hall, _, c0, m, hk0, hc0⟩ := cleanName_props hk
  rw [show serAttr (k, v) ++ z =
      (' ' :: (k ++ ['='])) ++ ('"' :: (escapeAttr v ++ ('"' :: z))) from by
    simp [serAttr, List.append_assoc]]
  rw [tokGo_tagacc acc _ (by
    simp only [List.all_cons, Bool.and_eq_true]
    refine ⟨by decide, ?_⟩
    rw [List.all_eq_true]
    intro x hx
    rcases List.mem_append.mp hx with hx | hx
    · obtain ⟨_, _, _, _, _, _, hgt, _, hq, hq2, _⟩ :=
        cleanNameChar_props (List.all_eq_true.mp hall _ hx)
      simp [hq, hq2, hgt]
    · simp at hx
      simp [hx])]
  rw [tokGo_quote_open]
  rw [escapeAttr_id hv]
  rw [tokGo_valacc _ _ (by
    rw [List.all_eq_true]
    intro x hx
    simp [(cleanValChar_props (List.all_eq_true.mp hv _ hx)).2.2.2.1])]
  rw [tokGo_quote_close]
  rw [show ((((acc ++ (' ' :: (k ++ ['=']))) ++ ['"']) ++ v) ++ ['"'] : LC) =
      acc ++ serAttr (k, v) from by simp [serAttr, escapeAttr_id hv, List.append_assoc]]

/-- Lexer tag-buffer consumption of a serialized attribute list. -/
theorem tokGo_tag_attrs : ∀ {a : List (LC × LC)} (acc z : LC),
    a.all (fun p => cleanName p.1 && p.2.all cleanValChar) = true →
    tokGo (.tag acc none) (serAttrs a ++ z) =
      tokGo (.tag (acc ++ serAttrs a) none) z := by
  intro a
  induction a with
  | nil => intro acc z _; simp [serAttrs]
  | cons p rest ih =>
      intro acc z h
      simp only [List.all_cons, Bool.and_eq_true] at h
      rw [show serAttrs (p :: rest) ++ z = serAttr (p.1, p.2) ++ (serAttrs rest ++ z) from by
        simp [serAttrs, List.append_assoc]]
      rw [tokGo_tag_attr acc _ h.1.1 h.1.2, ih _ z h.2]
      rw [show (acc ++ serAttr (p.1, p.2)) ++ serAttrs rest = acc ++ serAttrs (p :: rest)
        from by simp [serAttrs, List.append_assoc]]

/-- The lexer turns one rendered markup segment into its token, flushing
pending character data. -/
theorem tokGo_tagseg {s : Seg} (htag : tagLike s = true) (hc : cleanSeg s = true)
    (acc z : LC) :
    tokGo (.txt acc) (renderSeg true s ++ z) =
      ((if acc.isEmpty then [] else [Tok.chars (unescape acc)]) ++
        (tokOfSeg s ++ tokGo (.txt []) z)) := by
  cases s with
  | sOpen n a sc =>
      simp only [cleanSeg, Bool.and_eq_true] at hc
      obtain ⟨hn, ha⟩ := hc
      obtain ⟨hall, _, c0, m, hn0, hc0⟩ := cleanName_props hn
      rw [show renderSeg true (.sOpen n a sc) ++ z =
          '<' :: (n ++ (serAttrs a ++ ((if sc then ([' ', '/'] : LC) else []) ++ ('>' :: z))))
          from by cases sc <;> simp [renderSeg, List.append_assoc]]
      rw [tokGo_lt]
      rw [tokGo_tagacc [] _ (cleanName_tagacc_pred hall)]
      rw [List.nil_append]
      rw [tokGo_tag_attrs n _ ha]
      rw [show ((if sc then ([' ', '/'] : LC) else []) ++ ('>' :: z)) =
          (if sc then ([' ', '/'] : LC) else []) ++ ('>' :: z) from rfl]
      rw [tokGo_tagacc _ _ (by cases sc <;> decide)]
      rw [tokGo_gt]
      rw [show ((n ++ serAttrs a) ++ (if sc then ([' ', '/'] : LC) else []) : LC) =
          n ++ serAttrs a ++ (if sc then ([' ', '/'] : LC) else []) from by
        simp [List.append_assoc]]
      rw [parseTagChunk_open sc hn ha]
      rfl
  | sClose n =>
      simp only [cleanSeg] at hc
      rw [show renderSeg true (.sClose n) ++ z =
          '<' :: (('/' :: n) ++ ('>' :: z)) from by simp [renderSeg, List.append_assoc]]
      rw [tokGo_lt]
      rw [tokGo_tagacc [] _ (by
        simp only [List.all_cons, Bool.and_eq_true]
        exact ⟨by decide, cleanName_tagacc_pred (cleanName_props hc).1⟩)]
      rw [List.nil_append, tokGo_gt, parseTagChunk_close hc]
      rfl
  | sText s => cases htag
  | sBlank s => cases htag
  | sDoctype =>
      have hd1 : doctypeStr =
          '<' :: ("!DOCTYPE html PUBLIC ".data ++
            ('"' :: ("-//W3C//DTD XHTML 1.1//EN".data ++
            ('"' :: (" ".data ++
            ('"' :: ("http://www.w3.org/TR/xhtml11/DTD/xhtml11.dtd".data ++
            ('"' :: ['>'])))))))) := by decide
      show tokGo (.txt acc) (doctypeStr ++ z) = _
      rw [show doctypeStr ++ z =
          '<' :: ("!DOCTYPE html PUBLIC ".data ++
            ('"' :: ("-//W3C//DTD XHTML 1.1//EN".data ++
            ('"' :: (" ".data ++
            ('"' :: ("http://www.w3.org/TR/xhtml11/DTD/xhtml11.dtd".data ++
            ('"' :: ('>' :: z))))))))) from by rw [hd1]; simp [List.append_assoc]]
      rw [tokGo_lt]
      rw [tokGo_tagacc [] _ (by decide)]
      rw [tokGo_quote_open]
      rw [tokGo_valacc _ _ (by decide)]
      rw [tokGo_quote_close]
      rw [tokGo_tagacc _ _ (by decide)]
      rw [tokGo_quote_open]
      rw [tokGo_valacc _ _ (by decide)]
      rw [tokGo_quote_close]
      rw [tokGo_gt]
      rw [show parseTagChunk ((((((([] ++ "!DOCTYPE html PUBLIC ".data) ++ ['"']) ++
          "-//W3C//DTD XHTML 1.1//EN".data) ++ ['"']) ++ " ".data) ++ ['"']) ++
          "http://www.w3.org/TR/xhtml11/DTD/xhtml11.dtd".data ++ ['"']) = none from by
        decide]
      rfl

/-- A nonblank string is nonempty. -/
theorem isEmpty_of_nonblank {s : LC} (h : isBlankL s = false) : s.isEmpty = false := by
  cases s with
  | nil => cases h
  | cons c cs => rfl

/-- `sepSegs` restricts to the tail. -/
theorem sepSegs_tail {a : Seg} {rest : List Seg} (h : sepSegs (a :: rest) = true) :
    sepSegs rest = true := by
  cases rest with
  | nil => rfl
  | cons b rest2 =>
      simp only [sepSegs, Bool.and_eq_true] at h
      exact h.2

/-- The lexer of a rendered clean, separated segment list produces exactly
the segment tokens. -/
theorem toks_segs : ∀ L : List Seg, sepSegs L = true → L.all cleanSeg = true →
    tokGo (.txt []) (renderSegs true L) = toksOfSegs L
  | [] => fun _ _ => rfl
  | [s] => by
      intro hsep hcl
      simp only [List.all_cons, Bool.and_eq_true] at hcl
      rcases htag : tagLike s with _ | _
      · cases s with
        | sText s =>
            simp only [cleanSeg, Bool.and_eq_true] at hcl
            rw [show renderSegs true [.sText s] = escapeText s ++ [] from by
              simp [renderSegs, renderSeg]]
            rw [escapeText_id hcl.1.2]
            rw [tokGo_text [] [] (no_lt_of_cleanText hcl.1.2)]
            rw [List.nil_append]
            rw [show tokGo (.txt s) [] =
              if s.isEmpty then [] else [Tok.chars (unescape s)] from by simp [tokGo]]
            rw [if_neg (by
              rw [isEmpty_of_nonblank (Bool.not_eq_true' _ ▸ hcl.1.1)]
              simp)]
            rw [unescape_id (no_amp_of_cleanText hcl.1.2)]
            rfl
        | sBlank s =>
            simp only [cleanSeg, Bool.and_eq_true] at hcl
            rw [show renderSegs true [.sBlank s] = s ++ [] from by
              simp [renderSegs, renderSeg]]
            rw [tokGo_text [] [] (no_lt_of_blank hcl.1.1)]
            rw [List.nil_append]
            rw [show tokGo (.txt s) [] =
              if s.isEmpty then [] else [Tok.chars (unescape s)] from by simp [tokGo]]
            rw [if_neg (by
              rw [show s.isEmpty = false from by
                have := hcl.1.2
                simpa using this]
              simp)]
            rw [unescape_id (by
              intro hmem
              have := List.all_eq_true.mp hcl.1.1 _ hmem
              simp at this)]
            rfl
        | sOpen n a sc => cases htag
        | sClose n => cases htag
        | sDoctype => cases htag
      · rw [show renderSegs true [s] = renderSeg true s ++ [] from by simp [renderSegs]]
        rw [tokGo_tagseg htag hcl.1 [] []]
        simp [toksOfSegs, tokGo]
  | s :: s2 :: ls => by
      intro hsep hcl
      simp only [sepSegs, Bool.and_eq_true] at hsep
      simp only [List.all_cons, Bool.and_eq_true] at hcl
      rcases htag : tagLike s with _ | _
      · have htag2 : tagLike s2 = true := by
          rcases Bool.or_eq_true_iff.mp hsep.1 with h | h
          · rw [htag] at h; cases h
          · exact h
        have hstep : ∃ str, renderSeg true s = str ∧ str.isEmpty = false ∧ '<' ∉ str ∧
            unescape str = str ∧ tokOfSeg s = [Tok.chars str] := by
          cases s with
          | sText t =>
              simp only [cleanSeg, Bool.and_eq_true] at hcl
              refine ⟨t, ?_, ?_, ?_, ?_, rfl⟩
              · simp only [renderSeg]
                exact escapeText_id hcl.1.2
              · exact isEmpty_of_nonblank (Bool.not_eq_true' _ ▸ hcl.1.1)
              · exact no_lt_of_cleanText hcl.1.2
              · exact unescape_id (no_amp_of_cleanText hcl.1.2)
          | sBlank t =>
              simp only [cleanSeg, Bool.and_eq_true] at hcl
              refine ⟨t, rfl, ?_, ?_, ?_, rfl⟩
              · have := hcl.1.2
                simpa using this
              · exact no_lt_of_blank hcl.1.1
              · exact unescape_id (by
                  intro hmem
                  have := List.all_eq_true.mp hcl.1.1 _ hmem
                  simp at this)
          | sOpen n a sc => cases htag
          | sClose n => cases htag
          | sDoctype => cases htag
        obtain ⟨str, hrs, hne, hlt, hun, htok⟩ := hstep
        rw [show renderSegs true (s :: s2 :: ls) =
            str ++ (renderSeg true s2 ++ renderSegs true ls) from by
          rw [renderSegs, hrs]; rfl]
        rw [tokGo_text [] _ hlt, List.nil_append]
        rw [show renderSeg true s2 ++ renderSegs true ls =
            renderSeg true s2 ++ renderSegs true ls from rfl]
        rw [tokGo_tagseg htag2 hcl.2.1 str (renderSegs true ls)]
        rw [if_neg (by rw [hne]; simp)]
        rw [hun]
        rw [toks_segs ls (sepSegs_tail (sepSegs_tail (by
          simp only [sepSegs, Bool.and_eq_true]
          exact hsep))) hcl.2.2]
        rw [show toksOfSegs (s :: s2 :: ls) =
            [Tok.chars str] ++ (tokOfSeg s2 ++ toksOfSegs ls) from by
          rw [show toksOfSegs (s :: s2 :: ls) = tokOfSeg s ++ toksOfSegs (s2 :: ls) from rfl,
            htok]
          rfl]
      · rw [show renderSegs true (s :: s2 :: ls) =
            renderSeg true s ++ renderSegs true (s2 :: ls) from rfl]
        rw [tokGo_tagseg htag hcl.1 [] _]
        rw [toks_segs (s2 :: ls) hsep.2 (by
          simp only [List.all_cons, Bool.and_eq_true]
          exact hcl.2)]
        rfl

/-- Consing a markup segment preserves separation. -/
theorem sepSegs_cons_tag {x : Seg} {B : List Seg} (hx : tagLike x = true)
    (hB : sepSegs B = true) : sepSegs (x :: B) = true := by
  cases B with
  | nil => rfl
  | cons b B2 =>
      simp only [sepSegs, Bool.and_eq_true]
      exact ⟨by simp [hx], hB⟩

/-- The head of an append with a nonempty left part. -/
theorem head_append_of_head {α : Type} {l r : List α} {x : α} (h : l.head? = some x) :
    (l ++ r).head? = some x := by
  cases l with
  | nil => cases h
  | cons a as => injection h with h1; rw [List.cons_append, List.head?_cons, h1]

/-- The last element of an append with a nonempty right part. -/
theorem getLast_append_of_last {α : Type} {l r : List α} {x : α}
    (h : r.getLast? = some x) : (l ++ r).getLast? = some x := by
  induction l with
  | nil => exact h
  | cons a as ih =>
      rw [List.cons_append]
      cases hr : as ++ r with
      | nil =>
          rw [hr] at ih
          cases r with
          | nil => cases h
          | cons b bs => simp at hr
      | cons b bs =>
          rw [List.getLast?_cons_cons, ← hr]
          exact ih

/-- Separation of an append, given a compatible junction. -/
theorem sepSegs_append : ∀ {A : List Seg} {B : List Seg}, sepSegs A = true →
    sepSegs B = true →
    (∀ x y, A.getLast? = some x → B.head? = some y → (tagLike x || tagLike y) = true) →
    sepSegs (A ++ B) = true
  | [], B, _, hB, _ => hB
  | [a], B, _, hB, hj => by
      cases B with
      | nil => rfl
      | cons b B2 =>
          simp only [List.singleton_append, sepSegs, Bool.and_eq_true]
          exact ⟨hj a b rfl rfl, hB⟩
  | a1 :: a2 :: A2, B, hA, hB, hj => by
      simp only [sepSegs, Bool.and_eq_true] at hA
      rw [List.cons_append]
      have hrec : sepSegs ((a2 :: A2) ++ B) = true :=
        sepSegs_append hA.2 hB (fun x y hx hy =>
          hj x y (by rw [List.getLast?_cons_cons]; exact hx) hy)
      rw [show (a2 :: A2) ++ B = a2 :: (A2 ++ B) from rfl] at hrec
      simp only [sepSegs, Bool.and_eq_true]
      exact ⟨hA.1, hrec⟩

/-- The segments of an element start with its open tag. -/
theorem segsOfN_elem_head (fmt : Bool) (d : Nat) (t : LC) (a : List (LC × LC))
    (kids : NodeList) :
    ∃ x, (segsOfN fmt d (.elem t a kids)).head? = some x ∧ tagLike x = true := by
  cases kids with
  | nil => exact ⟨.sOpen t a true, rfl, rfl⟩
  | cons c cs => exact ⟨.sOpen t a false, rfl, rfl⟩

/-- The segments of an element end with a tag. -/
theorem segsOfN_elem_last (fmt : Bool) (d : Nat) (t : LC) (a : List (LC × LC))
    (kids : NodeList) :
    ∃ x, (segsOfN fmt d (.elem t a kids)).getLast? = some x ∧ tagLike x = true := by
  cases kids with
  | nil => exact ⟨.sOpen t a true, rfl, rfl⟩
  | cons c cs =>
      refine ⟨.sClose t, ?_, rfl⟩
      have h2 : ∀ (X : List Seg), (Seg.sOpen t a false :: (X ++ [Seg.sClose t])).getLast? =
          some (Seg.sClose t) := by
        intro X
        rw [show Seg.sOpen t a false :: (X ++ [Seg.sClose t]) =
          (Seg.sOpen t a false :: X) ++ [Seg.sClose t] from rfl]
        exact getLast_append_of_last (by simp)
      show (Seg.sOpen t a false ::
        ((if fmt && !(NodeList.cons c cs).hasText then
            segsFmt (d + 1) (.cons c cs) ++ [.sBlank ('\n' :: indentL d)]
          else segsOfL (.cons c cs)) ++ [.sClose t])).getLast? = some (.sClose t)
      exact h2 _

/-- A list without text children has only element children. -/
theorem elem_of_no_hasText {n : Node} {ns : NodeList}
    (h : (NodeList.cons n ns).hasText = false) :
    (∃ t a kids, n = .elem t a kids) ∧ ns.hasText = false := by
  simp only [NodeList.hasText, Bool.or_eq_false_iff] at h
  constructor
  · cases n with
    | text s => cases h.1
    | elem t a kids => exact ⟨t, a, kids, rfl⟩
  · exact h.2

/-- Formatted child segments end with a tag. -/
theorem segsFmt_last_tag (d : Nat) :
    ∀ kids : NodeList, kids.hasText = false → kids ≠ .nil →
      ∃ x, (segsFmt d kids).getLast? = some x ∧ tagLike x = true
  | .nil, _, hne => absurd rfl hne
  | .cons c cs, h, _ => by
      obtain ⟨⟨t, a, k, hc⟩, hcs⟩ := elem_of_no_hasText h
      cases cs with
      | nil =>
          rw [segsFmt]
          obtain ⟨x, hx, htx⟩ := segsOfN_elem_last true d t a k
          refine ⟨x, ?_, htx⟩
          rw [show segsFmt d .nil = ([] : List Seg) from rfl, List.append_nil]
          rw [hc]
          cases hk : segsOfN true d (.elem t a k) with
          | nil =>
              obtain ⟨y, hy, _⟩ := segsOfN_elem_head true d t a k
              rw [hk] at hy
              cases hy
          | cons s0 srest =>
              rw [List.getLast?_cons_cons, ← hk]
              exact hx
      | cons c2 cs2 =>
          rw [segsFmt]
          obtain ⟨x, hx, htx⟩ := segsFmt_last_tag d (.cons c2 cs2) hcs
            (by intro hcon; cases hcon)
          refine ⟨x, ?_, htx⟩
          rw [show (Seg.sBlank ('\n' :: indentL d) ::
              (segsOfN true d c ++ segsFmt d (.cons c2 cs2))) =
            (Seg.sBlank ('\n' :: indentL d) :: segsOfN true d c) ++
              segsFmt d (.cons c2 cs2) from rfl]
          exact getLast_append_of_last hx

/-- `noAdjText` restricts to the tail. -/
theorem noAdjText_tail {n : Node} {ns : NodeList} (h : noAdjText (.cons n ns) = true) :
    noAdjText ns = true := by
  cases ns with
  | nil => rfl
  | cons m ms =>
      simp only [noAdjText, Bool.and_eq_true] at h
      exact h.2

mutual

/-- The segments of a clean node are separated. -/
theorem sepSegs_node (fmt : Bool) (d : Nat) :
    ∀ t : Node, cleanN t = true → sepSegs (segsOfN fmt d t) = true
  | .text s, _ => rfl
  | .elem t a .nil, _ => rfl
  | .elem t a (.cons c cs), h => by
      simp only [cleanN, Bool.and_eq_true] at h
      obtain ⟨⟨⟨⟨_, _⟩, _⟩, hadj⟩, hkids⟩ := h
      simp only [segsOfN]
      by_cases hf : (fmt && !(NodeList.cons c cs).hasText) = true
      · simp only [hf, if_true, reduceIte]
        have hht : (NodeList.cons c cs).hasText = false := by
          rcases hht2 : (NodeList.cons c cs).hasText with _ | _
          · rfl
          · rw [hht2] at hf; simp at hf
        apply sepSegs_cons_tag
        · rfl
        · apply sepSegs_append
          · apply sepSegs_append
            · exact sepSegs_fmt (d + 1) (.cons c cs) hht hkids
            · rfl
            · intro x y hx hy
              obtain ⟨x2, hx2, htx2⟩ := segsFmt_last_tag (d + 1) (.cons c cs) hht
                (by intro hcon; cases hcon)
              rw [hx2] at hx
              injection hx with hxx
              rw [← hxx, htx2]
              simp
          · rfl
          · intro x y hx hy
            injection hy with hy1
            rw [← hy1]
            simp [tagLike]
      · simp only [hf, Bool.false_eq_true, if_false, reduceIte]
        apply sepSegs_cons_tag
        · rfl
        · apply sepSegs_append
          · exact sepSegs_kidsL (.cons c cs) hadj hkids
          · rfl
          · intro x y hx hy
            injection hy with hy1
            rw [← hy1]
            simp [tagLike]

/-- The inline segments of clean, text-separated children are separated. -/
theorem sepSegs_kidsL :
    ∀ kids : NodeList, noAdjText kids = true → cleanL kids = true →
      sepSegs (segsOfL kids) = true
  | .nil, _, _ => rfl
  | .cons c cs, hadj, hcl => by
      simp only [cleanL, Bool.and_eq_true] at hcl
      rw [segsOfL]
      apply sepSegs_append
      · exact sepSegs_node false 0 c hcl.1
      · exact sepSegs_kidsL cs (noAdjText_tail hadj) hcl.2
      · intro x y hx hy
        cases c with
        | elem t a k =>
            obtain ⟨x2, hx2, htx2⟩ := segsOfN_elem_last false 0 t a k
            rw [hx2] at hx
            injection hx with hxx
            rw [← hxx, htx2]
            simp
        | text s =>
            cases cs with
            | nil => cases hy
            | cons c2 cs2 =>
                cases c2 with
                | text s2 =>
                    simp only [noAdjText, isTextNode, Bool.and_eq_true,
                      Bool.not_eq_true', Bool.and_eq_false_iff] at hadj
                    rcases hadj.1 with hcon | hcon <;> cases hcon
                | elem t2 a2 k2 =>
                    obtain ⟨y2, hy2, hty2⟩ := segsOfN_elem_head false 0 t2 a2 k2
                    rw [show segsOfL (.cons (.elem t2 a2 k2) cs2) =
                      segsOfN false 0 (.elem t2 a2 k2) ++ segsOfL cs2 from rfl] at hy
                    rw [head_append_of_head hy2] at hy
                    injection hy with hyy
                    rw [← hyy, hty2]
                    simp

/-- The formatted segments of clean element children are separated. -/
theorem sepSegs_fmt (d : Nat) :
    ∀ kids : NodeList, kids.hasText = false → cleanL kids = true →
      sepSegs (segsFmt d kids) = true
  | .nil, _, _ => rfl
  | .cons c cs, hht, hcl => by
      simp only [cleanL, Bool.and_eq_true] at hcl
      obtain ⟨⟨t, a, k, hc⟩, hcs⟩ := elem_of_no_hasText hht
      rw [segsFmt]
      rw [show Seg.sBlank ('\n' :: indentL d) :: (segsOfN true d c ++ segsFmt d cs) =
        (Seg.sBlank ('\n' :: indentL d) :: segsOfN true d c) ++ segsFmt d cs from rfl]
      apply sepSegs_append
      · rw [hc]
        obtain ⟨y, hy, hty⟩ := segsOfN_elem_head true d t a k
        cases hk : segsOfN true d (.elem t a k) with
        | nil => rfl
        | cons s0 srest =>
            rw [hk] at hy
            injection hy with hy1
            simp only [sepSegs, Bool.and_eq_true]
            constructor
            · rw [hy1, hty]
              simp
            · rw [← hk]
              exact sepSegs_node true d _ (by rw [← hc]; exact hcl.1)
      · exact sepSegs_fmt d cs hcs hcl.2
      · intro x y hx hy
        cases cs with
        | nil => cases hy
        | cons c2 cs2 =>
            rw [show (segsFmt d (.cons c2 cs2)).head? =
              some (Seg.sBlank ('\n' :: indentL d)) from rfl] at hy
            injection hy with hy1
            rw [← hy1]
            simp [tagLike]
            rw [hc] at hx
            obtain ⟨x2, hx2, htx2⟩ := segsOfN_elem_last true d t a k
            rw [show (Seg.sBlank ('\n' :: indentL d) :: segsOfN true d (.elem t a k)) =
              [Seg.sBlank ('\n' :: indentL d)] ++ segsOfN true d (.elem t a k) from rfl] at hx
            rw [getLast_append_of_last hx2] at hx
            injection hx with hxx
            rw [← hxx]
            exact htx2

end

/-- The segments of a rendered clean document are separated. -/
theorem sepSegs_segsDoc {u : Node} (h : cleanDoc u = true) :
    sepSegs (segsDoc u) = true := by
  cases u with
  | text s => simp [cleanDoc] at h
  | elem t a kids =>
      simp only [cleanDoc, Bool.and_eq_true] at h
      rw [segsDoc]
      apply sepSegs_cons_tag
      · rfl
      obtain ⟨y, hy, hty⟩ := segsOfN_elem_head true 0 t a kids
      cases hk : segsOfN true 0 (.elem t a kids) with
      | nil => rw [hk] at hy; cases hy
      | cons s0 srest =>
          rw [hk] at hy
          injection hy with hy1
          show sepSegs (Seg.sBlank ['\n'] :: s0 :: (srest ++ [Seg.sBlank ['\n']])) = true
          simp only [sepSegs, Bool.and_eq_true]
          constructor
          · rw [hy1, hty]
            simp
          · rw [show s0 :: (srest ++ [Seg.sBlank ['\n']]) =
              (s0 :: srest) ++ [Seg.sBlank ['\n']] from rfl]
            apply sepSegs_append
            · rw [← hk]
              exact sepSegs_node true 0 _ h.1.2
            · rfl
            · intro x y2 hx hy2
              obtain ⟨x2, hx2, htx2⟩ := segsOfN_elem_last true 0 t a kids
              rw [hk] at hx2
              rw [hx2] at hx
              injection hx with hxx
              rw [← hxx, htx2]
              simp

/-! ### The builder on segment token streams

On a clean document the token stream of the serialization rebuilds the
original tree: blank character tokens are dropped, each open tag pushes a
frame whose attributes deduplicate to themselves, and each close tag pops
its matching frame. -/

/-- `toksOfSegs` distributes over append. -/
theorem toksOfSegs_append (A B : List Seg) :
    toksOfSegs (A ++ B) = toksOfSegs A ++ toksOfSegs B := by
  induction A with
  | nil => rfl
  | cons s ls ih =>
      rw [List.cons_append,
        show toksOfSegs (s :: (ls ++ B)) = tokOfSeg s ++ toksOfSegs (ls ++ B) from rfl,
        ih, show toksOfSegs (s :: ls) = tokOfSeg s ++ toksOfSegs ls from rfl,
        List.append_assoc]

/-- The token stream of an element's segments, children bracketed. -/
theorem toksOfSegs_open_close (t : LC) (a : List (LC × LC)) (M : List Seg) :
    toksOfSegs (Seg.sOpen t a false :: (M ++ [Seg.sClose t])) =
      Tok.tagOpen t a false :: (toksOfSegs M ++ [Tok.tagClose t]) := by
  rw [show toksOfSegs (Seg.sOpen t a false :: (M ++ [Seg.sClose t])) =
    Tok.tagOpen t a false :: toksOfSegs (M ++ [Seg.sClose t]) from rfl,
    toksOfSegs_append]
  rfl

/-- Deduplication scanning is the identity on duplicate-free attribute
lists none of whose keys were seen yet. -/
theorem dedupGo_id : ∀ (seen : List LC) (a : List (LC × LC)), nodupKeys a = true →
    (∀ p ∈ a, p.1 ∉ seen) → dedupGo seen a = a
  | _, [], _, _ => rfl
  | seen, p :: rest, h, hs => by
      simp only [nodupKeys, Bool.and_eq_true, Bool.not_eq_true',
        List.any_eq_false, decide_eq_true_eq] at h
      rw [dedupGo, if_neg (hs p (List.mem_cons_self p rest))]
      rw [dedupGo_id (p.1 :: seen) rest h.2 (fun q hq hmem => by
        rcases List.mem_cons.mp hmem with heq | hseen
        · exact h.1 q hq heq
        · exact hs q (List.mem_cons_of_mem p hq) hseen)]

/-- `dedupAttrs` is the identity on duplicate-free attribute lists. -/
theorem dedupAttrs_id {a : List (LC × LC)} (h : nodupKeys a = true) :
    dedupAttrs a = a :=
  dedupGo_id [] a h (fun p _ => List.not_mem_nil p.1)

/-- `ofList` inverts `toList`. -/
theorem ofList_toList : ∀ kids : NodeList, NodeList.ofList kids.toList = kids
  | .nil => rfl
  | .cons n ns => by rw [NodeList.toList, NodeList.ofList, ofList_toList ns]

/-- A tag absent from the void list. -/
theorem not_mem_voidTags {t : LC} (h : voidTags.any (fun g => g = t) = false) :
    ¬ t ∈ voidTags := by
  intro hmem
  exact (List.any_eq_false.mp h) t hmem (by simp)

/-- Attaching to a frame, spelled out. -/
theorem pushN_cons (n : Node) (t : LC) (a : List (LC × LC)) (rk : List Node)
    (fs : List Frame) (done : List Node) :
    pushN n (⟨t, a, rk⟩ :: fs) done = (⟨t, a, n :: rk⟩ :: fs, done) := rfl

/-- Attaching at top level, spelled out. -/
theorem pushN_nil (n : Node) (done : List Node) :
    pushN n [] done = ([], n :: done) := rfl

/-- A blank character token leaves the builder state unchanged. -/
theorem stepTok_blank {fs : List Frame} {done : List Node} {s : LC}
    (h : isBlankL s = true) : stepTok (fs, done) (.chars s) = (fs, done) := by
  simp [stepTok, h]

/-- A non-blank character token pushes a text node. -/
theorem stepTok_text {s : LC} (h : isBlankL s = false) (fs : List Frame)
    (done : List Node) :
    stepTok (fs, done) (.chars s) = pushN (.text s) fs done := by
  simp [stepTok, h]

/-- A non-void, non-self-closing open tag with duplicate-free attributes
pushes a fresh frame. -/
theorem stepTok_open_push {t : LC} {a : List (LC × LC)} (hnv : ¬ t ∈ voidTags)
    (hnodup : nodupKeys a = true) (fs : List Frame) (done : List Node) :
    stepTok (fs, done) (.tagOpen t a false) = (⟨t, a, []⟩ :: fs, done) := by
  simp [stepTok, hnv, dedupAttrs_id hnodup]

/-- A self-closing open tag with duplicate-free attributes pushes a
childless element. -/
theorem stepTok_open_self {t : LC} {a : List (LC × LC)}
    (hnodup : nodupKeys a = true) (fs : List Frame) (done : List Node) :
    stepTok (fs, done) (.tagOpen t a true) = pushN (.elem t a .nil) fs done := by
  simp [stepTok, dedupAttrs_id hnodup]

/-- A close tag matching the innermost frame pops exactly that frame. -/
theorem stepTok_close_frame (t : LC) (a : List (LC × LC)) (rk : List Node)
    (fs : List Frame) (done : List Node) :
    stepTok (⟨t, a, rk⟩ :: fs, done) (.tagClose t) =
      pushN (.elem t a (NodeList.ofList rk.reverse)) fs done := by
  have h1 : hasFrame t (({ name := t, attrs := a, revKids := rk } : Frame) :: fs) = true := by
    simp [hasFrame]
  have h2 : closeTo t (({ name := t, attrs := a, revKids := rk } : Frame) :: fs) done =
      pushN (.elem t a (NodeList.ofList rk.reverse)) fs done := by
    rw [closeTo, if_pos rfl]
    rfl
  rw [stepTok, h1, if_pos rfl]
  exact h2

/-- Folding one blank character token. -/
theorem foldl_blank (st : List Frame × List Node) {s : LC} (h : isBlankL s = true) :
    List.foldl stepTok st [Tok.chars s] = st := by
  cases st with
  | mk fs done => rw [List.foldl_cons, List.foldl_nil, stepTok_blank h]

/-- Pushing children in order onto an open frame collects them reversed. -/
theorem pushList_frame : ∀ (K : NodeList) (t : LC) (a : List (LC × LC)) (r : List Node)
    (fs : List Frame) (done : List Node),
    pushList K (⟨t, a, r⟩ :: fs) done =
      (⟨t, a, K.toList.reverse ++ r⟩ :: fs, done)
  | .nil, t, a, r, fs, done => by
      rw [pushList, show NodeList.toList .nil = ([] : List Node) from rfl]
      rfl
  | .cons n ns, t, a, r, fs, done => by
      rw [pushList]
      show pushList ns (⟨t, a, n :: r⟩ :: fs) done = _
      rw [pushList_frame ns t a (n :: r) fs done,
        show (NodeList.cons n ns).toList = n :: ns.toList from rfl,
        List.reverse_cons, List.append_assoc, List.singleton_append]

mutual

/-- Folding the builder over the token stream of a clean node's segments
pushes exactly that node. -/
theorem build_node (fmt : Bool) (d : Nat) :
    ∀ t : Node, cleanN t = true → ∀ (fs : List Frame) (done : List Node),
      List.foldl stepTok (fs, done) (toksOfSegs (segsOfN fmt d t)) = pushN t fs done
  | .text s, h, fs, done => by
      simp only [cleanN, Bool.and_eq_true, Bool.not_eq_true'] at h
      show List.foldl stepTok (fs, done) [Tok.chars s] = pushN (.text s) fs done
      rw [List.foldl_cons, List.foldl_nil, stepTok_text h.1]
  | .elem t a .nil, h, fs, done => by
      simp only [cleanN, cleanAttrsOf, Bool.and_eq_true] at h
      obtain ⟨⟨⟨⟨_h1, ⟨⟨_h2, hnodup⟩, _h3⟩⟩, _h4⟩, _h5⟩, _h6⟩ := h
      show List.foldl stepTok (fs, done) [Tok.tagOpen t a true] =
        pushN (.elem t a .nil) fs done
      rw [List.foldl_cons, List.foldl_nil, stepTok_open_self hnodup]
  | .elem t a (.cons c cs), h, fs, done => by
      simp only [cleanN, cleanAttrsOf, Bool.and_eq_true] at h
      obtain ⟨⟨⟨⟨_h1, ⟨⟨_h2, hnodup⟩, _h3⟩⟩, hvoid⟩, _h5⟩, hkids⟩ := h
      have hnv : ¬ t ∈ voidTags := by
        apply not_mem_voidTags
        rw [show (NodeList.cons c cs == NodeList.nil) = false from rfl, Bool.or_false,
          Bool.not_eq_true'] at hvoid
        exact hvoid
      simp only [segsOfN]
      rw [toksOfSegs_open_close, List.foldl_cons, stepTok_open_push hnv hnodup,
        List.foldl_append]
      have hb : isBlankL ('\n' :: indentL d) = true := isBlankL_indent d
      by_cases hf : (fmt && !(NodeList.cons c cs).hasText) = true
      · rw [if_pos hf, toksOfSegs_append, List.foldl_append,
          build_fmt (d + 1) (.cons c cs) hkids, pushList_frame,
          show toksOfSegs [Seg.sBlank ('\n' :: indentL d)] =
            [Tok.chars ('\n' :: indentL d)] from rfl,
          foldl_blank _ hb, List.append_nil, List.foldl_cons, List.foldl_nil,
          stepTok_close_frame, List.reverse_reverse, ofList_toList]
      · rw [if_neg hf, build_kids (.cons c cs) hkids, pushList_frame,
          List.append_nil, List.foldl_cons, List.foldl_nil, stepTok_close_frame,
          List.reverse_reverse, ofList_toList]

/-- `build_node` over an inline sibling list. -/
theorem build_kids :
    ∀ K : NodeList, cleanL K = true → ∀ (fs : List Frame) (done : List Node),
      List.foldl stepTok (fs, done) (toksOfSegs (segsOfL K)) = pushList K fs done
  | .nil, _, fs, done => rfl
  | .cons c cs, h, fs, done => by
      simp only [cleanL, Bool.and_eq_true] at h
      rw [show segsOfL (.cons c cs) = segsOfN false 0 c ++ segsOfL cs from rfl,
        toksOfSegs_append, List.foldl_append, build_node false 0 c h.1 fs done]
      exact build_kids cs h.2 (pushN c fs done).1 (pushN c fs done).2

/-- `build_node` over a formatted sibling list (the printer's blanks are
dropped again). -/
theorem build_fmt (d : Nat) :
    ∀ K : NodeList, cleanL K = true → ∀ (fs : List Frame) (done : List Node),
      List.foldl stepTok (fs, done) (toksOfSegs (segsFmt d K)) = pushList K fs done
  | .nil, _, fs, done => rfl
  | .cons c cs, h, fs, done => by
      simp only [cleanL, Bool.and_eq_true] at h
      rw [show segsFmt d (.cons c cs) =
          Seg.sBlank ('\n' :: indentL d) :: (segsOfN true d c ++ segsFmt d cs) from rfl,
        show toksOfSegs (Seg.sBlank ('\n' :: indentL d) ::
            (segsOfN true d c ++ segsFmt d cs)) =
          Tok.chars ('\n' :: indentL d) :: toksOfSegs (segsOfN true d c ++ segsFmt d cs)
          from rfl,
        List.foldl_cons, stepTok_blank (isBlankL_indent d), toksOfSegs_append,
        List.foldl_append, build_node true d c h.1 fs done]
      exact build_fmt d cs h.2 (pushN c fs done).1 (pushN c fs done).2

end

/-- Tokenizing the rendering of separated clean segments gives the
segment tokens. -/
theorem tokenize_segs {L : List Seg} (hsep : sepSegs L = true)
    (hclean : L.all cleanSeg = true) :
    tokenize (renderSegs true L) = toksOfSegs L :=
  toks_segs L hsep hclean

/-- Reparsing the rendered serialization of a clean document returns the
document unchanged. -/
theorem parse_render {u : Node} (h : cleanDoc u = true) :
    parseDocument (renderSegs true (segsDoc u)) = .ok u := by
  obtain ⟨t, a, kids, hu⟩ : ∃ t a kids, u = .elem t a kids := by
    cases u with
    | text s => simp [cleanDoc] at h
    | elem t a kids => exact ⟨t, a, kids, rfl⟩
  have hnb : isBlankL (renderSegs true (segsDoc u)) = false := by
    apply isBlankL_eq_false (c := '<')
    · rw [segsDoc, show renderSegs true (Seg.sDoctype :: Seg.sBlank ['\n'] ::
          (segsOfN true 0 u ++ [Seg.sBlank ['\n']])) =
        doctypeStr ++ renderSegs true (Seg.sBlank ['\n'] ::
          (segsOfN true 0 u ++ [Seg.sBlank ['\n']])) from rfl]
      apply List.mem_append.mpr
      left
      decide
    · decide
  have hcleanN : cleanN u = true := by
    rw [hu] at h ⊢
    simp only [cleanDoc, Bool.and_eq_true] at h
    exact h.1.2
  have htoks : toksOfSegs (segsDoc u) =
      Tok.chars ['\n'] :: (toksOfSegs (segsOfN true 0 u) ++ [Tok.chars ['\n']]) := by
    rw [segsDoc, show toksOfSegs (Seg.sDoctype :: Seg.sBlank ['\n'] ::
        (segsOfN true 0 u ++ [Seg.sBlank ['\n']])) =
      Tok.chars ['\n'] :: toksOfSegs (segsOfN true 0 u ++ [Seg.sBlank ['\n']]) from rfl,
      toksOfSegs_append]
    rfl
  have hbnl : isBlankL ['\n'] = true := by decide
  have hfold : List.foldl stepTok (([], []) : List Frame × List Node)
      (toksOfSegs (segsDoc u)) = ([], [u]) := by
    rw [htoks, List.foldl_cons, stepTok_blank hbnl, List.foldl_append,
      build_node true 0 u hcleanN [] [], foldl_blank _ hbnl]
    rfl
  rw [parseDocument, if_neg (by rw [hnb]; exact Bool.false_ne_true),
    tokenize_segs (sepSegs_segsDoc h) (segsDoc_clean h),
    show buildNodes (toksOfSegs (segsDoc u)) =
      (closeAll (List.foldl stepTok ([], []) (toksOfSegs (segsDoc u))).1
        (List.foldl stepTok ([], []) (toksOfSegs (segsDoc u))).2).reverse from rfl,
    hfold]
  show Except.ok (ensureDoc [u]) = Except.ok u
  rw [hu] at h ⊢
  simp only [cleanDoc, Bool.and_eq_true] at h
  have ht : t = "html".data := eq_of_beq h.1.1
  rw [ensureDoc, if_pos ht, if_pos h.2]

/-! ### When parsing yields a root

libxml2 produces a rootless document exactly when no content node is
built; a single open tag anywhere in the token stream guarantees a
non-empty forest, which is what makes `create_chapter` and
`create_cover_page` total: their templates always contribute a `div`. -/

/-- Attaching a node never empties the builder state. -/
theorem pushN_ne (n : Node) : ∀ (fs : List Frame) (done : List Node),
    (pushN n fs done).1 ≠ [] ∨ (pushN n fs done).2 ≠ []
  | [], done => Or.inr (by simp [pushN])
  | _ :: _, _ => Or.inl (by simp [pushN])

/-- Closing with a carried node never empties the builder state. -/
theorem closeToCarry_ne (tgt : LC) : ∀ (n : Node) (fs : List Frame) (done : List Node),
    (closeToCarry tgt n fs done).1 ≠ [] ∨ (closeToCarry tgt n fs done).2 ≠ []
  | _, [], done => Or.inr (by simp [closeToCarry])
  | n, g :: gs, done => by
      rw [closeToCarry]
      by_cases h : g.name = tgt
      · rw [if_pos h]
        exact pushN_ne _ _ _
      · rw [if_neg h]
        exact closeToCarry_ne tgt _ gs done

/-- Closing a frame never empties the builder state. -/
theorem closeTo_ne (tgt : LC) (f : Frame) (fs : List Frame) (done : List Node) :
    (closeTo tgt (f :: fs) done).1 ≠ [] ∨ (closeTo tgt (f :: fs) done).2 ≠ [] := by
  rw [closeTo]
  by_cases h : f.name = tgt
  · rw [if_pos h]
    exact pushN_ne _ _ _
  · rw [if_neg h]
    exact closeToCarry_ne tgt _ fs done

/-- One builder step preserves a non-empty state. -/
theorem stepTok_ne {fs : List Frame} {done : List Node}
    (h : fs ≠ [] ∨ done ≠ []) (tok : Tok) :
    (stepTok (fs, done) tok).1 ≠ [] ∨ (stepTok (fs, done) tok).2 ≠ [] := by
  cases tok with
  | chars s =>
      simp only [stepTok]
      split
      · exact h
      · exact pushN_ne _ _ _
  | tagOpen n attrs sc =>
      simp only [stepTok]
      split
      · exact pushN_ne _ _ _
      · exact Or.inl (by simp)
  | tagClose n =>
      simp only [stepTok]
      split
      · next hh =>
          cases fs with
          | nil => simp [hasFrame] at hh
          | cons f fs2 => exact closeTo_ne n f fs2 done
      · exact h

/-- The builder fold preserves a non-empty state. -/
theorem foldl_stepTok_ne : ∀ (toks : List Tok) (st : List Frame × List Node),
    st.1 ≠ [] ∨ st.2 ≠ [] →
    (List.foldl stepTok st toks).1 ≠ [] ∨ (List.foldl stepTok st toks).2 ≠ []
  | [], _, h => h
  | tok :: toks, (fs, done), h => by
      rw [List.foldl_cons]
      exact foldl_stepTok_ne toks _ (stepTok_ne h tok)

/-- Final closing with a carried node yields a non-empty forest. -/
theorem closeAllCarry_ne : ∀ (n : Node) (fs : List Frame) (done : List Node),
    closeAllCarry n fs done ≠ []
  | _, [], done => by simp [closeAllCarry]
  | _, _ :: gs, done => by
      rw [closeAllCarry]
      exact closeAllCarry_ne _ gs done

/-- Final closing of a non-empty state yields a non-empty forest. -/
theorem closeAll_ne {fs : List Frame} {done : List Node}
    (h : fs ≠ [] ∨ done ≠ []) : closeAll fs done ≠ [] := by
  cases fs with
  | nil =>
      rcases h with h1 | h2
      · exact absurd rfl h1
      · rw [closeAll]
        exact h2
  | cons f fs2 =>
      rw [closeAll]
      exact closeAllCarry_ne _ fs2 done

/-- An open tag makes any builder state non-empty. -/
theorem stepTok_open_ne (fs : List Frame) (done : List Node) (n : LC)
    (attrs : List (LC × LC)) (sc : Bool) :
    (stepTok (fs, done) (.tagOpen n attrs sc)).1 ≠ [] ∨
    (stepTok (fs, done) (.tagOpen n attrs sc)).2 ≠ [] := by
  simp only [stepTok]
  split
  · exact pushN_ne _ _ _
  · exact Or.inl (by simp)

/-- A token stream containing an open tag builds a non-empty forest. -/
theorem buildNodes_ne_of_open {pre post : List Tok} {n : LC}
    {attrs : List (LC × LC)} {sc : Bool} :
    buildNodes (pre ++ .tagOpen n attrs sc :: post) ≠ [] := by
  simp only [buildNodes]
  intro hcon
  rw [List.reverse_eq_nil_iff, List.foldl_append, List.foldl_cons] at hcon
  exact closeAll_ne
    (foldl_stepTok_ne post _
      (stepTok_open_ne (List.foldl stepTok ([], []) pre).1
        (List.foldl stepTok ([], []) pre).2 n attrs sc)) hcon

/-- Tokenizing a blank run followed by a rendered open tag. -/
theorem tokenize_blank_open {bl : LC} (hb : '<' ∉ bl) (hbe : bl.isEmpty = false)
    (hba : '&' ∉ bl) {n : LC} {a : List (LC × LC)}
    (hc : cleanSeg (.sOpen n a false) = true) (z : LC) :
    tokenize (bl ++ (renderSeg true (.sOpen n a false) ++ z)) =
      .chars bl :: .tagOpen n a false :: tokGo (.txt []) z := by
  show tokGo (.txt []) (bl ++ (renderSeg true (.sOpen n a false) ++ z)) = _
  rw [tokGo_text [] _ hb, List.nil_append,
    tokGo_tagseg (s := Seg.sOpen n a false) rfl hc bl z, hbe, unescape_id hba]
  rfl

/-- `convert` succeeds on any input that is a blank run, then a clean open
tag, then anything at all. -/
theorem convert_ok_of_open {s bl z : LC} {n : LC} {a : List (LC × LC)}
    (heq : s = bl ++ (renderSeg true (.sOpen n a false) ++ z))
    (hb : '<' ∉ bl) (hbe : bl.isEmpty = false) (hba : '&' ∉ bl)
    (hc : cleanSeg (.sOpen n a false) = true) :
    ∃ y, convert s = .ok y := by
  subst heq
  have hnb : isBlankL (bl ++ (renderSeg true (.sOpen n a false) ++ z)) = false := by
    apply isBlankL_eq_false (c := '<')
    · apply List.mem_append.mpr
      right
      apply List.mem_append.mpr
      left
      exact List.mem_cons_self '<' _
    · decide
  have htk := tokenize_blank_open hb hbe hba hc z
  have hne : buildNodes
      (tokenize (bl ++ (renderSeg true (.sOpen n a false) ++ z))) ≠ [] := by
    rw [htk, show (Tok.chars bl :: Tok.tagOpen n a false :: tokGo (.txt []) z) =
      [Tok.chars bl] ++ Tok.tagOpen n a false :: tokGo (.txt []) z from rfl]
    exact buildNodes_ne_of_open
  cases hp : buildNodes (tokenize (bl ++ (renderSeg true (.sOpen n a false) ++ z))) with
  | nil => exact absurd hp hne
  | cons r rs =>
      have hpd : parseDocument (bl ++ (renderSeg true (.sOpen n a false) ++ z)) =
          .ok (ensureDoc (r :: rs)) := by
        rw [parseDocument, if_neg (by rw [hnb]; exact Bool.false_ne_true), hp]
      exact ⟨replaceHtml5 (fixSelfClose (tostringDoc false (ensureDoc (r :: rs)))),
        by simp only [convert, hpd]⟩

/-- Tokenizing a blank input yields at most one blank character token. -/
theorem tokenize_blank {s : LC} (h : isBlankL s = true) :
    tokenize s = if s.isEmpty then [] else [.chars (unescape s)] := by
  show tokGo (.txt []) s = _
  calc tokGo (.txt []) s = tokGo (.txt []) (s ++ []) := by rw [List.append_nil]
    _ = tokGo (.txt ([] ++ s)) [] := tokGo_text [] [] (no_lt_of_blank h)
    _ = _ := by rw [List.nil_append]; simp only [tokGo]

/-- A blank input builds an empty forest. -/
theorem buildNodes_blank {s : LC} (h : isBlankL s = true) :
    buildNodes (tokenize s) = [] := by
  have hamp : '&' ∉ s := by
    intro hm
    have h2 := List.all_eq_true.mp h '&' hm
    simp at h2
  rw [tokenize_blank h]
  by_cases he : s.isEmpty = true
  · rw [if_pos he]
    rfl
  · rw [if_neg he, unescape_id hamp]
    simp only [buildNodes, List.foldl_cons, List.foldl_nil, stepTok_blank h]
    rfl

/-- `convert` succeeds exactly when the input parses to some content node:
blank input and non-blank content-free input (comment-only, doctype-only,
stray close tags) are both rejected. -/
theorem convert_isOk (s : LC) :
    (convert s).isOk = !(buildNodes (tokenize s)).isEmpty := by
  by_cases h : isBlankL s = true
  · rw [buildNodes_blank h]
    simp [convert, parseDocument, h, Except.isOk, Except.toBool]
  · cases hp : buildNodes (tokenize s) with
    | nil =>
        simp [convert, parseDocument, h, hp, Except.isOk, Except.toBool]
    | cons r rs =>
        simp [convert, parseDocument, h, hp, Except.isOk, Except.toBool]

/-- The decomposition of the chapter template at its first open tag. -/
theorem headerBox_decomp (t l x : LC) :
    headerBox t l ++ x =
      "\n        ".data ++
        (renderSeg true (.sOpen "div".data [("class".data, "header".data)] false) ++
         ("\n            <h1>".data ++
          (t ++ ("</h1>\n            <p><a href=\"".data ++
           (l ++ ("\">".data ++
            (l ++ ("</a></p>\n        </div>\n        ".data ++ x)))))))) := by
  simp only [headerBox, renderSeg, serAttrs, serAttr, Bool.false_eq_true, if_false,
    reduceIte, List.append_assoc, List.append_nil, List.nil_append, List.cons_append]
  rfl

set_option maxRecDepth 10000 in
/-- The decomposition of the text-only cover template at its first open
tag. -/
theorem coverTextOnly_decomp (m : FeedMetadata) :
    coverContentTextOnly m =
      "\n            ".data ++
        (renderSeg true (.sOpen "div".data
            [("style".data, "text-align: center; padding: 20px;".data)] false) ++
         ("\n                <h1 style=\"font-size: 24px; margin: 20px 0;\">".data ++
          (m.title ++
           ("</h1>\n                <p style=\"font-size: 16px; color: #666; margin: 10px 0;\">".data ++
            (m.description ++ "</p>\n            </div>\n            ".data))))) := by
  simp only [coverContentTextOnly, renderSeg, serAttrs, serAttr, Bool.false_eq_true,
    if_false, reduceIte, List.append_assoc, List.append_nil, List.nil_append,
    List.cons_append]
  rfl

set_option maxRecDepth 10000 in
/-- The decomposition of the icon cover template at its first open tag. -/
theorem coverWithIcon_decomp (icon : LC) (m : FeedMetadata) :
    coverContentWithIcon icon m =
      "\n            ".data ++
        (renderSeg true (.sOpen "div".data
            [("style".data, "text-align: center; padding: 20px;".data)] false) ++
         ("\n                <div style=\"margin: 50px auto;\">\n                    <img src=\"".data ++
          (icon ++
           ("\" style=\"max-width: 200px; display: block; margin: 0 auto;\" />\n                </div>\n                <h1 style=\"font-size: 24px; margin: 20px 0;\">".data ++
            (m.title ++
             ("</h1>\n                <p style=\"font-size: 16px; color: #666; margin: 10px 0;\">".data ++
              (m.description ++ "</p>\n            </div>\n            ".data))))))) := by
  simp only [coverContentWithIcon, renderSeg, serAttrs, serAttr, Bool.false_eq_true,
    if_false, reduceIte, List.append_assoc, List.append_nil, List.nil_append,
    List.cons_append]
  rfl

/-- `create_chapter` always succeeds, with the title copied from the item
and the file name derived from the slugified title (the header template
guarantees a `div` element, hence a rooted parse). -/
theorem create_chapter_ok (fetch : FetchOracle) (md5hex : LC → LC)
    (extractO : LC → Option LC) (st : CreatorState) (item : FeedItem) :
    ∃ r, create_chapter fetch md5hex extractO st item = .ok r ∧
      r.2.1.title = item.title ∧
      r.2.1.file_name = slugify item.title ++ ".xhtml".data ∧
      r.2.1.lang = "en".data := by
  unfold create_chapter
  obtain ⟨y, hy⟩ := convert_ok_of_open
    (headerBox_decomp item.title item.link
      (if startsWithBlockTag (strReplace "<graphic".data "<img".data
          (match extractO item.link with
           | none => placeholderText
           | some c => c)) = true then
        strReplace "<graphic".data "<img".data
          (match extractO item.link with
           | none => placeholderText
           | some c => c)
       else "<div class=\"chapter-content\">".data ++
         strReplace "<graphic".data "<img".data
           (match extractO item.link with
            | none => placeholderText
            | some c => c) ++ "</div>".data))
    (by decide) (by decide) (by decide) (by decide)
  simp only [hy]
  exact ⟨_, rfl, rfl, rfl, rfl⟩

/-- The cover page always succeeds and is titled `Cover` with file name
`cover.xhtml` (both cover templates guarantee a `div` element). -/
theorem create_cover_page_ok (iconF : FetchOracle) (md5hex : LC → LC)
    (st : CreatorState) (m : FeedMetadata) :
    ∃ r, create_cover_page iconF md5hex st m = .ok r ∧
      r.2.title = "Cover".data ∧ r.2.file_name = "cover.xhtml".data := by
  obtain ⟨y1, hy1⟩ := convert_ok_of_open (coverTextOnly_decomp m)
    (by decide) (by decide) (by decide) (by decide)
  unfold create_cover_page
  cases hic : iconF ("https://www.google.com/s2/favicons?domain=".data ++
      netlocOf m.link ++ "&sz=256".data) with
  | none =>
      simp only [hic, hy1]
      exact ⟨_, rfl, rfl, rfl⟩
  | some icon_data =>
      obtain ⟨y2, hy2⟩ := convert_ok_of_open
        (coverWithIcon_decomp ("images/".data ++
          ("cover_icon".data ++
            md5hex ("https://www.google.com/s2/favicons?domain=".data ++
              netlocOf m.link ++ "&sz=256".data)) ++
          (get_image_info icon_data).1) m)
        (by decide) (by decide) (by decide) (by decide)
      simp only [hic, hy1, hy2]
      exact ⟨_, rfl, rfl, rfl⟩

/-! ### The placeholder chapter pipeline -/

/-- A rendered document is never blank (the doctype leads with `<`). -/
theorem renderSegs_segsDoc_nonblank (u : Node) :
    isBlankL (renderSegs true (segsDoc u)) = false := by
  apply isBlankL_eq_false (c := '<')
  · rw [segsDoc, show renderSegs true (Seg.sDoctype :: Seg.sBlank ['\n'] ::
        (segsOfN true 0 u ++ [Seg.sBlank ['\n']])) =
      doctypeStr ++ renderSegs true (Seg.sBlank ['\n'] ::
        (segsOfN true 0 u ++ [Seg.sBlank ['\n']])) from rfl]
    apply List.mem_append.mpr
    left
    decide
  · decide

/-- The keep-blanks builder drops blank character data at top level. -/
theorem stepTokKB_blank_top {s : LC} (h : isBlankL s = true) (done : List Node) :
    stepTokKB ([], done) (.chars s) = ([], done) := by
  simp [stepTokKB, h]

/-- The keep-blanks builder keeps all character data inside an element
other than `html` and `head`. -/
theorem stepTokKB_chars_frame (s : LC) {t : LC} (h1 : ¬ t = "html".data)
    (h2 : ¬ t = "head".data) (a : List (LC × LC)) (rk : List Node)
    (fs : List Frame) (done : List Node) :
    stepTokKB (⟨t, a, rk⟩ :: fs, done) (.chars s) =
      (⟨t, a, .text s :: rk⟩ :: fs, done) := by
  simp [stepTokKB, pushN, h1, h2]

/-- The keep-blanks builder still drops blank character data directly
under `html`. -/
theorem stepTokKB_blank_under {s : LC} (h : isBlankL s = true)
    (a : List (LC × LC)) (rk : List Node) (fs : List Frame) (done : List Node) :
    stepTokKB (⟨"html".data, a, rk⟩ :: fs, done) (.chars s) =
      (⟨"html".data, a, rk⟩ :: fs, done) := by
  simp [stepTokKB, h]

/-- Open tags behave as in the blank-dropping builder. -/
theorem stepTokKB_open_push {t : LC} {a : List (LC × LC)} (hnv : ¬ t ∈ voidTags)
    (hnodup : nodupKeys a = true) (fs : List Frame) (done : List Node) :
    stepTokKB (fs, done) (.tagOpen t a false) = (⟨t, a, []⟩ :: fs, done) := by
  rw [show stepTokKB (fs, done) (.tagOpen t a false) =
    stepTok (fs, done) (.tagOpen t a false) from rfl]
  exact stepTok_open_push hnv hnodup fs done

/-- Close tags behave as in the blank-dropping builder. -/
theorem stepTokKB_close_frame (t : LC) (a : List (LC × LC)) (rk : List Node)
    (fs : List Frame) (done : List Node) :
    stepTokKB (⟨t, a, rk⟩ :: fs, done) (.tagClose t) =
      pushN (.elem t a (NodeList.ofList rk.reverse)) fs done := by
  rw [show stepTokKB (⟨t, a, rk⟩ :: fs, done) (.tagClose t) =
    stepTok (⟨t, a, rk⟩ :: fs, done) (.tagClose t) from rfl]
  exact stepTok_close_frame t a rk fs done

mutual

/-- `_process_images` leaves a tree without `img` elements untouched:
same state, same tree, no fetches. -/
theorem processNode_noImg (fetch : FetchOracle) (md5hex : LC → LC) (base : LC) :
    ∀ (st : CreatorState) (n : Node), noTagN "img".data n = true →
      processNode fetch md5hex base st n = (st, n, [])
  | _, .text _, _ => rfl
  | st, .elem t a kids, h => by
      simp only [noTagN, Bool.and_eq_true, Bool.not_eq_true'] at h
      have hne : ¬ (t = "img".data) := by
        intro heq
        rw [heq] at h
        simp at h
      simp only [processNode, if_neg hne,
        processKids_noImg fetch md5hex base st kids h.2]

/-- `processNode_noImg` on a sibling list. -/
theorem processKids_noImg (fetch : FetchOracle) (md5hex : LC → LC) (base : LC) :
    ∀ (st : CreatorState) (K : NodeList), noTagL "img".data K = true →
      processKids fetch md5hex base st K = (st, K, [])
  | _, .nil, _ => rfl
  | st, .cons n ns, h => by
      simp only [noTagL, Bool.and_eq_true] at h
      simp only [processKids, processNode_noImg fetch md5hex base st n h.1,
        processKids_noImg fetch md5hex base st ns h.2, List.nil_append]

end

/-- The placeholder chapter markup is the rendering of its segments. -/
theorem render_chapterSegs {title link : LC} (ht : title.all cleanTextChar = true)
    (hlt : link.all cleanTextChar = true) (hlv : link.all cleanValChar = true) :
    renderSegs true (chapterSegs title link) =
      headerBox title link ++ placeholderText := by
  simp only [chapterSegs, renderSegs, renderSeg, serAttrs, serAttr]
  rw [escapeText_id ht, escapeText_id hlt, escapeAttr_id hlv]
  simp only [headerBox, placeholderText, reduceIte, List.append_assoc,
    List.append_nil, List.nil_append, List.cons_append]
  rfl

/-- The parse of the placeholder chapter markup is a clean document. -/
theorem chapterTree_clean {title link : LC} (ht0 : isBlankL title = false)
    (ht : title.all cleanTextChar = true) (hl0 : isBlankL link = false)
    (hlt : link.all cleanTextChar = true) (hlv : link.all cleanValChar = true) :
    cleanDoc (chapterTree title link) = true := by
  simp +decide [chapterTree, cleanDoc, cleanN, cleanL, cleanAttrsOf, noAdjText,
    NodeList.allHeadOrBody, isHeadOrBody, isTextNode, nodupKeys, List.any_nil,
    ht0, ht, hl0, hlt, hlv]

set_option maxHeartbeats 2000000 in
/-- Parsing the placeholder chapter markup yields `chapterTree`. -/
theorem parse_chapter {title link : LC} (ht0 : isBlankL title = false)
    (ht : title.all cleanTextChar = true) (hl0 : isBlankL link = false)
    (hlt : link.all cleanTextChar = true) (hlv : link.all cleanValChar = true) :
    parseDocument (headerBox title link ++ placeholderText) =
      .ok (chapterTree title link) := by
  have hnb : isBlankL (headerBox title link ++ placeholderText) = false := by
    apply isBlankL_eq_false (c := '<')
    · rw [headerBox]
      simp only [List.append_assoc, List.mem_append]
      exact Or.inl (by decide)
    · decide
  have hsep : sepSegs (chapterSegs title link) = true := rfl
  have hcl : (chapterSegs title link).all cleanSeg = true := by
    simp +decide [chapterSegs, cleanSeg, ht0, ht, hl0, hlt, hlv]
  have hb8 : isBlankL "\n        ".data = true := by decide
  have hb12 : isBlankL "\n            ".data = true := by decide
  have hpf : isBlankL "Failed to extract content.".data = false := by decide
  have hdv : ¬ "div".data ∈ voidTags := by decide
  have hh1 : ¬ "h1".data ∈ voidTags := by decide
  have hpv : ¬ "p".data ∈ voidTags := by decide
  have hav : ¬ "a".data ∈ voidTags := by decide
  have hn0 : nodupKeys ([] : List (LC × LC)) = true := rfl
  have hncls : nodupKeys [("class".data, "header".data)] = true := rfl
  have hnhref : nodupKeys [("href".data, link)] = true := rfl
  have hfold : List.foldl stepTok (([], []) : List Frame × List Node)
      (toksOfSegs (chapterSegs title link)) =
      ([], [.elem "p".data [] (.cons (.text "Failed to extract content.".data) .nil),
            .elem "div".data [("class".data, "header".data)]
              (.cons (.elem "h1".data [] (.cons (.text title) .nil))
               (.cons (.elem "p".data []
                 (.cons (.elem "a".data [("href".data, link)]
                   (.cons (.text link) .nil)) .nil)) .nil))]) := by
    rw [show toksOfSegs (chapterSegs title link) =
      [Tok.chars "\n        ".data,
       Tok.tagOpen "div".data [("class".data, "header".data)] false,
       Tok.chars "\n            ".data,
       Tok.tagOpen "h1".data [] false,
       Tok.chars title,
       Tok.tagClose "h1".data,
       Tok.chars "\n            ".data,
       Tok.tagOpen "p".data [] false,
       Tok.tagOpen "a".data [("href".data, link)] false,
       Tok.chars link,
       Tok.tagClose "a".data,
       Tok.tagClose "p".data,
       Tok.chars "\n        ".data,
       Tok.tagClose "div".data,
       Tok.chars "\n        ".data,
       Tok.tagOpen "p".data [] false,
       Tok.chars "Failed to extract content.".data,
       Tok.tagClose "p".data] from rfl]
    rw [List.foldl_cons, stepTok_blank hb8,
      List.foldl_cons, stepTok_open_push hdv hncls,
      List.foldl_cons, stepTok_blank hb12,
      List.foldl_cons, stepTok_open_push hh1 hn0,
      List.foldl_cons, stepTok_text ht0, pushN_cons,
      List.foldl_cons, stepTok_close_frame, pushN_cons,
      List.foldl_cons, stepTok_blank hb12,
      List.foldl_cons, stepTok_open_push hpv hn0,
      List.foldl_cons, stepTok_open_push hav hnhref,
      List.foldl_cons, stepTok_text hl0, pushN_cons,
      List.foldl_cons, stepTok_close_frame, pushN_cons,
      List.foldl_cons, stepTok_close_frame, pushN_cons,
      List.foldl_cons, stepTok_blank hb8,
      List.foldl_cons, stepTok_close_frame, pushN_nil,
      List.foldl_cons, stepTok_blank hb8,
      List.foldl_cons, stepTok_open_push hpv hn0,
      List.foldl_cons, stepTok_text hpf, pushN_cons,
      List.foldl_cons, stepTok_close_frame, pushN_nil,
      List.foldl_nil]
    rfl
  rw [parseDocument, if_neg (by rw [hnb]; exact Bool.false_ne_true),
    ← render_chapterSegs ht hlt hlv, tokenize_segs hsep hcl,
    show buildNodes (toksOfSegs (chapterSegs title link)) =
      (closeAll (List.foldl stepTok ([], []) (toksOfSegs (chapterSegs title link))).1
        (List.foldl stepTok ([], []) (toksOfSegs (chapterSegs title link))).2).reverse
      from rfl, hfold]
  rfl

/-- `convert` on the placeholder chapter markup: the parse is clean and
contains no deprecated tag, so the output is its pretty-printed
serialization. -/
theorem convert_chapter {title link : LC} (ht0 : isBlankL title = false)
    (ht : title.all cleanTextChar = true) (hl0 : isBlankL link = false)
    (hlt : link.all cleanTextChar = true) (hlv : link.all cleanValChar = true) :
    convert (headerBox title link ++ placeholderText) =
      .ok (renderSegs true (segsDoc (chapterTree title link))) := by
  have h2 := convert_ok_segs (parse_chapter ht0 ht hl0 hlt hlv)
    (segsDoc_clean (chapterTree_clean ht0 ht hl0 hlt hlv))
  rwa [rewriteDoc_id (show noHtml5N (chapterTree title link) = true from rfl)] at h2

set_option maxHeartbeats 2000000 in
/-- The keep-blanks reparse of the pretty-printed chapter serialization. -/
theorem parseKB_chapter {title link : LC} (ht0 : isBlankL title = false)
    (ht : title.all cleanTextChar = true) (hl0 : isBlankL link = false)
    (hlt : link.all cleanTextChar = true) (hlv : link.all cleanValChar = true) :
    parseDocumentKB (renderSegs true (segsDoc (chapterTree title link))) =
      .ok (chapterTreeKB title link) := by
  have hclean := chapterTree_clean ht0 ht hl0 hlt hlv
  have hnb := renderSegs_segsDoc_nonblank (chapterTree title link)
  have hbnl : isBlankL ['\n'] = true := by decide
  have hbnl2 : isBlankL "\n  ".data = true := by decide
  have hhv : ¬ "html".data ∈ voidTags := by decide
  have hbv : ¬ "body".data ∈ voidTags := by decide
  have hdv : ¬ "div".data ∈ voidTags := by decide
  have hh1 : ¬ "h1".data ∈ voidTags := by decide
  have hpv : ¬ "p".data ∈ voidTags := by decide
  have hav : ¬ "a".data ∈ voidTags := by decide
  have hn0 : nodupKeys ([] : List (LC × LC)) = true := rfl
  have hncls : nodupKeys [("class".data, "header".data)] = true := rfl
  have hnhref : nodupKeys [("href".data, link)] = true := rfl
  have hbn1 : ¬ "body".data = "html".data := by decide
  have hbn2 : ¬ "body".data = "head".data := by decide
  have hdn1 : ¬ "div".data = "html".data := by decide
  have hdn2 : ¬ "div".data = "head".data := by decide
  have hhn1 : ¬ "h1".data = "html".data := by decide
  have hhn2 : ¬ "h1".data = "head".data := by decide
  have hpn1 : ¬ "p".data = "html".data := by decide
  have hpn2 : ¬ "p".data = "head".data := by decide
  have han1 : ¬ "a".data = "html".data := by decide
  have han2 : ¬ "a".data = "head".data := by decide
  have hfold : List.foldl stepTokKB (([], []) : List Frame × List Node)
      (toksOfSegs (segsDoc (chapterTree title link))) =
      ([], [chapterTreeKB title link]) := by
    rw [show toksOfSegs (segsDoc (chapterTree title link)) =
      [Tok.chars ['\n'],
       Tok.tagOpen "html".data [] false,
       Tok.chars "\n  ".data,
       Tok.tagOpen "body".data [] false,
       Tok.chars "\n    ".data,
       Tok.tagOpen "div".data [("class".data, "header".data)] false,
       Tok.chars "\n      ".data,
       Tok.tagOpen "h1".data [] false,
       Tok.chars title,
       Tok.tagClose "h1".data,
       Tok.chars "\n      ".data,
       Tok.tagOpen "p".data [] false,
       Tok.chars "\n        ".data,
       Tok.tagOpen "a".data [("href".data, link)] false,
       Tok.chars link,
       Tok.tagClose "a".data,
       Tok.chars "\n      ".data,
       Tok.tagClose "p".data,
       Tok.chars "\n    ".data,
       Tok.tagClose "div".data,
       Tok.chars "\n    ".data,
       Tok.tagOpen "p".data [] false,
       Tok.chars "Failed to extract content.".data,
       Tok.tagClose "p".data,
       Tok.chars "\n  ".data,
       Tok.tagClose "body".data,
       Tok.chars ['\n'],
       Tok.tagClose "html".data,
       Tok.chars ['\n']] from rfl]
    rw [List.foldl_cons, stepTokKB_blank_top hbnl,
      List.foldl_cons, stepTokKB_open_push hhv hn0,
      List.foldl_cons, stepTokKB_blank_under hbnl2,
      List.foldl_cons, stepTokKB_open_push hbv hn0,
      List.foldl_cons, stepTokKB_chars_frame _ hbn1 hbn2,
      List.foldl_cons, stepTokKB_open_push hdv hncls,
      List.foldl_cons, stepTokKB_chars_frame _ hdn1 hdn2,
      List.foldl_cons, stepTokKB_open_push hh1 hn0,
      List.foldl_cons, stepTokKB_chars_frame _ hhn1 hhn2,
      List.foldl_cons, stepTokKB_close_frame, pushN_cons,
      List.foldl_cons, stepTokKB_chars_frame _ hdn1 hdn2,
      List.foldl_cons, stepTokKB_open_push hpv hn0,
      List.foldl_cons, stepTokKB_chars_frame _ hpn1 hpn2,
      List.foldl_cons, stepTokKB_open_push hav hnhref,
      List.foldl_cons, stepTokKB_chars_frame _ han1 han2,
      List.foldl_cons, stepTokKB_close_frame, pushN_cons,
      List.foldl_cons, stepTokKB_chars_frame _ hpn1 hpn2,
      List.foldl_cons, stepTokKB_close_frame, pushN_cons,
      List.foldl_cons, stepTokKB_chars_frame _ hdn1 hdn2,
      List.foldl_cons, stepTokKB_close_frame, pushN_cons,
      List.foldl_cons, stepTokKB_chars_frame _ hbn1 hbn2,
      List.foldl_cons, stepTokKB_open_push hpv hn0,
      List.foldl_cons, stepTokKB_chars_frame _ hpn1 hpn2,
      List.foldl_cons, stepTokKB_close_frame, pushN_cons,
      List.foldl_cons, stepTokKB_chars_frame _ hbn1 hbn2,
      List.foldl_cons, stepTokKB_close_frame, pushN_cons,
      List.foldl_cons, stepTokKB_blank_under hbnl,
      List.foldl_cons, stepTokKB_close_frame, pushN_nil,
      List.foldl_cons, stepTokKB_blank_top hbnl,
      List.foldl_nil]
    rfl
  rw [parseDocumentKB, if_neg (by rw [hnb]; exact Bool.false_ne_true),
    tokenize_segs (sepSegs_segsDoc hclean) (segsDoc_clean hclean),
    show buildNodesKB (toksOfSegs (segsDoc (chapterTree title link))) =
      (closeAll (List.foldl stepTokKB ([], [])
          (toksOfSegs (segsDoc (chapterTree title link)))).1
        (List.foldl stepTokKB ([], [])
          (toksOfSegs (segsDoc (chapterTree title link)))).2).reverse from rfl,
    hfold]
  rfl

/-- The inline reserialization of the keep-blanks chapter tree, split at
the title and link splices. -/
theorem serKB_split (u v : LC) :
    serNode false false 0 (chapterTreeKB u v) =
      "<html><body>\n    <div class=\"header\">\n      <h1>".data ++
      (escapeText u ++
       ("</h1>\n      <p>\n        <a href=\"".data ++
        (escapeAttr v ++
         ("\">".data ++
          (escapeText v ++
           ("</a>\n      </p>\n    </div>\n    <p>Failed to extract content.</p>\n  </body></html>".data)))))) := by
  simp only [chapterTreeKB, serNode, serKids, serAttrs, serAttr, Bool.false_and,
    Bool.false_eq_true, if_false, reduceIte, List.append_assoc, List.append_nil,
    List.nil_append, List.cons_append]
  rfl

end SegMachinery

set_option maxRecDepth 100000 in
set_option maxHeartbeats 4000000 in
/-- Claim C8, counterexample: on the input `<article class="x">hi</article>`
the normalizer emits a `div` carrying two `class` attributes, which is not
well-formed strict markup (`wfDoc` rejects the duplicate attribute name). -/
theorem c8_counterexample :
    ∃ y, convert "<article class=\"x\">hi</article>".data = .ok y ∧
      wfDoc y = false := by
  refine ⟨("<!DOCTYPE html PUBLIC \"-//W3C//DTD XHTML 1.1//EN\" " ++
    "\"http://www.w3.org/TR/xhtml11/DTD/xhtml11.dtd\">\n<html>\n  <body>\n    " ++
    "<div class=\"article\" class=\"x\">hi</div>\n  </body>\n</html>\n").data, ?_, ?_⟩
  · decide
  · decide

/-- Claim C8, amended: for every input whose parse is a clean document —
in particular, no deprecated-tag element already carries a `class`
attribute — the normalizer's output is the serialization of the
deprecated-tag tree rewrite (each listed element becomes a `div` whose
leading `class` attribute is the original tag name), that output is
well-formed strict markup, and the rewritten tree contains no element
from the deprecated-tag set. -/
theorem c8_amended_clean_valid {s : LC} {t : Node}
    (hparse : parseDocument s = .ok t) (hclean : cleanDoc t = true) :
    convert s = .ok (renderSegs true (segsDoc (rewriteDoc t))) ∧
    wfDoc (renderSegs true (segsDoc (rewriteDoc t))) = true ∧
    noHtml5N (rewriteDoc t) = true :=
  ⟨convert_ok_segs hparse (segsDoc_clean hclean),
   wfDoc_render (cleanDoc_rewriteDoc hclean),
   noHtml5_rewriteDoc t⟩

set_option maxRecDepth 100000 in
set_option maxHeartbeats 4000000 in
/-- Claim C8, witness: the amended theorem applied to the concrete input
`<article id="a">hi</article>`. -/
theorem c8_amended_clean_valid_witness :
    parseDocument "<article id=\"a\">hi</article>".data = .ok c8wT ∧
    cleanDoc c8wT = true ∧
    (convert "<article id=\"a\">hi</article>".data =
        .ok (renderSegs true (segsDoc (rewriteDoc c8wT))) ∧
      wfDoc (renderSegs true (segsDoc (rewriteDoc c8wT))) = true ∧
      noHtml5N (rewriteDoc c8wT) = true) :=
  ⟨by decide, by decide, c8_amended_clean_valid (by decide) (by decide)⟩

set_option maxRecDepth 100000 in
set_option maxHeartbeats 4000000 in
/-- Claim C1, counterexample: the normalizer is not idempotent on every
fragment.  On `<article class="x">hi</article>` the first pass emits a
`div` with two `class` attributes; reparsing that output drops the
duplicate (libxml2 keeps the first occurrence), so the second pass
returns a different string. -/
theorem c1_counterexample :
    ∃ y z, convert "<article class=\"x\">hi</article>".data = .ok y ∧
      convert y = .ok z ∧ z ≠ y := by
  refine ⟨("<!DOCTYPE html PUBLIC \"-//W3C//DTD XHTML 1.1//EN\" " ++
      "\"http://www.w3.org/TR/xhtml11/DTD/xhtml11.dtd\">\n<html>\n  <body>\n    " ++
      "<div class=\"article\" class=\"x\">hi</div>\n  </body>\n</html>\n").data,
    ("<!DOCTYPE html PUBLIC \"-//W3C//DTD XHTML 1.1//EN\" " ++
      "\"http://www.w3.org/TR/xhtml11/DTD/xhtml11.dtd\">\n<html>\n  <body>\n    " ++
      "<div class=\"article\">hi</div>\n  </body>\n</html>\n").data, ?_, ?_, ?_⟩
  · decide
  · decide
  · decide

/-- Claim C1, amended: for every input whose parse is a clean document —
in particular, no deprecated-tag element already carries a `class`
attribute — the normalizer's output is a fixed point: `convert`
succeeds on it and returns it unchanged, so normalization is idempotent
on such inputs. -/
theorem c1_amended_idempotent_clean {s : LC} {t : Node}
    (hparse : parseDocument s = .ok t) (hclean : cleanDoc t = true) :
    ∃ y, convert s = .ok y ∧ convert y = .ok y := by
  refine ⟨renderSegs true (segsDoc (rewriteDoc t)),
    convert_ok_segs hparse (segsDoc_clean hclean), ?_⟩
  have h2 : cleanDoc (rewriteDoc t) = true := cleanDoc_rewriteDoc hclean
  have h3 := convert_ok_segs (parse_render h2) (segsDoc_clean h2)
  rw [rewriteDoc_id (noHtml5_rewriteDoc t)] at h3
  exact h3

set_option maxRecDepth 100000 in
set_option maxHeartbeats 4000000 in
/-- Claim C1, witness: the amended theorem applied to the concrete input
`<article id="a">hi</article>`, whose parse is the clean document
`c8wT`. -/
theorem c1_amended_idempotent_clean_witness :
    parseDocument "<article id=\"a\">hi</article>".data = .ok c8wT ∧
    cleanDoc c8wT = true ∧
    (∃ y, convert "<article id=\"a\">hi</article>".data = .ok y ∧ convert y = .ok y) :=
  ⟨by decide, by decide, c1_amended_idempotent_clean (t := c8wT) (by decide) (by decide)⟩

set_option maxRecDepth 100000 in
set_option maxHeartbeats 4000000 in
/-- Claim C7, counterexample: the chapter body does not in general contain
the item title.  For the title `a&b` the serializer escapes the ampersand,
so the body contains `a&amp;b` and the title never appears verbatim. -/
theorem c7_counterexample :
    ∃ r, create_chapter (fun _ => none) (fun _ => [])
        (fun _ => none) ⟨[], []⟩ ⟨"a&b".data, "http://e/x".data, []⟩ = .ok r ∧
      ¬ List.IsInfix "a&b".data r.2.1.content := by
  refine ⟨(⟨[], []⟩,
    { title := "a&b".data,
      file_name := "a-b.xhtml".data,
      lang := "en".data,
      content := ("<html><body>\n    <div class=\"header\">\n      " ++
        "<h1>a&amp;b</h1>\n      <p>\n        <a href=\"http://e/x\">http://e/x</a>\n" ++
        "      </p>\n    </div>\n    <p>Failed to extract content.</p>\n  " ++
        "</body></html>").data },
    []), ?_, ?_⟩
  · decide
  · decide

set_option maxHeartbeats 2000000 in
/-- Claim C7, amended: for every feed item whose title and link are free of
markup metacharacters (and non-blank), when extraction returns no content
the produced chapter succeeds and its body contains the placeholder
paragraph `<p>Failed to extract content.</p>`, the item title, and an
`href` attribute holding the item link — never an empty body.  In general
the title appears only in escaped form (see the counterexample). -/
theorem c7_amended_placeholder_chapter (fetch : FetchOracle) (md5hex : LC → LC)
    (extractO : LC → Option LC) (st : CreatorState) (item : FeedItem)
    (hnone : extractO item.link = none)
    (ht0 : isBlankL item.title = false) (ht : item.title.all cleanTextChar = true)
    (hl0 : isBlankL item.link = false) (hlt : item.link.all cleanTextChar = true)
    (hlv : item.link.all cleanValChar = true) :
    ∃ r, create_chapter fetch md5hex extractO st item = .ok r ∧
      r.2.1.content ≠ [] ∧
      List.IsInfix placeholderText r.2.1.content ∧
      List.IsInfix item.title r.2.1.content ∧
      List.IsInfix ("href=\"".data ++ item.link ++ ['"']) r.2.1.content := by
  have hsr : strReplace "<graphic".data "<img".data placeholderText =
      placeholderText := by decide
  have hbt : startsWithBlockTag placeholderText = true := by decide
  have hcc : create_chapter fetch md5hex extractO st item =
      .ok (st, { title := item.title,
                 file_name := slugify item.title ++ ".xhtml".data,
                 lang := "en".data,
                 content := serNode false false 0 (chapterTreeKB item.title item.link) },
           []) := by
    simp only [create_chapter, hnone, hsr, hbt, if_true, reduceIte,
      convert_chapter ht0 ht hl0 hlt hlv, process_images,
      parseKB_chapter ht0 ht hl0 hlt hlv,
      processNode_noImg fetch md5hex item.link st
        (chapterTreeKB item.title item.link) rfl]
  rw [serKB_split, escapeText_id ht, escapeAttr_id hlv, escapeText_id hlt] at hcc
  have key : ∀ content : LC,
      content =
        "<html><body>\n    <div class=\"header\">\n      <h1>".data ++
        (item.title ++
         ("</h1>\n      <p>\n        <a href=\"".data ++
          (item.link ++
           ("\">".data ++
            (item.link ++
             ("</a>\n      </p>\n    </div>\n    <p>Failed to extract content.</p>\n  </body></html>".data)))))) →
      content ≠ [] ∧ List.IsInfix placeholderText content ∧
      List.IsInfix item.title content ∧
      List.IsInfix ("href=\"".data ++ item.link ++ ['"']) content := by
    intro content hceq
    subst hceq
    refine ⟨?_, ?_, ?_, ?_⟩
    · simp only [ne_eq, List.append_eq_nil]
      intro h
      exact absurd h.1 (by decide)
    · have hc4 : ("</a>\n      </p>\n    </div>\n    <p>Failed to extract content.</p>\n  </body></html>".data : LC) =
          "</a>\n      </p>\n    </div>\n    ".data ++
            (placeholderText ++ "\n  </body></html>".data) := by
        decide
      rw [hc4]
      refine ⟨"<html><body>\n    <div class=\"header\">\n      <h1>".data ++
          (item.title ++
           ("</h1>\n      <p>\n        <a href=\"".data ++
            (item.link ++
             ("\">".data ++
              (item.link ++ "</a>\n      </p>\n    </div>\n    ".data))))),
        "\n  </body></html>".data, ?_⟩
      simp [List.append_assoc]
    · refine ⟨"<html><body>\n    <div class=\"header\">\n      <h1>".data,
        "</h1>\n      <p>\n        <a href=\"".data ++
          (item.link ++
           ("\">".data ++
            (item.link ++
             ("</a>\n      </p>\n    </div>\n    <p>Failed to extract content.</p>\n  </body></html>".data)))), ?_⟩
      simp [List.append_assoc]
    · have hc2 : ("</h1>\n      <p>\n        <a href=\"".data : LC) =
          "</h1>\n      <p>\n        <a ".data ++ "href=\"".data := by decide
      have hc3 : ("\">".data : LC) = ['"'] ++ ['>'] := by decide
      rw [hc2, hc3]
      refine ⟨"<html><body>\n    <div class=\"header\">\n      <h1>".data ++
          (item.title ++ "</h1>\n      <p>\n        <a ".data),
        ['>'] ++
          (item.link ++
           ("</a>\n      </p>\n    </div>\n    <p>Failed to extract content.</p>\n  </body></html>".data)), ?_⟩
      simp [List.append_assoc]
  exact ⟨_, hcc, key _ rfl⟩

set_option maxRecDepth 100000 in
set_option maxHeartbeats 4000000 in
/-- Claim C7, witness: the amended theorem applied to the item titled `T`
linking to `http://e/x`, with an extractor that returns nothing. -/
theorem c7_amended_placeholder_chapter_witness :
    ((fun _ => none : LC → Option LC) "http://e/x".data = none) ∧
    isBlankL "T".data = false ∧ ("T".data).all cleanTextChar = true ∧
    isBlankL "http://e/x".data = false ∧
    ("http://e/x".data).all cleanTextChar = true ∧
    ("http://e/x".data).all cleanValChar = true ∧
    (∃ r, create_chapter (fun _ => none) (fun _ => [])
        (fun _ => none) ⟨[], []⟩ ⟨"T".data, "http://e/x".data, []⟩ = .ok r ∧
      r.2.1.content ≠ [] ∧
      List.IsInfix placeholderText r.2.1.content ∧
      List.IsInfix "T".data r.2.1.content ∧
      List.IsInfix ("href=\"".data ++ "http://e/x".data ++ ['"']) r.2.1.content) :=
  ⟨rfl, by decide, by decide, by decide, by decide, by decide,
   c7_amended_placeholder_chapter (fun _ => none) (fun _ => []) (fun _ => none)
     ⟨[], []⟩ ⟨"T".data, "http://e/x".data, []⟩ rfl (by decide) (by decide)
     (by decide) (by decide) (by decide)⟩

/-- Claim C9: when the item limit passed to feed-item retrieval is falsy
(`0` or `None`), no truncation is applied and every feed entry is
returned — a limit of `0` yields every entry, not zero entries. -/
theorem c9_falsy_limit_returns_all (entries : List FeedEntry) :
    get_feed_items entries (some 0) =
      entries.map (fun e => ⟨e.title, e.link, e.published⟩) ∧
    get_feed_items entries none =
      entries.map (fun e => ⟨e.title, e.link, e.published⟩) := by
  constructor <;> simp [get_feed_items]

/-- Claim C4, counterexample: not every garbage input is tolerated —
`convert` raises on the empty input (`ValueError` wrapping lxml's
`Document is empty`) and on the comment-only input `<!-- c -->`, whose
parse is a rootless document so serializing its root raises a `TypeError`
re-raised as `ValueError`. -/
theorem c4_counterexample :
    convert [] = .error "Error converting to XHTML: Document is empty".data ∧
    convert "<!-- c -->".data =
      .error "Error converting to XHTML: Type 'NoneType' cannot be serialized.".data := by
  exact ⟨by decide, by decide⟩

/-- Claim C4, amended: `convert` succeeds exactly on inputs whose parse
yields at least one root node — it rejects blank inputs (lxml's
empty-document error) and content-free inputs such as comments, doctypes
or stray closing tags alone (rootless document, `tostring(None)` raises);
every input that parses to some element or character content — garbage
included — is tolerated and converted into a document. -/
theorem c4_amended_content_required (s : LC) :
    (convert s).isOk = !(buildNodes (tokenize s)).isEmpty :=
  convert_isOk s

/-- Claim C5 (code bug): two feed items with identical titles but
different links produce chapters with the same file name
`same-title.xhtml` — the slug is derived from the title alone and no
disambiguation is applied, so the second chapter silently collides with
the first. -/
theorem c5_identical_titles_identical_filenames (fetch : FetchOracle)
    (md5hex : LC → LC) (extractO : LC → Option LC) (st1 st2 : CreatorState) :
    ∃ r1 r2,
      create_chapter fetch md5hex extractO st1
        ⟨"Same Title".data, "http://example.com/first".data, "d1".data⟩ = .ok r1 ∧
      create_chapter fetch md5hex extractO st2
        ⟨"Same Title".data, "http://example.com/second".data, "d2".data⟩ = .ok r2 ∧
      r1.2.1.file_name = "same-title.xhtml".data ∧
      r2.2.1.file_name = "same-title.xhtml".data := by
  obtain ⟨r1, h1, _, hf1, _⟩ := create_chapter_ok fetch md5hex extractO st1
    ⟨"Same Title".data, "http://example.com/first".data, "d1".data⟩
  obtain ⟨r2, h2, _, hf2, _⟩ := create_chapter_ok fetch md5hex extractO st2
    ⟨"Same Title".data, "http://example.com/second".data, "d2".data⟩
  refine ⟨r1, r2, h1, h2, ?_, ?_⟩
  · rw [hf1]; decide
  · rw [hf2]; decide

/-- Claim C2: within one build, two image references resolving to the same
absolute URL trigger exactly one network fetch, both are localized to the
identical name, and the cache holds exactly one entry for that URL. -/
theorem c2_same_url_single_fetch (fetch : FetchOracle) (md5hex : LC → LC)
    (st0 : CreatorState) (r1 r2 base u : LC) (data : List Nat)
    (hu1 : urljoin base r1 = u) (hu2 : urljoin base r2 = u)
    (hfetch : fetch u = some data)
    (hmiss : lookupD u st0.downloadedImages = none) :
    ∃ name,
      (download_image fetch md5hex st0 r1 base).2.1 = some (name, data) ∧
      (download_image fetch md5hex
        (download_image fetch md5hex st0 r1 base).1 r2 base).2.1 = some (name, data) ∧
      (download_image fetch md5hex st0 r1 base).2.2 ++
        (download_image fetch md5hex
          (download_image fetch md5hex st0 r1 base).1 r2 base).2.2 = [u] ∧
      ((download_image fetch md5hex
          (download_image fetch md5hex st0 r1 base).1 r2 base).1.downloadedImages.filter
        (fun p => p.1 = u)).length = 1 := by
  have hfind : st0.downloadedImages.find? (fun p => p.1 = u) = none := by
    simpa [lookupD] using hmiss
  have h1 : download_image fetch md5hex st0 r1 base =
      ({ downloadedImages := st0.downloadedImages ++
           [(u, ("images/".data ++ ('i' :: md5hex u) ++ (get_image_info data).1, data))],
         bookItems := st0.bookItems ++
           [⟨'i' :: md5hex u, "images/".data ++ ('i' :: md5hex u) ++ (get_image_info data).1,
             (get_image_info data).2, data⟩] },
       some ("images/".data ++ ('i' :: md5hex u) ++ (get_image_info data).1, data), [u]) := by
    unfold download_image
    rw [hu1]
    simp only [hmiss, hfetch]
  have hlook2 : lookupD u (st0.downloadedImages ++
      [(u, ("images/".data ++ ('i' :: md5hex u) ++ (get_image_info data).1, data))]) =
      some ("images/".data ++ ('i' :: md5hex u) ++ (get_image_info data).1, data) := by
    unfold lookupD
    rw [find?_append_of_none hfind]
    simp [List.find?_cons]
  have h2 : download_image fetch md5hex
      ({ downloadedImages := st0.downloadedImages ++
           [(u, ("images/".data ++ ('i' :: md5hex u) ++ (get_image_info data).1, data))],
         bookItems := st0.bookItems ++
           [⟨'i' :: md5hex u, "images/".data ++ ('i' :: md5hex u) ++ (get_image_info data).1,
             (get_image_info data).2, data⟩] } : CreatorState) r2 base =
      ({ downloadedImages := st0.downloadedImages ++
           [(u, ("images/".data ++ ('i' :: md5hex u) ++ (get_image_info data).1, data))],
         bookItems := st0.bookItems ++
           [⟨'i' :: md5hex u, "images/".data ++ ('i' :: md5hex u) ++ (get_image_info data).1,
             (get_image_info data).2, data⟩] },
       some ("images/".data ++ ('i' :: md5hex u) ++ (get_image_info data).1, data), []) := by
    unfold download_image
    rw [hu2]
    simp only [hlook2]
  refine ⟨"images/".data ++ ('i' :: md5hex u) ++ (get_image_info data).1, ?_, ?_, ?_, ?_⟩
  · simp only [h1]
  · simp only [h1, h2]
  · simp only [h1, h2]
    simp
  · simp only [h1, h2]
    rw [List.filter_append, filter_eq_nil_of_find?_none hfind]
    simp [List.filter_cons]

/-- Witness for C2: two distinct references (`i.png` and `/a/i.png`)
resolving to the same absolute URL on a concrete successful oracle. -/
theorem c2_same_url_single_fetch_witness :
    ∃ name,
      (download_image
        (fun v => if v = "http://h.example/a/i.png".data then some [137] else none)
        (fun _ => "f00".data) ⟨[], []⟩ "i.png".data "http://h.example/a/page.html".data).2.1 =
        some (name, [137]) ∧
      (download_image
        (fun v => if v = "http://h.example/a/i.png".data then some [137] else none)
        (fun _ => "f00".data)
        (download_image
          (fun v => if v = "http://h.example/a/i.png".data then some [137] else none)
          (fun _ => "f00".data) ⟨[], []⟩ "i.png".data
          "http://h.example/a/page.html".data).1
        "/a/i.png".data "http://h.example/a/page.html".data).2.1 = some (name, [137]) ∧
      (download_image
        (fun v => if v = "http://h.example/a/i.png".data then some [137] else none)
        (fun _ => "f00".data) ⟨[], []⟩ "i.png".data "http://h.example/a/page.html".data).2.2 ++
        (download_image
          (fun v => if v = "http://h.example/a/i.png".data then some [137] else none)
          (fun _ => "f00".data)
          (download_image
            (fun v => if v = "http://h.example/a/i.png".data then some [137] else none)
            (fun _ => "f00".data) ⟨[], []⟩ "i.png".data
            "http://h.example/a/page.html".data).1
          "/a/i.png".data "http://h.example/a/page.html".data).2.2 =
        ["http://h.example/a/i.png".data] ∧
      ((download_image
          (fun v => if v = "http://h.example/a/i.png".data then some [137] else none)
          (fun _ => "f00".data)
          (download_image
            (fun v => if v = "http://h.example/a/i.png".data then some [137] else none)
            (fun _ => "f00".data) ⟨[], []⟩ "i.png".data
            "http://h.example/a/page.html".data).1
          "/a/i.png".data
          "http://h.example/a/page.html".data).1.downloadedImages.filter
        (fun p => p.1 = "http://h.example/a/i.png".data)).length = 1 :=
  c2_same_url_single_fetch
    (fun v => if v = "http://h.example/a/i.png".data then some [137] else none)
    (fun _ => "f00".data) ⟨[], []⟩ "i.png".data "/a/i.png".data
    "http://h.example/a/page.html".data "http://h.example/a/i.png".data [137]
    (by decide) (by decide) (by decide) (by decide)

/-- Claim C10: a failed image download leaves the creator state (cache and
book items) completely unchanged and returns `None`; a subsequent call for
the same URL therefore performs a fresh fetch attempt. -/
theorem c10_failed_download_leaves_cache (fetch : FetchOracle) (md5hex : LC → LC)
    (st0 : CreatorState) (r base u : LC)
    (hu : urljoin base r = u) (hfail : fetch u = none)
    (hmiss : lookupD u st0.downloadedImages = none) :
    download_image fetch md5hex st0 r base = (st0, none, [u]) ∧
    (download_image fetch md5hex
      (download_image fetch md5hex st0 r base).1 r base).2.2 = [u] := by
  have h1 : download_image fetch md5hex st0 r base = (st0, none, [u]) := by
    unfold download_image
    rw [hu]
    simp only [hmiss, hfail]
  refine ⟨h1, ?_⟩
  rw [h1]
  unfold download_image
  rw [hu]
  simp only [hmiss, hfail]

section C3Machinery

/-- Setting an attribute makes it readable. -/
theorem getAttr_setAttr (k v : LC) (l : List (LC × LC)) :
    getAttr k (setAttr k v l) = some v := by
  induction l with
  | nil => simp [setAttr, getAttr, List.find?]
  | cons a rest ih =>
      by_cases h : a.1 = k
      · simp [setAttr, h, getAttr, List.find?]
      · simp only [setAttr, h, if_false, ite_false]
        simpa [getAttr, List.find?_cons_of_neg, h] using ih

/-- A cache lookup survives appending further entries. -/
theorem lookupD_mono {k : LC} {d tail : List (LC × (LC × List Nat))} {x : LC × List Nat}
    (h : lookupD k d = some x) : lookupD k (d ++ tail) = some x := by
  unfold lookupD at h ⊢
  cases hf : d.find? (fun p => p.1 = k) with
  | none => rw [hf] at h; cases h
  | some y =>
      rw [hf] at h
      rw [find?_append_of_some hf]
      exact h

/-- `_download_image` only appends to the cache. -/
theorem download_image_cache_mono (fetch : FetchOracle) (md5hex : LC → LC)
    (st : CreatorState) (v base : LC) :
    ∃ tail, (download_image fetch md5hex st v base).1.downloadedImages =
      st.downloadedImages ++ tail := by
  unfold download_image
  cases hl : lookupD (urljoin base v) st.downloadedImages with
  | some fd => simp only [hl]; exact ⟨[], by simp⟩
  | none =>
      cases hf : fetch (urljoin base v) with
      | none => simp only [hl, hf]; exact ⟨[], by simp⟩
      | some d => simp only [hl, hf]; exact ⟨_, rfl⟩

/-- A successful `_download_image` leaves the returned pair visible in the
cache under the resolved URL. -/
theorem download_image_lookup_of_some {fetch : FetchOracle} {md5hex : LC → LC}
    {st st2 : CreatorState} {v base : LC} {fd : LC × List Nat} {log : List LC}
    (h : download_image fetch md5hex st v base = (st2, some fd, log)) :
    lookupD (urljoin base v) st2.downloadedImages = some fd := by
  unfold download_image at h
  cases hl : lookupD (urljoin base v) st.downloadedImages with
  | some fd0 =>
      simp only [hl] at h
      injection h with h1 h2
      injection h2 with h2a _
      subst h1
      rw [hl]
      exact h2a
  | none =>
      cases hf : fetch (urljoin base v) with
      | none => simp only [hl, hf] at h; injection h with _ h2; injection h2 with h2a _; cases h2a
      | some d =>
          simp only [hl, hf] at h
          have hfind : st.downloadedImages.find? (fun p => p.1 = urljoin base v) = none := by
            simpa [lookupD] using hl
          injection h with h1 h2
          injection h2 with h2a _
          subst h1
          have hfd := Option.some.inj h2a
          subst hfd
          unfold lookupD
          rw [find?_append_of_none hfind]
          simp [List.find?_cons]

/-- `srcOutcome` is monotone in the final cache. -/
theorem srcOutcome_mono {base : LC} {st1 st2 : CreatorState} {s s2 : Option LC}
    (hmono : ∃ tail, st2.downloadedImages = st1.downloadedImages ++ tail)
    (h : srcOutcome base st1 s s2) : srcOutcome base st2 s s2 := by
  cases h with
  | inl h => exact Or.inl h
  | inr h =>
      obtain ⟨v, fn, data, h1, h2, h3⟩ := h
      obtain ⟨tail, htail⟩ := hmono
      exact Or.inr ⟨v, fn, data, h1, h2, by rw [htail]; exact lookupD_mono h3⟩

mutual

/-- `_process_images` traversal only appends to the cache (node case). -/
theorem processNode_cache_mono (fetch : FetchOracle) (md5hex : LC → LC) (base : LC) :
    ∀ (st : CreatorState) (t : Node),
      ∃ tail, (processNode fetch md5hex base st t).1.downloadedImages =
        st.downloadedImages ++ tail
  | st, .text s => ⟨[], by simp [processNode]⟩
  | st, .elem t a kids => by
      unfold processNode
      by_cases ht : t = "img".data
      · simp only [ht, if_true, reduceIte]
        cases hg : getAttr "src".data a with
        | none => exact processKids_cache_mono fetch md5hex base st kids
        | some src =>
            by_cases he : src.isEmpty
            · simp only [he, if_true, reduceIte]
              exact processKids_cache_mono fetch md5hex base st kids
            · simp only [he, if_false, Bool.false_eq_true, reduceIte]
              obtain ⟨t1, h1⟩ := download_image_cache_mono fetch md5hex st src base
              obtain ⟨t2, h2⟩ := processKids_cache_mono fetch md5hex base
                (download_image fetch md5hex st src base).1 kids
              exact ⟨t1 ++ t2, by rw [h2, h1, List.append_assoc]⟩
      · simp only [ht, if_false, reduceIte]
        exact processKids_cache_mono fetch md5hex base st kids

/-- `_process_images` traversal only appends to the cache (list case). -/
theorem processKids_cache_mono (fetch : FetchOracle) (md5hex : LC → LC) (base : LC) :
    ∀ (st : CreatorState) (ts : NodeList),
      ∃ tail, (processKids fetch md5hex base st ts).1.downloadedImages =
        st.downloadedImages ++ tail
  | st, .nil => ⟨[], by simp [processKids]⟩
  | st, .cons n ns => by
      unfold processKids
      obtain ⟨t1, h1⟩ := processNode_cache_mono fetch md5hex base st n
      obtain ⟨t2, h2⟩ := processKids_cache_mono fetch md5hex base
        (processNode fetch md5hex base st n).1 ns
      exact ⟨t1 ++ t2, by rw [h2, h1, List.append_assoc]⟩

end

mutual

/-- Per-image outcome of the `_process_images` traversal (node case): the
output tree has the same image references, each left unchanged or
rewritten to the cached localized name of its resolved URL. -/
theorem processNode_srcs (fetch : FetchOracle) (md5hex : LC → LC) (base : LC) :
    ∀ (st : CreatorState) (t : Node),
      List.Forall₂ (srcOutcome base (processNode fetch md5hex base st t).1)
        (imgSrcsN t) (imgSrcsN (processNode fetch md5hex base st t).2.1)
  | st, .text s => by
      simp only [processNode, imgSrcsN]
      exact List.Forall₂.nil
  | st, .elem t a kids => by
      unfold processNode
      by_cases ht : t = "img".data
      · simp only [ht, reduceIte]
        cases hg : getAttr "src".data a with
        | none =>
            simp only [imgSrcsN, ht, reduceIte, hg, List.singleton_append]
            exact List.Forall₂.cons (Or.inl rfl)
              (processKids_srcs fetch md5hex base st kids)
        | some src =>
            by_cases he : src.isEmpty
            · simp only [he, reduceIte]
              simp only [imgSrcsN, ht, reduceIte, List.singleton_append]
              exact List.Forall₂.cons (Or.inl rfl)
                (processKids_srcs fetch md5hex base st kids)
            · simp only [he, Bool.false_eq_true, reduceIte]
              cases hres : (download_image fetch md5hex st src base).2.1 with
              | none =>
                  simp only [hres]
                  simp only [imgSrcsN, ht, reduceIte, List.singleton_append, hg]
                  exact List.Forall₂.cons (Or.inl rfl)
                    (processKids_srcs fetch md5hex base
                      (download_image fetch md5hex st src base).1 kids)
              | some fd =>
                  simp only [hres]
                  simp only [imgSrcsN, ht, reduceIte, List.singleton_append, hg,
                    getAttr_setAttr]
                  have hdi : download_image fetch md5hex st src base =
                      ((download_image fetch md5hex st src base).1, some fd,
                       (download_image fetch md5hex st src base).2.2) := by
                    rw [← hres]
                  have hlk := download_image_lookup_of_some hdi
                  obtain ⟨tail, htail⟩ := processKids_cache_mono fetch md5hex base
                    (download_image fetch md5hex st src base).1 kids
                  refine List.Forall₂.cons (Or.inr ⟨src, fd.1, fd.2, rfl, rfl, ?_⟩)
                    (processKids_srcs fetch md5hex base
                      (download_image fetch md5hex st src base).1 kids)
                  rw [htail]
                  exact lookupD_mono hlk
      · simp only [ht, reduceIte]
        simp only [imgSrcsN, ht, reduceIte, List.nil_append]
        exact processKids_srcs fetch md5hex base st kids

/-- Per-image outcome of the `_process_images` traversal (list case). -/
theorem processKids_srcs (fetch : FetchOracle) (md5hex : LC → LC) (base : LC) :
    ∀ (st : CreatorState) (ts : NodeList),
      List.Forall₂ (srcOutcome base (processKids fetch md5hex base st ts).1)
        (imgSrcsL ts) (imgSrcsL (processKids fetch md5hex base st ts).2.1)
  | st, .nil => by
      simp only [processKids, imgSrcsL]
      exact List.Forall₂.nil
  | st, .cons n ns => by
      unfold processKids
      simp only [imgSrcsL]
      refine List.rel_append ?_ ?_
      · refine List.Forall₂.imp ?_ (processNode_srcs fetch md5hex base st n)
        intro s s2 h
        exact srcOutcome_mono (processKids_cache_mono fetch md5hex base
          (processNode fetch md5hex base st n).1 ns) h
      · exact processKids_srcs fetch md5hex base
          (processNode fetch md5hex base st n).1 ns

end

end C3Machinery

set_option maxHeartbeats 2000000 in
/-- `buildChapters` always succeeds and produces one chapter per item, in
order, titled by the items. -/
theorem buildChapters_ok (fetch : FetchOracle) (md5hex : LC → LC)
    (extractO : LC → Option LC) (items : List FeedItem) : ∀ st, ∃ r,
    buildChapters fetch md5hex extractO st items = .ok r ∧
    r.2.1.map (fun c => c.title) = items.map (fun i => i.title) := by
  induction items with
  | nil => intro st; exact ⟨(st, [], []), rfl, rfl⟩
  | cons i is ih =>
      intro st
      obtain ⟨r1, h1, ht1, _, _⟩ := create_chapter_ok fetch md5hex extractO st i
      obtain ⟨r2, h2, ht2⟩ := ih r1.1
      refine ⟨(r2.1, r1.2.1 :: r2.2.1, r1.2.2 ++ r2.2.2), ?_, ?_⟩
      · unfold buildChapters
        simp only [h1, h2]
      · simp [ht1, ht2]

/-- Claim C6: for a feed with `N` entries and a positive limit `L`, the
build succeeds and the document's linear reading order is the cover first,
followed by exactly `min N L` chapters titled by the first `L` feed
entries in original feed order. -/
theorem c6_reading_order (fetch : FetchOracle) (md5hex : LC → LC)
    (extractO : LC → Option LC) (iconF : FetchOracle) (metadata : FeedMetadata)
    (entries : List FeedEntry) (L : Int) (hL : 0 < L) :
    ∃ path doc,
      create_epub fetch md5hex extractO iconF metadata entries L = .ok (path, doc) ∧
      doc.spine.map (fun c => c.title) =
        "Cover".data :: (entries.take L.toNat).map (fun e => e.title) ∧
      doc.spine.length = 1 + min entries.length L.toNat := by
  have hitems : get_feed_items entries (some L) =
      (entries.take L.toNat).map (fun e => ⟨e.title, e.link, e.published⟩) := by
    unfold get_feed_items pySliceTo
    simp [hL.ne', hL.le]
  obtain ⟨r, hbc, hts⟩ := buildChapters_ok fetch md5hex extractO
    ((entries.take L.toNat).map (fun e => ⟨e.title, e.link, e.published⟩)) ⟨[], []⟩
  obtain ⟨rc, hcp, htc, _⟩ := create_cover_page_ok iconF md5hex r.1 metadata
  refine ⟨slugify metadata.title ++ ".epub".data,
    { spine := rc.2 :: r.2.1, toc := r.2.1, items := rc.1.bookItems }, ?_, ?_, ?_⟩
  · unfold create_epub
    rw [hitems]
    simp only [hbc]
    unfold save
    simp only [hcp]
  · simp only [List.map_cons, htc, hts, List.map_map]
    rfl
  · have hlen : r.2.1.length = (entries.take L.toNat).length := by
      have := congrArg List.length hts
      simpa using this
    simp only [List.length_cons, hlen, List.length_take]
    omega

/-- Witness for C6: three entries, limit 2. -/
theorem c6_reading_order_witness :
    ∃ path doc,
      create_epub (fun _ => none) (fun _ => []) (fun _ => none) (fun _ => none)
        ⟨"F".data, "http://f.example/".data, "D".data⟩
        [⟨"E1".data, "l1".data, "p1".data⟩, ⟨"E2".data, "l2".data, "p2".data⟩,
         ⟨"E3".data, "l3".data, "p3".data⟩] 2 = .ok (path, doc) ∧
      doc.spine.map (fun c => c.title) =
        "Cover".data ::
          ([⟨"E1".data, "l1".data, "p1".data⟩, ⟨"E2".data, "l2".data, "p2".data⟩,
            (⟨"E3".data, "l3".data, "p3".data⟩ : FeedEntry)].take (2 : Int).toNat).map
            (fun e => e.title) ∧
      doc.spine.length =
        1 + min [⟨"E1".data, "l1".data, "p1".data⟩, ⟨"E2".data, "l2".data, "p2".data⟩,
          (⟨"E3".data, "l3".data, "p3".data⟩ : FeedEntry)].length (2 : Int).toNat :=
  c6_reading_order (fun _ => none) (fun _ => []) (fun _ => none) (fun _ => none)
    ⟨"F".data, "http://f.example/".data, "D".data⟩
    [⟨"E1".data, "l1".data, "p1".data⟩, ⟨"E2".data, "l2".data, "p2".data⟩,
     ⟨"E3".data, "l3".data, "p3".data⟩] 2 (by decide)

/-- Claim C3: asset localization never raises: `_process_images` is total —
when the fragment does not parse the fragment and state are returned
unchanged, and when it parses the result is the reserialized tree in which
every image reference is either left with its original `src` (in
particular on any per-image download failure) or rewritten to the
localized name its resolved URL maps to in the download cache. -/
theorem c3_image_processing_never_raises (fetch : FetchOracle) (md5hex : LC → LC)
    (st : CreatorState) (content base : LC) :
    (∀ e, parseDocumentKB content = .error e →
      process_images fetch md5hex st content base = (st, content, [])) ∧
    (∀ root, parseDocumentKB content = .ok root →
      (process_images fetch md5hex st content base).2.1 =
        serNode false false 0 (processNode fetch md5hex base st root).2.1 ∧
      List.Forall₂ (srcOutcome base (processNode fetch md5hex base st root).1)
        (imgSrcsN root) (imgSrcsN (processNode fetch md5hex base st root).2.1)) := by
  constructor
  · intro e he
    unfold process_images
    rw [he]
  · intro root hr
    unfold process_images
    rw [hr]
    exact ⟨rfl, processNode_srcs fetch md5hex base st root⟩

/-- Witness for C3: a blank fragment is returned unchanged, and a fragment
with one image whose download fails keeps its original reference. -/
theorem c3_image_processing_never_raises_witness :
    process_images (fun _ => none) (fun _ => []) ⟨[], []⟩ [] "b".data =
      (⟨[], []⟩, [], []) ∧
    List.Forall₂
      (srcOutcome "b".data
        (processNode (fun _ => none) (fun _ => []) "b".data ⟨[], []⟩
          (ensureDoc (buildNodesKB (tokenize "<img src=\"x.png\"/>".data)))).1)
      (imgSrcsN (ensureDoc (buildNodesKB (tokenize "<img src=\"x.png\"/>".data))))
      (imgSrcsN (processNode (fun _ => none) (fun _ => []) "b".data ⟨[], []⟩
        (ensureDoc (buildNodesKB (tokenize "<img src=\"x.png\"/>".data)))).2.1) :=
  ⟨(c3_image_processing_never_raises (fun _ => none) (fun _ => []) ⟨[], []⟩ [] "b".data).1
      "Document is empty".data (by decide),
   ((c3_image_processing_never_raises (fun _ => none) (fun _ => []) ⟨[], []⟩
      "<img src=\"x.png\"/>".data "b".data).2
      (ensureDoc (buildNodesKB (tokenize "<img src=\"x.png\"/>".data))) (by decide)).2⟩

/-- Witness for C10: a concrete always-failing oracle. -/
theorem c10_failed_download_leaves_cache_witness :
    download_image (fun _ => none) (fun _ => "f00".data) ⟨[], []⟩
      "i.png".data "http://h.example/a/page.html".data =
      (⟨[], []⟩, none, ["http://h.example/a/i.png".data]) ∧
    (download_image (fun _ => none) (fun _ => "f00".data)
      (download_image (fun _ => none) (fun _ => "f00".data) ⟨[], []⟩
        "i.png".data "http://h.example/a/page.html".data).1
      "i.png".data "http://h.example/a/page.html".data).2.2 =
      ["http://h.example/a/i.png".data] :=
  c10_failed_download_leaves_cache (fun _ => none) (fun _ => "f00".data) ⟨[], []⟩
    "i.png".data "http://h.example/a/page.html".data "http://h.example/a/i.png".data
    (by decide) rfl (by decide)

end Rssbook
